import Mathlib

/-!
# Terminal raycasting engine (`WRT_OOP.cpp`)

A shallow embedding of the class `Raycaster` and of its member functions
`Initialize`, `Render`, `CastRays`, `HandleWallIntersection`, `HandleMovement`
and `HandleRotation`, and of the body of the loop of `Run`.

Conventions of the embedding.

* `float` and `double` values are elements of an arbitrary linearly ordered
  field `α` with a floor function.  The definitions can be run at `α = ℚ`;
  every theorem that is stated for all `α` holds in particular for `α = ℝ`.
* Rounding is explicit.  `f32` and `f64` round to the nearest binary32 and
  binary64 number, ties to even, with gradual underflow (overflow does not
  occur in the ranges used).  `blend` and `floorShade` round every `float`
  operation of the floor shading with `f32` and take the thresholds as the
  `double` constants `f64 (20/100)`, ...  The definitions `marchStepF`,
  `marchLoopF`, `castRayF`, `cornerPairF` and `HandleWallIntersectionF` are
  the ray march with every `float` operation rounded by a parameter `rnd`
  (`f32` in the compiled program); in them a comparison `acos(dot) < bound`
  is false when `acos` has no value (`dot` outside `[-1, 1]` or `d = 0`,
  where the program gets a NaN).  The definitions `marchStep`, `marchLoop`,
  `castRay`, `cornerPair` and `HandleWallIntersection` are the same code with
  operations that do not round.
* `int` values are integers (`ℤ`); `static_cast<int>` of a real is truncation
  towards zero (`toInt`).
* The functions of `<cmath>` that the program calls (`sinf`, `cosf`, `sqrt`,
  `acos`) are not part of the program: they are passed in as a record
  `MathFns α`.
* Reading `gameMap.c_str()[i]` outside `0 ≤ i ≤ size`, writing outside the
  screen buffer and dividing by a zero distance have no defined result in
  C++; the embedding reports them as a `Fault`.  The `while` loop of the ray
  march is run with an explicit amount of fuel.
* `std::sort` on the four corner pairs is the insertion sort `sortPairs`,
  which keeps equal keys in the order of the pushes; the theorems about the
  boundary test only use that the result is a sorted permutation, or apply to
  corners at pairwise different distances.
* Theorems about the geometry of the boundary test are stated over `ℝ`, with
  `Real.sin`, `Real.cos`, `Real.sqrt` and `Real.arccos` for the functions of
  `<cmath>`.
* `casterIndex` and `collisionIndex` are the index expressions of the two map
  lookups; `sampleX`, `sampleY` are the cell of the sample of pass `j` of the
  march; `marchReads` lists the map indices that the march loop reads, in the
  order of the passes.
-/

namespace Raycaster

/-- A situation in which the C++ program has no defined result, or in which the
fuel handed to the ray march is used up. -/
inductive Fault where
  | mapReadOutOfRange (index : ℤ)
  | bufferWriteOutOfRange (index : ℤ)
  | divisionByZero
  | outOfFuel
  deriving DecidableEq, Repr

instance instDecidableEqResult {ε β : Type} [DecidableEq ε] [DecidableEq β] :
    DecidableEq (Except ε β)
  | .ok a, .ok b => if h : a = b then isTrue (by rw [h]) else isFalse (by intro h1; cases h1; exact h rfl)
  | .error a, .error b =>
    if h : a = b then isTrue (by rw [h]) else isFalse (by intro h1; cases h1; exact h rfl)
  | .ok _, .error _ => isFalse (by intro h; cases h)
  | .error _, .ok _ => isFalse (by intro h; cases h)

/-- The functions of `<cmath>` used by the program. -/
structure MathFns (α : Type) where
  sinf : α → α
  cosf : α → α
  sqrt : α → α
  acos : α → α

/-- The data members of `class Raycaster` (the console handle apart).
`screenBuffer` is the `wchar_t` array of `screenWidth * screenHeight` cells. -/
structure Game (α : Type) where
  screenWidth : ℤ
  screenHeight : ℤ
  mapWidth : ℤ
  mapHeight : ℤ
  playerX : α
  playerY : α
  playerA : α
  fov : α
  depth : α
  speed : α
  gameMap : List Char
  screenBuffer : List Char

/-- The keys sampled with `GetAsyncKeyState`: `A` (rotate left), `D` (rotate
right), `W` (move forward) and `S` (move backward). -/
structure Intents where
  rotateLeft : Bool
  rotateRight : Bool
  moveForward : Bool
  moveBackward : Bool
  deriving DecidableEq, Repr

/-- The locals `distanceToWall`, `hitWall` and `boundary` of one column of
`CastRays`. -/
structure RayState (α : Type) where
  distanceToWall : α
  hitWall : Bool
  boundary : Bool

section Defs

variable {α : Type} [LinearOrderedField α] [FloorRing α]

/-- The conversion `static_cast<int>(x)`: truncation towards zero. -/
def toInt (x : α) : ℤ :=
  if 0 ≤ x then ⌊x⌋ else ⌈x⌉

/-- Rounding of a real to the nearest integer, a tie going to the even
neighbour. -/
def roundEven (q : α) : ℤ :=
  if q - (⌊q⌋ : α) < 1 / 2 then ⌊q⌋
  else if 1 / 2 < q - (⌊q⌋ : α) then ⌊q⌋ + 1
  else if ⌊q⌋ % 2 = 0 then ⌊q⌋
  else ⌊q⌋ + 1

/-- Rounding of a non-negative real to the binary floating-point format with
`p` significand bits whose smallest normal exponent is `emin` (round to
nearest, ties to even; below `2 ^ emin` the spacing stays that of the
subnormal numbers; a value beyond the largest finite number is not turned
into an infinity). -/
def roundMag (p : ℕ) (emin : ℤ) (x : α) : α :=
  let e := max (Int.log 2 x) emin
  (roundEven (x / (2 : α) ^ (e - ((p : ℤ) - 1))) : α) * (2 : α) ^ (e - ((p : ℤ) - 1))

/-- Rounding of a real to a binary floating-point format: the sign is kept
and the magnitude is rounded. -/
def roundBin (p : ℕ) (emin : ℤ) (x : α) : α :=
  if 0 ≤ x then roundMag p emin x else -roundMag p emin (-x)

/-- The result of a `float` operation whose exact result is `x`: IEEE 754
binary32, round to nearest even. -/
def f32 (x : α) : α := roundBin 24 (-126) x

/-- The value of a `double` literal, or the result of a `double` operation,
whose exact value is `x`: IEEE 754 binary64, round to nearest even. -/
def f64 (x : α) : α := roundBin 53 (-1022) x

/-- The read `s.c_str()[i]`: the characters of the string, then the
terminating NUL at index `size`; anything else is outside the storage. -/
def cstrAt (s : List Char) (i : ℤ) : Except Fault Char :=
  if i < 0 then .error (.mapReadOutOfRange i)
  else if h : i.toNat < s.length then .ok (s.get ⟨i.toNat, h⟩)
  else if i.toNat = s.length then .ok '\x00'
  else .error (.mapReadOutOfRange i)

/-- The map of the constructor `Raycaster::Raycaster`. -/
def builtinMap : List Char :=
  ("#########......." ++
   "#..............." ++
   "#.......########" ++
   "#..............#" ++
   "#......##......#" ++
   "#......##......#" ++
   "#......##......#" ++
   "#......#########" ++
   "#..............#" ++
   "#..............#" ++
   "#..............#" ++
   "#######....#####" ++
   "#..............#" ++
   "#..............#" ++
   "#..............#" ++
   "################").toList

/-- The constructor `Raycaster::Raycaster`; the buffer is allocated there and
filled with blanks by `Initialize`. -/
def init : Game α where
  screenWidth := 120
  screenHeight := 40
  mapWidth := 16
  mapHeight := 16
  playerX := 147 / 10
  playerY := 509 / 100
  playerA := 0
  fov := (314159 / 100000) / 3
  depth := 16
  speed := 5
  gameMap := builtinMap
  screenBuffer := List.replicate (120 * 40) ' '

/-- The local constant `stepSize = 0.01f` of `CastRays`. -/
def stepSize : α := 1 / 100

/-- The local constant `bound = 0.01f` of `HandleWallIntersection`. -/
def bound : α := 1 / 100

/-- Insertion of a pair into a list ordered by first component: the pair
goes in front of the first element that is greater, so behind the elements
that compare equal. -/
def insertPair (a : α × α) : List (α × α) → List (α × α)
  | [] => [a]
  | b :: l => if a.1 < b.1 then a :: b :: l else b :: insertPair a l

/-- The call `std::sort(p.begin(), p.end(), less-on-first)`, as the
insertion sort that the standard libraries run on a four-element range: the
elements are taken in the order in which they were pushed and each is
inserted into the part already sorted, so elements that compare equal keep
the order in which they were pushed. -/
def sortPairs (p : List (α × α)) : List (α × α) :=
  p.foldl (fun sorted a => insertPair a sorted) []

/-- The pair `(d, dot)` that `HandleWallIntersection` stores for the corner
`(testX + tileX, testY + tileY)` of the tile. -/
def cornerPair (m : MathFns α) (g : Game α) (testX testY : ℤ) (rayAngle : α)
    (tileX tileY : ℤ) : α × α :=
  let eyeX := m.sinf rayAngle
  let eyeY := m.cosf rayAngle
  let vy := (testY : α) + (tileY : α) - g.playerY
  let vx := (testX : α) + (tileX : α) - g.playerX
  let d := m.sqrt (vx * vx + vy * vy)
  let dot := (eyeX * vx / d) + (eyeY * vy / d)
  (d, dot)

/-- The vector `p` of `HandleWallIntersection`, in the order in which the two
nested loops push the corners. -/
def cornerPairs (m : MathFns α) (g : Game α) (testX testY : ℤ) (rayAngle : α) :
    List (α × α) :=
  [cornerPair m g testX testY rayAngle 0 0, cornerPair m g testX testY rayAngle 0 1,
   cornerPair m g testX testY rayAngle 1 0, cornerPair m g testX testY rayAngle 1 1]

/-- The test `acos(p.at(0).second) < bound || acos(p.at(1).second) < bound ||
acos(p.at(2).second) < bound` on the sorted vector. -/
def nearCorner (m : MathFns α) (p : List (α × α)) : Bool :=
  match p with
  | p0 :: p1 :: p2 :: _ =>
    decide (m.acos p0.2 < bound) || decide (m.acos p1.2 < bound) || decide (m.acos p2.2 < bound)
  | _ => false

/-- The member function `HandleWallIntersection`; the result is the pair of
the reference parameters `(hitWall, boundary)`. -/
def HandleWallIntersection (m : MathFns α) (g : Game α) (testX testY : ℤ)
    (_distanceToWall : α) (hitWall boundary : Bool) (rayAngle : α) :
    Except Fault (Bool × Bool) :=
  match cstrAt g.gameMap (testX * g.mapWidth + testY) with
  | .error e => .error e
  | .ok c =>
    if c = '#' then
      if nearCorner m (sortPairs (cornerPairs m g testX testY rayAngle)) then .ok (true, true)
      else .ok (true, boundary)
    else .ok (hitWall, boundary)

/-- One pass through the body of the `while` loop of `CastRays`. -/
def marchStep (m : MathFns α) (g : Game α) (rayAngle eyeX eyeY : α) (s : RayState α) :
    Except Fault (RayState α) :=
  let distanceToWall := s.distanceToWall + stepSize
  let testX := toInt (g.playerX + eyeX * distanceToWall)
  let testY := toInt (g.playerY + eyeY * distanceToWall)
  if testX < 0 ∨ testX ≥ g.mapWidth ∨ testY < 0 ∨ testY ≥ g.mapHeight then
    .ok ⟨g.depth, true, s.boundary⟩
  else
    match HandleWallIntersection m g testX testY distanceToWall s.hitWall s.boundary rayAngle with
    | .error e => .error e
    | .ok (hitWall, boundary) => .ok ⟨distanceToWall, hitWall, boundary⟩

/-- The loop `while (!hitWall && distanceToWall < depth)` of `CastRays`, run
for at most `fuel` passes. -/
def marchLoop (m : MathFns α) (g : Game α) (rayAngle eyeX eyeY : α) :
    ℕ → RayState α → Except Fault (RayState α)
  | fuel, s =>
    if s.hitWall = false ∧ s.distanceToWall < g.depth then
      match fuel with
      | 0 => .error .outOfFuel
      | fuel + 1 =>
        match marchStep m g rayAngle eyeX eyeY s with
        | .error e => .error e
        | .ok s1 => marchLoop m g rayAngle eyeX eyeY fuel s1
    else .ok s

/-- The value of `rayAngle` for the screen column `x`. -/
def rayAngleOf (g : Game α) (x : ℕ) : α :=
  (g.playerA - g.fov / 2) + ((x : α) / (g.screenWidth : α)) * g.fov

/-- Lines 126-155 of `CastRays`: the march of the ray of column `x`. -/
def castRay (m : MathFns α) (g : Game α) (fuel : ℕ) (x : ℕ) : Except Fault (RayState α) :=
  let rayAngle := rayAngleOf g x
  let eyeX := m.sinf rayAngle
  let eyeY := m.cosf rayAngle
  marchLoop m g rayAngle eyeX eyeY fuel ⟨0, false, false⟩

/-- The value of `ceiling` computed at line 158 of `CastRays`. -/
def ceilingOf (g : Game α) (distanceToWall : α) : ℤ :=
  toInt (((g.screenHeight : α) / 2) - (g.screenHeight : α) / distanceToWall)

/-- The value of `floor` computed at line 159 of `CastRays`. -/
def floorOf (g : Game α) (distanceToWall : α) : ℤ :=
  g.screenHeight - ceilingOf g distanceToWall

/-- Lines 162-181 of `CastRays`: the value of `shade` before the loop over
the rows. -/
def wallShade (g : Game α) (distanceToWall : α) (boundary : Bool) : Char :=
  let shade :=
    if distanceToWall ≤ g.depth / 4 then '█'
    else if distanceToWall < g.depth / 3 then '▓'
    else if distanceToWall < g.depth / 2 then '▒'
    else if distanceToWall < g.depth then '░'
    else ' '
  if boundary then ' ' else shade

/-- The value of the local `b` of line 192 of `CastRays` in the row `y`; each
of the operations is a `float` operation. -/
def blend (g : Game α) (y : ℕ) : α :=
  f32 (1 - f32 (f32 (f32 (y : α) - f32 (f32 (g.screenHeight : α) / 2)) /
    f32 (f32 (g.screenHeight : α) / 2)))

/-- Lines 192-207 of `CastRays`: the value given to `shade` in a floor row;
`b` is a `float` and is compared with the `double` constants `0.20`, `0.4`,
`0.60` and `0.8`. -/
def floorShade (g : Game α) (y : ℕ) : Char :=
  let b : α := blend g y
  if b < f64 (20 / 100) then '#'
  else if b < f64 (4 / 10) then 'x'
  else if b < f64 (60 / 100) then '.'
  else if b < f64 (8 / 10) then '-'
  else ' '

/-- The position `y * screenWidth + x` of a cell in `screenBuffer`. -/
def cellIndex (g : Game α) (x y : ℕ) : ℕ :=
  ((y : ℤ) * g.screenWidth + (x : ℤ)).toNat

/-- One pass through the body of the loop over the rows of column `x`.  The
state is the variable `shade` together with the buffer: a floor row
overwrites `shade`. -/
def drawRow (g : Game α) (x : ℕ) (ceiling floor : ℤ) (st : Char × List Char) (y : ℕ) :
    Char × List Char :=
  if (y : ℤ) ≤ ceiling then
    (st.1, st.2.set (cellIndex g x y) ' ')
  else if (y : ℤ) > ceiling ∧ (y : ℤ) ≤ floor then
    (st.1, st.2.set (cellIndex g x y) st.1)
  else
    let shade := floorShade g y
    (shade, st.2.set (cellIndex g x y) shade)

/-- Lines 157-210 of `CastRays`: the buffer after the rows of column `x`
have been written, for the values of `distanceToWall` and `boundary` with
which the march ended. -/
def drawColumn (g : Game α) (x : ℕ) (distanceToWall : α) (boundary : Bool) : List Char :=
  ((List.range g.screenHeight.toNat).foldl
    (drawRow g x (ceilingOf g distanceToWall) (floorOf g distanceToWall))
    (wallShade g distanceToWall boundary, g.screenBuffer)).2

/-- The body of the loop over the columns of `CastRays`. -/
def castColumn (m : MathFns α) (fuel : ℕ) (g : Game α) (x : ℕ) : Except Fault (Game α) :=
  match castRay m g fuel x with
  | .error e => .error e
  | .ok s =>
    if s.distanceToWall = 0 then .error .divisionByZero
    else .ok { g with screenBuffer := drawColumn g x s.distanceToWall s.boundary }

/-- The loop over the columns of `CastRays`, on the columns still to do. -/
def castColumns (m : MathFns α) (fuel : ℕ) : List ℕ → Game α → Except Fault (Game α)
  | [], g => .ok g
  | x :: xs, g =>
    match castColumn m fuel g x with
    | .error e => .error e
    | .ok g1 => castColumns m fuel xs g1

/-- The member function `CastRays`. -/
def CastRays (m : MathFns α) (fuel : ℕ) (g : Game α) : Except Fault (Game α) :=
  castColumns m fuel (List.range g.screenWidth.toNat) g

/-- The map read `gameMap.c_str()[(int)playerX * mapWidth + (int)playerY]` of
the collision test of `HandleMovement`. -/
def collisionCell (g : Game α) : Except Fault Char :=
  cstrAt g.gameMap (toInt g.playerX * g.mapWidth + toInt g.playerY)

/-- Lines 217-224 of `HandleMovement`: the block run when `W` is held. -/
def moveForward (m : MathFns α) (frameElapsedTime : α) (g : Game α) : Except Fault (Game α) :=
  let g1 := { g with
    playerX := g.playerX + m.sinf g.playerA * g.speed * frameElapsedTime
    playerY := g.playerY + m.cosf g.playerA * g.speed * frameElapsedTime }
  match collisionCell g1 with
  | .error e => .error e
  | .ok c =>
    if c = '#' then
      .ok { g1 with
        playerX := g1.playerX - m.sinf g1.playerA * g1.speed * frameElapsedTime
        playerY := g1.playerY - m.cosf g1.playerA * g1.speed * frameElapsedTime }
    else .ok g1

/-- Lines 227-234 of `HandleMovement`: the block run when `S` is held. -/
def moveBackward (m : MathFns α) (frameElapsedTime : α) (g : Game α) : Except Fault (Game α) :=
  let g1 := { g with
    playerX := g.playerX - m.sinf g.playerA * g.speed * frameElapsedTime
    playerY := g.playerY - m.cosf g.playerA * g.speed * frameElapsedTime }
  match collisionCell g1 with
  | .error e => .error e
  | .ok c =>
    if c = '#' then
      .ok { g1 with
        playerX := g1.playerX + m.sinf g1.playerA * g1.speed * frameElapsedTime
        playerY := g1.playerY + m.cosf g1.playerA * g1.speed * frameElapsedTime }
    else .ok g1

/-- The member function `HandleMovement`. -/
def HandleMovement (m : MathFns α) (keys : Intents) (frameElapsedTime : α) (g : Game α) :
    Except Fault (Game α) :=
  match (if keys.moveForward then moveForward m frameElapsedTime g else .ok g) with
  | .error e => .error e
  | .ok g1 => if keys.moveBackward then moveBackward m frameElapsedTime g1 else .ok g1

/-- The member function `HandleRotation`; the constant is `0.35f`. -/
def HandleRotation (keys : Intents) (frameElapsedTime : α) (g : Game α) : Game α :=
  let g1 :=
    if keys.rotateLeft then
      { g with playerA := g.playerA - (g.speed * (35 / 100)) * frameElapsedTime }
    else g
  if keys.rotateRight then
    { g1 with playerA := g1.playerA + (g1.speed * (35 / 100)) * frameElapsedTime }
  else g1

/-- The member function `Initialize`: every cell of the buffer is set to a
blank (the buffer is then written to the console). -/
def Initialize (g : Game α) : Game α :=
  let cells := List.range (g.screenWidth * g.screenHeight).toNat
  { g with screenBuffer := cells.foldl (fun buf i => buf.set i ' ') g.screenBuffer }

/-- The member function `Render`: the last cell of the buffer is overwritten
with NUL and the buffer is written to the console; the buffer of the result
is the grid displayed. -/
def Render (g : Game α) : Except Fault (Game α) :=
  let i := g.screenWidth * g.screenHeight - 1
  if i < 0 ∨ (g.screenBuffer.length : ℤ) ≤ i then .error (.bufferWriteOutOfRange i)
  else .ok { g with screenBuffer := g.screenBuffer.set i.toNat '\x00' }

/-- One pass through the loop of `Run`, for the keys held during the frame and
the elapsed time measured: `Render`, `HandleRotation`, `HandleMovement`,
`CastRays`. -/
def runFrame (m : MathFns α) (fuel : ℕ) (keys : Intents) (frameElapsedTime : α) (g : Game α) :
    Except Fault (Game α) :=
  match Render g with
  | .error e => .error e
  | .ok g1 =>
    match HandleMovement m keys frameElapsedTime (HandleRotation keys frameElapsedTime g1) with
    | .error e => .error e
    | .ok g2 => CastRays m fuel g2

/-- How dense a wall glyph is: 4 for the solid block, 3, 2, 1 for the dark,
medium and light shades, 0 for the blank (and anything else). -/
def shadeTier (c : Char) : ℕ :=
  if c = '█' then 4 else if c = '▓' then 3 else if c = '▒' then 2 else if c = '░' then 1 else 0

/-- The map of the scenario of the specification: 16x16, the border cells are
walls and the interior cells are empty. -/
def borderedMap : List Char :=
  ("################" ++
   "#..............#" ++
   "#..............#" ++
   "#..............#" ++
   "#..............#" ++
   "#..............#" ++
   "#..............#" ++
   "#..............#" ++
   "#..............#" ++
   "#..............#" ++
   "#..............#" ++
   "#..............#" ++
   "#..............#" ++
   "#..............#" ++
   "#..............#" ++
   "################").toList

/-- A record of stand-ins for the functions of `<cmath>` over `ℚ`, used to run
the definitions: `sinf` and `cosf` are the rational parametrisation of the
unit circle (so `sinf 0 = 0`, `cosf 0 = 1` and `sinf² + cosf² = 1`), `sqrt` and
`acos` are placeholders. -/
def ratFns : MathFns ℚ where
  sinf := fun a => 2 * a / (1 + a * a)
  cosf := fun a => (1 - a * a) / (1 + a * a)
  sqrt := fun a => a
  acos := fun a => 1 - a

/-- The glyph that the loop over the rows leaves in row `y` of a column, in
terms of the values of `ceiling`, `floor` and `shade` before the loop (see
`drawRows_spec`). -/
def rowGlyph (g : Game α) (ceiling floor : ℤ) (shade : Char) (y : ℕ) : Char :=
  if (y : ℤ) ≤ ceiling then ' '
  else if (y : ℤ) ≤ floor then shade
  else floorShade g y

/-- The game `g` with `buf` as its screen buffer. -/
abbrev withBuffer (g : Game α) (buf : List Char) : Game α :=
  { g with screenBuffer := buf }

/-- How dense a floor glyph is: 4 for `#`, 3 for `x`, 2 for `.`, 1 for `-`,
0 for the blank (and anything else). -/
def floorTier (c : Char) : ℕ :=
  if c = '#' then 4 else if c = 'x' then 3 else if c = '.' then 2 else if c = '-' then 1 else 0

/-- The index `testX * mapWidth + testY` at which `HandleWallIntersection`
reads the map for the cell `(testX, testY)` (line 248). -/
def casterIndex (g : Game α) (testX testY : ℤ) : ℤ :=
  testX * g.mapWidth + testY

/-- The index `(int)playerX * mapWidth + (int)playerY` at which
`HandleMovement` reads the map when the truncated player position is the cell
`(cellX, cellY)` (lines 220 and 230). -/
def collisionIndex (g : Game α) (cellX cellY : ℤ) : ℤ :=
  cellX * g.mapWidth + cellY

/-- The cell coordinate `testX` of the sample of pass `j` of the march: in
exact arithmetic the distance of that sample is `j * stepSize`. -/
def sampleX (g : Game α) (eyeX : α) (j : ℕ) : ℤ :=
  toInt (g.playerX + eyeX * ((j : α) * stepSize))

/-- The cell coordinate `testY` of the sample of pass `j` of the march. -/
def sampleY (g : Game α) (eyeY : α) (j : ℕ) : ℤ :=
  toInt (g.playerY + eyeY * ((j : α) * stepSize))

/-- The negation of the test `testX < 0 || testX >= mapWidth || testY < 0 ||
testY >= mapHeight` of line 147. -/
def inRange (g : Game α) (testX testY : ℤ) : Prop :=
  ¬ (testX < 0 ∨ testX ≥ g.mapWidth ∨ testY < 0 ∨ testY ≥ g.mapHeight)

instance instDecidableInRange (g : Game α) (testX testY : ℤ) : Decidable (inRange g testX testY) := by
  unfold inRange
  infer_instance

/-- The cell `(testX, testY)` is read from the map by the caster as `#`. -/
def wallAt (g : Game α) (testX testY : ℤ) : Prop :=
  cstrAt g.gameMap (testX * g.mapWidth + testY) = .ok '#'

instance instDecidableWallAt (g : Game α) (testX testY : ℤ) : Decidable (wallAt g testX testY) := by
  unfold wallAt
  infer_instance

/-- The cell `(testX, testY)` is read from the map by the caster as a character
other than `#`. -/
def emptyAt (g : Game α) (testX testY : ℤ) : Prop :=
  ∃ c, c ≠ '#' ∧ cstrAt g.gameMap (testX * g.mapWidth + testY) = .ok c

/-- The indices at which the map is read during the march: a pass whose
sample passes the range test calls `HandleWallIntersection`, which reads
`gameMap.c_str()[testX * mapWidth + testY]`. -/
def marchReads (m : MathFns α) (g : Game α) (rayAngle eyeX eyeY : α) :
    ℕ → RayState α → List ℤ
  | 0, _ => []
  | fuel + 1, s =>
    if s.hitWall = false ∧ s.distanceToWall < g.depth then
      let distanceToWall := s.distanceToWall + stepSize
      let testX := toInt (g.playerX + eyeX * distanceToWall)
      let testY := toInt (g.playerY + eyeY * distanceToWall)
      let read :=
        if testX < 0 ∨ testX ≥ g.mapWidth ∨ testY < 0 ∨ testY ≥ g.mapHeight then []
        else [testX * g.mapWidth + testY]
      match marchStep m g rayAngle eyeX eyeY s with
      | .error _ => read
      | .ok s1 => read ++ marchReads m g rayAngle eyeX eyeY fuel s1
    else []

/-- The palette of the output grid: the blank, the four wall shades and the
four floor glyphs. -/
def palette : List Char := [' ', '█', '▓', '▒', '░', '#', 'x', '.', '-']

/-- The number of halvings that bring `N` below `2 ^ 24`, at most `fuel`. -/
def shift24 : ℕ → ℕ → ℕ
  | 0, _ => 0
  | fuel + 1, N => if N < 16777216 then 0 else shift24 fuel (N / 2) + 1

/-- Rounding of a natural number to 24 significant bits, a tie going to the
even neighbour: the binary32 rounding on a grid of equal steps. -/
def rne24 (N : ℕ) : ℕ :=
  let s := shift24 N N
  let q := N / 2 ^ s
  let r := N % 2 ^ s
  if 2 * r < 2 ^ s then q * 2 ^ s
  else if 2 ^ s < 2 * r then (q + 1) * 2 ^ s
  else if q % 2 = 0 then q * 2 ^ s
  else (q + 1) * 2 ^ s

/-- The binary32 value of `distanceToWall` after `k` additions of `stepSize`,
in units of `2 ^ (-30)`; `0.01f` is 10737418 units. -/
def accUnits (k : ℕ) : ℕ := (fun N => rne24 (N + 10737418))^[k] 0

/-- The value of `distanceToWall` after `k` passes of the loop of `CastRays`
that neither left the map nor hit a wall: `k` additions of `stepSize`, each
rounded by `rnd`. -/
def accDist (rnd : α → α) (k : ℕ) : α := (fun d => rnd (d + rnd stepSize))^[k] 0
/-- The pair `(d, dot)` that `HandleWallIntersection` stores for the corner
`(testX + tileX, testY + tileY)` of the tile, with the result of each `float`
operation rounded by `rnd` (`f32` for the compiled program, the identity for
exact arithmetic). -/
def cornerPairF (rnd : α → α) (m : MathFns α) (g : Game α) (testX testY : ℤ) (rayAngle : α)
    (tileX tileY : ℤ) : α × α :=
  let eyeX := rnd (m.sinf rayAngle)
  let eyeY := rnd (m.cosf rayAngle)
  let vy := rnd (rnd (rnd (testY : α) + rnd (tileY : α)) - g.playerY)
  let vx := rnd (rnd (rnd (testX : α) + rnd (tileX : α)) - g.playerX)
  let d := rnd (m.sqrt (rnd (rnd (vx * vx) + rnd (vy * vy))))
  let dot := rnd (rnd (rnd (eyeX * vx) / d) + rnd (rnd (eyeY * vy) / d))
  (d, dot)

/-- The vector `p` of `HandleWallIntersection` with rounded operations, in the
order in which the two nested loops push the corners. -/
def cornerPairsF (rnd : α → α) (m : MathFns α) (g : Game α) (testX testY : ℤ)
    (rayAngle : α) : List (α × α) :=
  [cornerPairF rnd m g testX testY rayAngle 0 0, cornerPairF rnd m g testX testY rayAngle 0 1,
   cornerPairF rnd m g testX testY rayAngle 1 0, cornerPairF rnd m g testX testY rayAngle 1 1]

/-- The comparison `acos(p.second) < bound` for a pair `p = (d, dot)` of
floating-point numbers; `bound` is `0.01f`.  A `dot` outside `[-1, 1]` makes
`acos` return a NaN, and so does a `dot` obtained through a division by
`d = 0`, which is an infinity or a NaN; a comparison with a NaN is false. -/
def seenAtCorner (rnd : α → α) (m : MathFns α) (p : α × α) : Bool :=
  decide (p.1 ≠ 0 ∧ -1 ≤ p.2 ∧ p.2 ≤ 1 ∧ m.acos p.2 < rnd bound)

/-- The test `acos(p.at(0).second) < bound || acos(p.at(1).second) < bound ||
acos(p.at(2).second) < bound` on the sorted vector, for floating-point
numbers. -/
def nearCornerF (rnd : α → α) (m : MathFns α) (p : List (α × α)) : Bool :=
  match p with
  | p0 :: p1 :: p2 :: _ => seenAtCorner rnd m p0 || seenAtCorner rnd m p1 || seenAtCorner rnd m p2
  | _ => false

/-- The member function `HandleWallIntersection` with rounded operations; the
result is the pair of the reference parameters `(hitWall, boundary)`. -/
def HandleWallIntersectionF (rnd : α → α) (m : MathFns α) (g : Game α) (testX testY : ℤ)
    (_distanceToWall : α) (hitWall boundary : Bool) (rayAngle : α) :
    Except Fault (Bool × Bool) :=
  match cstrAt g.gameMap (testX * g.mapWidth + testY) with
  | .error e => .error e
  | .ok c =>
    if c = '#' then
      if nearCornerF rnd m (sortPairs (cornerPairsF rnd m g testX testY rayAngle)) then
        .ok (true, true)
      else .ok (true, boundary)
    else .ok (hitWall, boundary)

/-- One pass through the body of the `while` loop of `CastRays`, with rounded
operations. -/
def marchStepF (rnd : α → α) (m : MathFns α) (g : Game α) (rayAngle eyeX eyeY : α)
    (s : RayState α) : Except Fault (RayState α) :=
  let distanceToWall := rnd (s.distanceToWall + rnd stepSize)
  let testX := toInt (rnd (g.playerX + rnd (eyeX * distanceToWall)))
  let testY := toInt (rnd (g.playerY + rnd (eyeY * distanceToWall)))
  if testX < 0 ∨ testX ≥ g.mapWidth ∨ testY < 0 ∨ testY ≥ g.mapHeight then
    .ok ⟨g.depth, true, s.boundary⟩
  else
    match HandleWallIntersectionF rnd m g testX testY distanceToWall s.hitWall s.boundary
      rayAngle with
    | .error e => .error e
    | .ok (hitWall, boundary) => .ok ⟨distanceToWall, hitWall, boundary⟩

/-- The loop `while (!hitWall && distanceToWall < depth)` of `CastRays` with
rounded operations, run for at most `fuel` passes. -/
def marchLoopF (rnd : α → α) (m : MathFns α) (g : Game α) (rayAngle eyeX eyeY : α) :
    ℕ → RayState α → Except Fault (RayState α)
  | fuel, s =>
    if s.hitWall = false ∧ s.distanceToWall < g.depth then
      match fuel with
      | 0 => .error .outOfFuel
      | fuel + 1 =>
        match marchStepF rnd m g rayAngle eyeX eyeY s with
        | .error e => .error e
        | .ok s1 => marchLoopF rnd m g rayAngle eyeX eyeY fuel s1
    else .ok s

/-- The value of `rayAngle` for the screen column `x`, with rounded
operations. -/
def rayAngleOfF (rnd : α → α) (g : Game α) (x : ℕ) : α :=
  rnd (rnd (g.playerA - rnd (g.fov / 2)) +
    rnd (rnd (rnd (x : α) / rnd (g.screenWidth : α)) * g.fov))

/-- Lines 126-155 of `CastRays` with rounded operations: the march of the ray
of column `x`. -/
def castRayF (rnd : α → α) (m : MathFns α) (g : Game α) (fuel : ℕ) (x : ℕ) :
    Except Fault (RayState α) :=
  let rayAngle := rayAngleOfF rnd g x
  let eyeX := rnd (m.sinf rayAngle)
  let eyeY := rnd (m.cosf rayAngle)
  marchLoopF rnd m g rayAngle eyeX eyeY fuel ⟨0, false, false⟩

/-- The cell coordinate `testX` of the sample of pass `k` of the march with
rounded operations, as long as no earlier pass ended the march. -/
def sampleXF (rnd : α → α) (g : Game α) (eyeX : α) (k : ℕ) : ℤ :=
  toInt (rnd (g.playerX + rnd (eyeX * accDist rnd k)))

/-- The cell coordinate `testY` of the sample of pass `k` of the march with
rounded operations. -/
def sampleYF (rnd : α → α) (g : Game α) (eyeY : α) (k : ℕ) : ℤ :=
  toInt (rnd (g.playerY + rnd (eyeY * accDist rnd k)))

end Defs

section Lemmas
variable {α : Type} [LinearOrderedField α] [FloorRing α]

/-- The rounding to nearest even lies between the floor and its successor. -/
theorem roundEven_mem (q : α) : roundEven q = ⌊q⌋ ∨ roundEven q = ⌊q⌋ + 1 := by
  unfold roundEven
  split_ifs <;> simp

/-- An integer is rounded to itself. -/
theorem roundEven_intCast (n : ℤ) : roundEven (n : α) = n := by
  unfold roundEven
  rw [Int.floor_intCast, sub_self, if_pos (by norm_num)]

/-- Rounding to nearest even is monotone. -/
theorem roundEven_mono {q1 q2 : α} (h : q1 ≤ q2) : roundEven q1 ≤ roundEven q2 := by
  have hf : ⌊q1⌋ ≤ ⌊q2⌋ := Int.floor_mono h
  rcases hf.lt_or_eq with hlt | heq
  · rcases roundEven_mem q1 with h1 | h1 <;> rcases roundEven_mem q2 with h2 | h2 <;>
      rw [h1, h2] <;> omega
  · unfold roundEven
    rw [heq]
    have hr : q1 - (⌊q2⌋ : α) ≤ q2 - (⌊q2⌋ : α) := by linarith
    split_ifs <;> first | omega | (exfalso; linarith)

/-- A value below the midpoint of `[n, n + 1]` is rounded to `n`. -/
theorem roundEven_of_lt (q : α) (n : ℤ) (h1 : (n : α) ≤ q) (h2 : q < (n : α) + 1 / 2) :
    roundEven q = n := by
  have hf : ⌊q⌋ = n := Int.floor_eq_iff.mpr ⟨h1, by linarith⟩
  unfold roundEven
  rw [hf, if_pos (by linarith)]

/-- A value above the midpoint of `[n, n + 1]` is rounded to `n + 1`. -/
theorem roundEven_of_gt (q : α) (n : ℤ) (h1 : (n : α) + 1 / 2 < q) (h2 : q < (n : α) + 1) :
    roundEven q = n + 1 := by
  have hf : ⌊q⌋ = n := Int.floor_eq_iff.mpr ⟨by linarith, h2⟩
  unfold roundEven
  rw [hf, if_neg (by linarith), if_pos (by linarith)]

/-- The midpoint of `[n, n + 1]` is rounded to the even end. -/
theorem roundEven_of_tie (q : α) (n : ℤ) (h : q = (n : α) + 1 / 2) :
    roundEven q = if n % 2 = 0 then n else n + 1 := by
  have hf : ⌊q⌋ = n := Int.floor_eq_iff.mpr ⟨by linarith, by linarith⟩
  unfold roundEven
  rw [hf, if_neg (by linarith), if_neg (by linarith)]
/-- The binary exponent of a positive real is below `e` exactly when the real
is below `2 ^ e`. -/
theorem log_two_lt_iff (x : α) (hx : 0 < x) (e : ℤ) : Int.log 2 x < e ↔ x < (2 : α) ^ e := by
  have h := @Int.lt_zpow_iff_log_lt α _ _ 2 one_lt_two e x hx
  rw [Nat.cast_ofNat] at h
  exact h.symm

/-- The binary exponent of a positive real is at least `e` exactly when the
real is at least `2 ^ e`. -/
theorem le_log_two_iff (x : α) (hx : 0 < x) (e : ℤ) : e ≤ Int.log 2 x ↔ (2 : α) ^ e ≤ x := by
  have h := @Int.zpow_le_iff_le_log α _ _ 2 one_lt_two e x hx
  rw [Nat.cast_ofNat] at h
  exact h.symm

/-- The exponent that `roundMag` uses for a positive real of the binade
`[2 ^ e, 2 ^ (e + 1))`, or of the subnormal range when `e = emin`. -/
theorem max_log_eq (emin : ℤ) (x : α) (e : ℤ) (hx : 0 < x) (he : emin ≤ e)
    (h2 : x < (2 : α) ^ (e + 1)) (h1 : (2 : α) ^ e ≤ x ∨ e = emin) :
    max (Int.log 2 x) emin = e := by
  have hlt : Int.log 2 x < e + 1 := (log_two_lt_iff x hx (e + 1)).mpr h2
  rcases h1 with h1 | h1
  · have hle : e ≤ Int.log 2 x := (le_log_two_iff x hx e).mpr h1
    rw [max_eq_left (by omega)]
    omega
  · subst h1
    rw [max_eq_right (by omega)]

/-- The value of `roundMag` on a positive real of the binade
`[2 ^ e, 2 ^ (e + 1))`, or of the subnormal range when `e = emin`. -/
theorem roundMag_eq (p : ℕ) (emin : ℤ) (x : α) (e : ℤ) (hx : 0 < x) (he : emin ≤ e)
    (h2 : x < (2 : α) ^ (e + 1)) (h1 : (2 : α) ^ e ≤ x ∨ e = emin) :
    roundMag p emin x =
      (roundEven (x / (2 : α) ^ (e - ((p : ℤ) - 1))) : α) * (2 : α) ^ (e - ((p : ℤ) - 1)) := by
  unfold roundMag
  simp only []
  rw [max_log_eq emin x e hx he h2 h1]

/-- Zero is rounded to zero. -/
theorem roundMag_zero (p : ℕ) (emin : ℤ) : roundMag p emin (0 : α) = 0 := by
  unfold roundMag
  simp only [zero_div]
  have : roundEven (0 : α) = 0 := by
    have := @roundEven_intCast α _ _ 0
    simpa using this
  rw [this]
  simp

/-- The rounded magnitude is not negative. -/
theorem roundMag_nonneg (p : ℕ) (emin : ℤ) (x : α) (hx : 0 ≤ x) : 0 ≤ roundMag p emin x := by
  unfold roundMag
  simp only []
  have hu : (0 : α) < (2 : α) ^ (max (Int.log 2 x) emin - ((p : ℤ) - 1)) := zpow_pos two_pos _
  have h0 : roundEven (0 : α) = 0 := by
    have := @roundEven_intCast α _ _ 0
    simpa using this
  have h1 : (0 : ℤ) ≤ roundEven (x / (2 : α) ^ (max (Int.log 2 x) emin - ((p : ℤ) - 1))) := by
    rw [← h0]
    exact roundEven_mono (div_nonneg hx hu.le)
  exact mul_nonneg (by exact_mod_cast h1) hu.le

/-- A positive real is below the upper end of the binade that `roundMag`
uses for it. -/
theorem lt_zpow_max_log (emin : ℤ) (x : α) (hx : 0 < x) :
    x < (2 : α) ^ (max (Int.log 2 x) emin + 1) := by
  rw [← log_two_lt_iff x hx]
  have := le_max_left (Int.log 2 x) emin
  omega

/-- The rounded magnitude of a positive real does not pass the upper end of
its binade. -/
theorem roundMag_le_zpow (p : ℕ) (hp : 1 ≤ p) (emin : ℤ) (x : α) (hx : 0 < x) :
    roundMag p emin x ≤ (2 : α) ^ (max (Int.log 2 x) emin + 1) := by
  unfold roundMag
  simp only []
  set e := max (Int.log 2 x) emin with he
  have hu : (0 : α) < (2 : α) ^ (e - ((p : ℤ) - 1)) := zpow_pos two_pos _
  have hlt : x < (2 : α) ^ (e + 1) := lt_zpow_max_log emin x hx
  have hsplit : (2 : α) ^ (e + 1) = (((2 : ℤ) ^ p : ℤ) : α) * (2 : α) ^ (e - ((p : ℤ) - 1)) := by
    push_cast
    rw [← zpow_natCast (2 : α) p, ← zpow_add₀ (two_ne_zero)]
    congr 1
    ring
  have hq : x / (2 : α) ^ (e - ((p : ℤ) - 1)) ≤ (((2 : ℤ) ^ p : ℤ) : α) := by
    rw [div_le_iff₀ hu, ← hsplit]
    exact hlt.le
  have hr : roundEven (x / (2 : α) ^ (e - ((p : ℤ) - 1))) ≤ (2 : ℤ) ^ p := by
    have := roundEven_mono hq
    rwa [roundEven_intCast] at this
  rw [hsplit]
  exact mul_le_mul_of_nonneg_right (by exact_mod_cast hr) hu.le

/-- The rounded magnitude of a real of at least `2 ^ e`, `e` being the
exponent that `roundMag` uses, is at least `2 ^ e`. -/
theorem zpow_le_roundMag (p : ℕ) (hp : 1 ≤ p) (emin : ℤ) (x : α)
    (h : (2 : α) ^ (max (Int.log 2 x) emin) ≤ x) :
    (2 : α) ^ (max (Int.log 2 x) emin) ≤ roundMag p emin x := by
  unfold roundMag
  simp only []
  set e := max (Int.log 2 x) emin with he
  have hu : (0 : α) < (2 : α) ^ (e - ((p : ℤ) - 1)) := zpow_pos two_pos _
  have hsplit : (2 : α) ^ e = (((2 : ℤ) ^ (p - 1) : ℤ) : α) * (2 : α) ^ (e - ((p : ℤ) - 1)) := by
    push_cast
    rw [← zpow_natCast (2 : α) (p - 1), ← zpow_add₀ (two_ne_zero)]
    congr 1
    rw [Nat.cast_sub hp]
    push_cast
    ring
  have hq : (((2 : ℤ) ^ (p - 1) : ℤ) : α) ≤ x / (2 : α) ^ (e - ((p : ℤ) - 1)) := by
    rw [le_div_iff₀ hu, ← hsplit]
    exact h
  have hr : (2 : ℤ) ^ (p - 1) ≤ roundEven (x / (2 : α) ^ (e - ((p : ℤ) - 1))) := by
    have := roundEven_mono hq
    rwa [roundEven_intCast] at this
  rw [hsplit]
  exact mul_le_mul_of_nonneg_right (by exact_mod_cast hr) hu.le
/-- The rounding of magnitudes is monotone. -/
theorem roundMag_mono (p : ℕ) (hp : 1 ≤ p) (emin : ℤ) (x y : α) (hx : 0 ≤ x) (hxy : x ≤ y) :
    roundMag p emin x ≤ roundMag p emin y := by
  rcases hx.eq_or_lt with h0 | hpos
  · rw [← h0, roundMag_zero]
    exact roundMag_nonneg p emin y (hx.trans hxy)
  · have hy : 0 < y := hpos.trans_le hxy
    have hlog : Int.log 2 x ≤ Int.log 2 y := Int.log_mono_right hpos hxy
    have hle : max (Int.log 2 x) emin ≤ max (Int.log 2 y) emin := max_le_max hlog le_rfl
    rcases hle.eq_or_lt with heq | hlt
    · unfold roundMag
      simp only []
      rw [heq]
      have hu : (0 : α) < (2 : α) ^ (max (Int.log 2 y) emin - ((p : ℤ) - 1)) :=
        zpow_pos two_pos _
      refine mul_le_mul_of_nonneg_right ?_ hu.le
      exact_mod_cast roundEven_mono (div_le_div_of_nonneg_right hxy hu.le)
    · have h1 := roundMag_le_zpow p hp emin x hpos
      have hey : max (Int.log 2 y) emin = Int.log 2 y := by
        apply max_eq_left
        by_contra hcon
        push_neg at hcon
        rw [max_eq_right hcon.le] at hlt
        have := le_max_right (Int.log 2 x) emin
        omega
      have h2 : (2 : α) ^ (max (Int.log 2 y) emin) ≤ y := by
        rw [hey]
        have := @Int.zpow_log_le_self α _ _ 2 y one_lt_two hy
        rwa [Nat.cast_ofNat] at this
      have h3 := zpow_le_roundMag p hp emin y h2
      have h4 : (2 : α) ^ (max (Int.log 2 x) emin + 1) ≤ (2 : α) ^ (max (Int.log 2 y) emin) :=
        zpow_le_zpow_right₀ one_le_two (by omega)
      exact h1.trans (h4.trans h3)

/-- A rounded magnitude is rounded to itself. -/
theorem roundMag_idem (p : ℕ) (hp : 1 ≤ p) (emin : ℤ) (x : α) (hx : 0 ≤ x) :
    roundMag p emin (roundMag p emin x) = roundMag p emin x := by
  rcases hx.eq_or_lt with h0 | hpos
  · rw [← h0, roundMag_zero, roundMag_zero]
  · have hle := roundMag_le_zpow p hp emin x hpos
    have hnn := roundMag_nonneg p emin x hx
    rcases hnn.eq_or_lt with hz | hypos
    · rw [← hz, roundMag_zero]
    · set e := max (Int.log 2 x) emin with he
      have hemin : emin ≤ e := le_max_right _ _
      have hu : (0 : α) < (2 : α) ^ (e - ((p : ℤ) - 1)) := zpow_pos two_pos _
      have hval : roundMag p emin x =
          (roundEven (x / (2 : α) ^ (e - ((p : ℤ) - 1))) : α) * (2 : α) ^ (e - ((p : ℤ) - 1)) :=
        rfl
      rcases hle.eq_or_lt with htop | hlt
      · rw [roundMag_eq p emin _ (e + 1) hypos (by omega)
          (by rw [htop]; exact zpow_lt_zpow_right₀ one_lt_two (by omega))
          (Or.inl htop.ge), htop]
        have hsplit : (2 : α) ^ (e + 1) =
            (((2 : ℤ) ^ (p - 1) : ℤ) : α) * (2 : α) ^ (e + 1 - ((p : ℤ) - 1)) := by
          push_cast
          rw [← zpow_natCast (2 : α) (p - 1), ← zpow_add₀ (two_ne_zero)]
          congr 1
          rw [Nat.cast_sub hp]
          push_cast
          ring
        have hu1 : (0 : α) < (2 : α) ^ (e + 1 - ((p : ℤ) - 1)) := zpow_pos two_pos _
        have hq : (2 : α) ^ (e + 1) / (2 : α) ^ (e + 1 - ((p : ℤ) - 1)) =
            (((2 : ℤ) ^ (p - 1) : ℤ) : α) := by
          rw [div_eq_iff hu1.ne']
          exact hsplit
        rw [hq, roundEven_intCast]
        exact hsplit.symm
      · have h1 : (2 : α) ^ e ≤ roundMag p emin x ∨ e = emin := by
          by_cases hc : e = emin
          · exact Or.inr hc
          · left
            have hey : e = Int.log 2 x := by
              rw [he]
              apply max_eq_left
              by_contra hcon
              push_neg at hcon
              exact hc (by rw [he]; exact max_eq_right hcon.le)
            apply zpow_le_roundMag p hp emin x
            show (2 : α) ^ e ≤ x
            rw [hey]
            have := @Int.zpow_log_le_self α _ _ 2 x one_lt_two hpos
            rwa [Nat.cast_ofNat] at this
        rw [roundMag_eq p emin _ e hypos hemin hlt h1]
        have hq : roundMag p emin x / (2 : α) ^ (e - ((p : ℤ) - 1)) =
            ((roundEven (x / (2 : α) ^ (e - ((p : ℤ) - 1))) : ℤ) : α) := by
          rw [div_eq_iff hu.ne']
          exact hval
        rw [hq, roundEven_intCast]
        exact hval.symm

/-- Zero is rounded to zero. -/
theorem roundBin_zero (p : ℕ) (emin : ℤ) : roundBin p emin (0 : α) = 0 := by
  unfold roundBin
  rw [if_pos le_rfl, roundMag_zero]

/-- Rounding commutes with the change of sign. -/
theorem roundBin_neg (p : ℕ) (emin : ℤ) (x : α) :
    roundBin p emin (-x) = -roundBin p emin x := by
  unfold roundBin
  rcases lt_trichotomy x 0 with h | h | h
  · rw [if_pos (by linarith), if_neg (by linarith), neg_neg]
  · subst h
    simp [roundMag_zero]
  · rw [if_neg (by linarith), if_pos h.le, neg_neg]

/-- Rounding is monotone. -/
theorem roundBin_mono (p : ℕ) (hp : 1 ≤ p) (emin : ℤ) (x y : α) (hxy : x ≤ y) :
    roundBin p emin x ≤ roundBin p emin y := by
  unfold roundBin
  by_cases hx : 0 ≤ x
  · rw [if_pos hx, if_pos (hx.trans hxy)]
    exact roundMag_mono p hp emin x y hx hxy
  · push_neg at hx
    rw [if_neg (not_le.mpr hx)]
    by_cases hy : 0 ≤ y
    · rw [if_pos hy]
      have h1 := roundMag_nonneg p emin (-x) (by linarith)
      have h2 := roundMag_nonneg p emin y hy
      linarith
    · push_neg at hy
      rw [if_neg (not_le.mpr hy)]
      have := roundMag_mono p hp emin (-y) (-x) (by linarith) (by linarith)
      linarith

/-- A rounded value is rounded to itself. -/
theorem roundBin_idem (p : ℕ) (hp : 1 ≤ p) (emin : ℤ) (x : α) :
    roundBin p emin (roundBin p emin x) = roundBin p emin x := by
  by_cases hx : 0 ≤ x
  · have h1 : roundBin p emin x = roundMag p emin x := by
      unfold roundBin; rw [if_pos hx]
    rw [h1]
    unfold roundBin
    rw [if_pos (roundMag_nonneg p emin x hx), roundMag_idem p hp emin x hx]
  · push_neg at hx
    have h1 : roundBin p emin x = -roundMag p emin (-x) := by
      unfold roundBin; rw [if_neg (not_le.mpr hx)]
    rw [h1, roundBin_neg]
    have h2 : roundBin p emin (roundMag p emin (-x)) = roundMag p emin (-x) := by
      unfold roundBin
      rw [if_pos (roundMag_nonneg p emin (-x) (by linarith)),
        roundMag_idem p hp emin (-x) (by linarith)]
    rw [h2]

/-- The binary32 rounding is monotone. -/
theorem f32_mono {x y : α} (h : x ≤ y) : f32 x ≤ f32 y :=
  roundBin_mono 24 (by norm_num) (-126) x y h

/-- A binary32 value is rounded to itself. -/
theorem f32_idem (x : α) : f32 (f32 x) = f32 x :=
  roundBin_idem 24 (by norm_num) (-126) x

/-- The binary32 rounding commutes with the change of sign. -/
theorem f32_neg (x : α) : f32 (-x) = -f32 x := roundBin_neg 24 (-126) x

/-- Zero is a binary32 value. -/
theorem f32_zero : f32 (0 : α) = 0 := roundBin_zero 24 (-126)

/-- The binary32 rounding of a positive real `x` with
`2 ^ 23 * u ≤ x < 2 ^ 24 * u`, where `u = 2 ^ (e - 23)` is the spacing of the
binary32 numbers of the binade of `x`. -/
theorem f32_eval (x : α) (e : ℤ) (u : α) (n : ℤ) (hu : u = (2 : α) ^ (e - 23))
    (he : -126 ≤ e) (hlo : 8388608 * u ≤ x) (hhi : x < 16777216 * u)
    (hn : roundEven (x / u) = n) : f32 x = (n : α) * u := by
  have hupos : 0 < u := by rw [hu]; exact zpow_pos two_pos _
  have hx : 0 < x := lt_of_lt_of_le (by positivity) hlo
  have e1 : (2 : α) ^ e = 8388608 * u := by
    rw [hu, show (8388608 : α) = (2 : α) ^ (23 : ℤ) by norm_num, ← zpow_add₀ two_ne_zero]
    congr 1
    ring
  have e2 : (2 : α) ^ (e + 1) = 16777216 * u := by
    rw [hu, show (16777216 : α) = (2 : α) ^ (24 : ℤ) by norm_num, ← zpow_add₀ two_ne_zero]
    congr 1
    ring
  unfold f32 roundBin
  rw [if_pos hx.le, roundMag_eq 24 (-126) x e hx he (by rw [e2]; exact hhi)
    (Or.inl (by rw [e1]; exact hlo))]
  have e3 : e - (((24 : ℕ) : ℤ) - 1) = e - 23 := by norm_num
  rw [e3, ← hu, hn]

/-- The binary64 rounding of a positive real `x` with
`2 ^ 52 * u ≤ x < 2 ^ 53 * u`, where `u = 2 ^ (e - 52)`. -/
theorem f64_eval (x : α) (e : ℤ) (u : α) (n : ℤ) (hu : u = (2 : α) ^ (e - 52))
    (he : -1022 ≤ e) (hlo : 4503599627370496 * u ≤ x) (hhi : x < 9007199254740992 * u)
    (hn : roundEven (x / u) = n) : f64 x = (n : α) * u := by
  have hupos : 0 < u := by rw [hu]; exact zpow_pos two_pos _
  have hx : 0 < x := lt_of_lt_of_le (by positivity) hlo
  have e1 : (2 : α) ^ e = 4503599627370496 * u := by
    rw [hu, show (4503599627370496 : α) = (2 : α) ^ (52 : ℤ) by norm_num,
      ← zpow_add₀ two_ne_zero]
    congr 1
    ring
  have e2 : (2 : α) ^ (e + 1) = 9007199254740992 * u := by
    rw [hu, show (9007199254740992 : α) = (2 : α) ^ (53 : ℤ) by norm_num,
      ← zpow_add₀ two_ne_zero]
    congr 1
    ring
  unfold f64 roundBin
  rw [if_pos hx.le, roundMag_eq 53 (-1022) x e hx he (by rw [e2]; exact hhi)
    (Or.inl (by rw [e1]; exact hlo))]
  have e3 : e - (((53 : ℕ) : ℤ) - 1) = e - 52 := by norm_num
  rw [e3, ← hu, hn]
/-- The constant `0.01f`. -/
theorem f32_stepSize : f32 (stepSize : α) = 10737418 / 1073741824 := by
  rw [stepSize, f32_eval (1 / 100) (-7) (1 / 1073741824) 10737418 (by norm_num [zpow_neg])
    (by norm_num) (by norm_num) (by norm_num)
    (roundEven_of_lt _ 10737418 (by norm_num) (by norm_num))]
  norm_num

theorem marchLoop_stop (m : MathFns α) (g : Game α) (rayAngle eyeX eyeY : α) (fuel : ℕ)
    (s : RayState α) (h : ¬ (s.hitWall = false ∧ s.distanceToWall < g.depth)) :
    marchLoop m g rayAngle eyeX eyeY fuel s = .ok s := by
  cases fuel <;> simp [marchLoop, h]

theorem marchLoop_succ (m : MathFns α) (g : Game α) (rayAngle eyeX eyeY : α) (fuel : ℕ)
    (s : RayState α) (h : s.hitWall = false ∧ s.distanceToWall < g.depth) :
    marchLoop m g rayAngle eyeX eyeY (fuel + 1) s =
      match marchStep m g rayAngle eyeX eyeY s with
      | .error e => .error e
      | .ok s1 => marchLoop m g rayAngle eyeX eyeY fuel s1 := by
  rw [marchLoop, if_pos h]

/-- A read at an index inside the string returns the character stored there. -/
theorem cstrAt_of_lt (s : List Char) (i : ℤ) (h0 : 0 ≤ i) (h1 : i < s.length) :
    ∃ c, c ∈ s ∧ cstrAt s i = .ok c := by
  have h2 : i.toNat < s.length := by omega
  refine ⟨s.get ⟨i.toNat, h2⟩, List.get_mem _ _ _, ?_⟩
  simp [cstrAt, h2, not_lt.mpr h0]

omit [FloorRing α] in
/-- On a wall cell `HandleWallIntersection` sets `hitWall`, and sets `boundary`
when the test on the sorted corner vector succeeds. -/
theorem HandleWallIntersection_wall (m : MathFns α) (g : Game α) (testX testY : ℤ)
    (d : α) (hitWall boundary : Bool) (rayAngle : α)
    (hwall : cstrAt g.gameMap (testX * g.mapWidth + testY) = .ok '#') :
    HandleWallIntersection m g testX testY d hitWall boundary rayAngle =
      .ok (true, nearCorner m (sortPairs (cornerPairs m g testX testY rayAngle)) || boundary) := by
  unfold HandleWallIntersection
  rw [hwall]
  simp only [if_true]
  cases nearCorner m (sortPairs (cornerPairs m g testX testY rayAngle)) <;> simp

omit [FloorRing α] in
/-- On a cell that is not a wall, `HandleWallIntersection` changes nothing. -/
theorem HandleWallIntersection_not_wall (m : MathFns α) (g : Game α) (testX testY : ℤ)
    (d : α) (hitWall boundary : Bool) (rayAngle : α) (c : Char)
    (hc : cstrAt g.gameMap (testX * g.mapWidth + testY) = .ok c) (hne : c ≠ '#') :
    HandleWallIntersection m g testX testY d hitWall boundary rayAngle =
      .ok (hitWall, boundary) := by
  simp [HandleWallIntersection, hc, hne]

/-- The march over a map without walls, from the state reached after `k`
passes. -/
theorem marchLoop_open (m : MathFns α) (g : Game α) (rayAngle eyeX eyeY : α)
    (hw : g.mapWidth = 16) (hh : g.mapHeight = 16) (hd : g.depth = 16)
    (hlen : g.gameMap.length = 256) (hmap : '#' ∉ g.gameMap) :
    ∀ (n fuel k : ℕ) (s : RayState α), k + n = 1600 → n ≤ fuel →
      s.distanceToWall = (k : α) * stepSize → s.hitWall = false → s.boundary = false →
      ∃ s1, marchLoop m g rayAngle eyeX eyeY fuel s = .ok s1 ∧
        s1.distanceToWall = 16 ∧ s1.boundary = false := by
  intro n
  induction n with
  | zero =>
    intro fuel k s hk _ hs _ hb
    have hk1 : k = 1600 := by omega
    have hs1 : s.distanceToWall = 16 := by rw [hs, hk1, stepSize]; norm_num
    refine ⟨s, marchLoop_stop m g _ _ _ fuel s ?_, hs1, hb⟩
    rw [hs1, hd]; simp
  | succ n ih =>
    intro fuel k s hk hfuel hs hhit hb
    obtain ⟨f, rfl⟩ : ∃ f, fuel = f + 1 := ⟨fuel - 1, by omega⟩
    have hlt : s.distanceToWall < g.depth := by
      rw [hs, hd, stepSize]
      have : (k : α) < 1600 := by exact_mod_cast (by omega : k < 1600)
      linarith
    rw [marchLoop_succ m g _ _ _ f s ⟨hhit, hlt⟩]
    unfold marchStep
    simp only []
    split_ifs with hout
    · refine ⟨⟨g.depth, true, s.boundary⟩, ?_, hd, hb⟩
      simp only []
      exact marchLoop_stop m g _ _ _ f _ (by simp)
    · rw [hw, hh] at hout
      push_neg at hout
      obtain ⟨hx0, hx1, hy0, hy1⟩ := hout
      obtain ⟨c, hcmem, hc⟩ := cstrAt_of_lt g.gameMap
        (toInt (g.playerX + eyeX * (s.distanceToWall + stepSize)) * g.mapWidth +
          toInt (g.playerY + eyeY * (s.distanceToWall + stepSize)))
        (by rw [hw]; omega) (by rw [hw, hlen]; push_cast; omega)
      have hne : c ≠ '#' := fun h => hmap (h ▸ hcmem)
      rw [HandleWallIntersection_not_wall m g _ _ _ _ _ _ c hc hne]
      simp only []
      exact ih f (k + 1) _ (by omega) (by omega) (by simp only []; rw [hs]; push_cast; ring)
        hhit hb

/-- The open field in exact arithmetic (operations without rounding, step
exactly 1/100): on a 16x16 map without a wall cell and with maximum depth 16,
the march of `castRay` ends, for any fuel of at least 1600 passes, with
`distanceToWall = 16` and `boundary = false`.  The march with binary32
rounding is `castRayF`, and ends above 16 when the ray stays in the grid. -/
theorem castRay_open_field (m : MathFns α) (g : Game α) (fuel x : ℕ)
    (hw : g.mapWidth = 16) (hh : g.mapHeight = 16) (hd : g.depth = 16)
    (hlen : g.gameMap.length = 256) (hmap : '#' ∉ g.gameMap) (hfuel : 1600 ≤ fuel) :
    ∃ s, castRay m g fuel x = .ok s ∧ s.distanceToWall = 16 ∧ s.boundary = false := by
  unfold castRay
  exact marchLoop_open m g _ _ _ hw hh hd hlen hmap 1600 fuel 0 _ (by omega) hfuel
    (by simp) rfl rfl

/-- An instance of the open field in exact arithmetic: the constructor's game
with every map cell replaced by `.`, a ray with direction `(3/5, 4/5)`. -/
theorem castRay_open_field_witness :
    ('#' ∉ List.replicate 256 '.') ∧
    ∃ s, castRay (⟨fun _ => 3 / 5, fun _ => 4 / 5, fun a => a, fun _ => 0⟩ : MathFns ℚ)
        { (init : Game ℚ) with gameMap := List.replicate 256 '.' } 1600 7 = .ok s ∧
      s.distanceToWall = 16 ∧ s.boundary = false :=
  ⟨fun h => absurd (List.eq_of_mem_replicate h) (by decide),
    castRay_open_field _ _ 1600 7 rfl rfl rfl (List.length_replicate 256 '.')
      (fun h => absurd (List.eq_of_mem_replicate h) (by decide)) (le_refl _)⟩

omit [FloorRing α] in
/-- **C2** (monotonic wall shading).  With `boundary = false` and `depth > 0`
the wall glyph of a column is determined by `distanceToWall`: solid up to
`depth/4`, dark strictly between `depth/4` and `depth/3`, medium from
`depth/3` to below `depth/2`, light from `depth/2` to below `depth`, blank
from `depth` on; and a larger distance never gives a denser glyph. -/
theorem wallShade_tiers (g : Game α) (hd : 0 < g.depth) :
    (∀ d : α, d ≤ g.depth / 4 → wallShade g d false = '█') ∧
    (∀ d : α, g.depth / 4 < d → d < g.depth / 3 → wallShade g d false = '▓') ∧
    (∀ d : α, g.depth / 3 ≤ d → d < g.depth / 2 → wallShade g d false = '▒') ∧
    (∀ d : α, g.depth / 2 ≤ d → d < g.depth → wallShade g d false = '░') ∧
    (∀ d : α, g.depth ≤ d → wallShade g d false = ' ') ∧
    (∀ d1 d2 : α, d1 ≤ d2 →
      shadeTier (wallShade g d2 false) ≤ shadeTier (wallShade g d1 false)) := by
  have h43 : g.depth / 4 < g.depth / 3 := by
    apply div_lt_div_of_pos_left hd <;> norm_num
  have h32 : g.depth / 3 < g.depth / 2 := by
    apply div_lt_div_of_pos_left hd <;> norm_num
  have h21 : g.depth / 2 < g.depth := by linarith
  refine ⟨?_, ?_, ?_, ?_, ?_, ?_⟩
  · intro d h; simp [wallShade, h]
  · intro d h1 h2; simp [wallShade, not_le.mpr h1, h2]
  · intro d h1 h2
    simp [wallShade, not_le.mpr (lt_of_lt_of_le h43 h1), not_lt.mpr h1, h2]
  · intro d h1 h2
    simp [wallShade, not_le.mpr (lt_of_lt_of_le (h43.trans h32) h1),
      not_lt.mpr (h32.le.trans h1), not_lt.mpr h1, h2]
  · intro d h1
    simp [wallShade, not_le.mpr (lt_of_lt_of_le (h43.trans (h32.trans h21)) h1),
      not_lt.mpr ((h32.trans h21).le.trans h1), not_lt.mpr (h21.le.trans h1), not_lt.mpr h1]
  · intro d1 d2 h12
    simp only [wallShade, Bool.false_eq_true, if_false]
    split_ifs <;> first | decide | (exfalso; linarith)

/-- Witness of `wallShade_tiers`: the constructor's game, of depth 16. -/
theorem wallShade_tiers_witness :
    (0 : ℚ) < (init : Game ℚ).depth ∧ wallShade (init : Game ℚ) 5 false = '▓' :=
  ⟨by norm_num [init], (wallShade_tiers (init : Game ℚ) (by norm_num [init])).2.1 5
    (by norm_num [init]) (by norm_num [init])⟩

/-- A pass of the march whose sample lies outside the map ends the march at
the maximum depth. -/
theorem marchStep_out (m : MathFns α) (g : Game α) (rayAngle eyeX eyeY : α) (s : RayState α)
    (h : toInt (g.playerX + eyeX * (s.distanceToWall + stepSize)) < 0 ∨
      toInt (g.playerX + eyeX * (s.distanceToWall + stepSize)) ≥ g.mapWidth ∨
      toInt (g.playerY + eyeY * (s.distanceToWall + stepSize)) < 0 ∨
      toInt (g.playerY + eyeY * (s.distanceToWall + stepSize)) ≥ g.mapHeight) :
    marchStep m g rayAngle eyeX eyeY s = .ok ⟨g.depth, true, s.boundary⟩ := by
  unfold marchStep
  simp only []
  rw [if_pos h]

/-- A pass of the march whose sample lies in a cell of the map that is not a
wall only advances the distance. -/
theorem marchStep_empty (m : MathFns α) (g : Game α) (rayAngle eyeX eyeY : α) (s : RayState α)
    (c : Char)
    (h : ¬ (toInt (g.playerX + eyeX * (s.distanceToWall + stepSize)) < 0 ∨
      toInt (g.playerX + eyeX * (s.distanceToWall + stepSize)) ≥ g.mapWidth ∨
      toInt (g.playerY + eyeY * (s.distanceToWall + stepSize)) < 0 ∨
      toInt (g.playerY + eyeY * (s.distanceToWall + stepSize)) ≥ g.mapHeight))
    (hc : cstrAt g.gameMap
      (toInt (g.playerX + eyeX * (s.distanceToWall + stepSize)) * g.mapWidth +
        toInt (g.playerY + eyeY * (s.distanceToWall + stepSize))) = .ok c)
    (hne : c ≠ '#') :
    marchStep m g rayAngle eyeX eyeY s =
      .ok ⟨s.distanceToWall + stepSize, s.hitWall, s.boundary⟩ := by
  unfold marchStep
  simp only []
  rw [if_neg h, HandleWallIntersection_not_wall m g _ _ _ _ _ _ c hc hne]

/-- A pass of the march whose sample lies in a wall cell of the map sets
`hitWall`, and sets `boundary` when the test on the corners succeeds. -/
theorem marchStep_wall (m : MathFns α) (g : Game α) (rayAngle eyeX eyeY : α) (s : RayState α)
    (h : ¬ (toInt (g.playerX + eyeX * (s.distanceToWall + stepSize)) < 0 ∨
      toInt (g.playerX + eyeX * (s.distanceToWall + stepSize)) ≥ g.mapWidth ∨
      toInt (g.playerY + eyeY * (s.distanceToWall + stepSize)) < 0 ∨
      toInt (g.playerY + eyeY * (s.distanceToWall + stepSize)) ≥ g.mapHeight))
    (hc : cstrAt g.gameMap
      (toInt (g.playerX + eyeX * (s.distanceToWall + stepSize)) * g.mapWidth +
        toInt (g.playerY + eyeY * (s.distanceToWall + stepSize))) = .ok '#') :
    marchStep m g rayAngle eyeX eyeY s =
      .ok ⟨s.distanceToWall + stepSize, true,
        nearCorner m (sortPairs (cornerPairs m g
          (toInt (g.playerX + eyeX * (s.distanceToWall + stepSize)))
          (toInt (g.playerY + eyeY * (s.distanceToWall + stepSize))) rayAngle)) ||
          s.boundary⟩ := by
  unfold marchStep
  simp only []
  rw [if_neg h, HandleWallIntersection_wall m g _ _ _ _ _ _ hc]

/-- The march from the state reached after `k` passes, when the samples of the
passes `k+1, ..., K-1` lie in cells of the map that are not walls and the
sample of pass `K` lies in a wall cell: the march ends in pass `K`, with the
boundary flag that the test on the corners of that cell gives. -/
theorem marchLoop_to_wall (m : MathFns α) (g : Game α) (rayAngle eyeX eyeY : α) (K : ℕ)
    (hK : ((K : α) - 1) * stepSize < g.depth)
    (hin : ∀ j : ℕ, 0 < j → j ≤ K →
      ¬ (toInt (g.playerX + eyeX * ((j : α) * stepSize)) < 0 ∨
        toInt (g.playerX + eyeX * ((j : α) * stepSize)) ≥ g.mapWidth ∨
        toInt (g.playerY + eyeY * ((j : α) * stepSize)) < 0 ∨
        toInt (g.playerY + eyeY * ((j : α) * stepSize)) ≥ g.mapHeight))
    (hempty : ∀ j : ℕ, 0 < j → j < K → ∃ c, c ≠ '#' ∧
      cstrAt g.gameMap (toInt (g.playerX + eyeX * ((j : α) * stepSize)) * g.mapWidth +
        toInt (g.playerY + eyeY * ((j : α) * stepSize))) = .ok c)
    (hwall : cstrAt g.gameMap (toInt (g.playerX + eyeX * ((K : α) * stepSize)) * g.mapWidth +
        toInt (g.playerY + eyeY * ((K : α) * stepSize))) = .ok '#') :
    ∀ (n fuel k : ℕ) (s : RayState α), k + n + 1 = K → n + 1 ≤ fuel →
      s.distanceToWall = (k : α) * stepSize → s.hitWall = false →
      marchLoop m g rayAngle eyeX eyeY fuel s = .ok ⟨(K : α) * stepSize, true,
        nearCorner m (sortPairs (cornerPairs m g
          (toInt (g.playerX + eyeX * ((K : α) * stepSize)))
          (toInt (g.playerY + eyeY * ((K : α) * stepSize))) rayAngle)) || s.boundary⟩ := by
  have hstep : (0 : α) < stepSize := by unfold stepSize; norm_num
  intro n
  induction n with
  | zero =>
    intro fuel k s hk hfuel hs hhit
    obtain ⟨f, rfl⟩ : ∃ f, fuel = f + 1 := ⟨fuel - 1, by omega⟩
    have hk1 : (K : α) = (k : α) + 1 := by rw [← hk]; push_cast; ring
    have hd1 : s.distanceToWall + stepSize = (K : α) * stepSize := by rw [hs, hk1]; ring
    have hlt : s.distanceToWall < g.depth := by
      rw [hs]; rw [hk1] at hK; simpa using hK
    rw [marchLoop_succ m g _ _ _ f s ⟨hhit, hlt⟩]
    rw [marchStep_wall m g rayAngle eyeX eyeY s
      (by rw [hd1]; exact hin K (by omega) (le_refl _)) (by rw [hd1]; exact hwall), hd1]
    exact marchLoop_stop m g _ _ _ f _ (by simp)
  | succ n ih =>
    intro fuel k s hk hfuel hs hhit
    obtain ⟨f, rfl⟩ : ∃ f, fuel = f + 1 := ⟨fuel - 1, by omega⟩
    have hd1 : s.distanceToWall + stepSize = ((k + 1 : ℕ) : α) * stepSize := by
      rw [hs]; push_cast; ring
    have hlt : s.distanceToWall < g.depth := by
      have h1 : (k : α) ≤ (K : α) - 1 := by
        have : ((k + 1 : ℕ) : α) ≤ (K : α) := by exact_mod_cast (by omega : k + 1 ≤ K)
        push_cast at this; linarith
      calc s.distanceToWall = (k : α) * stepSize := hs
        _ ≤ ((K : α) - 1) * stepSize := mul_le_mul_of_nonneg_right h1 hstep.le
        _ < g.depth := hK
    rw [marchLoop_succ m g _ _ _ f s ⟨hhit, hlt⟩]
    obtain ⟨c, hne, hc⟩ := hempty (k + 1) (by omega) (by omega)
    rw [marchStep_empty m g rayAngle eyeX eyeY s c
      (by rw [hd1]; exact hin (k + 1) (by omega) (by omega)) (by rw [hd1]; exact hc) hne]
    simp only []
    exact ih f (k + 1) _ (by omega) (by omega) (by simp only []; exact hd1) hhit

/-- Truncation of a non-negative value is its floor. -/
theorem toInt_of_nonneg (x : α) (h : 0 ≤ x) : toInt x = ⌊x⌋ := by
  rw [toInt, if_pos h]

/-- **C3** (scenario).  On a 16x16 map whose border cells are walls and whose
interior cells are not, with the player at `(8, 8)`, heading 0, any field of
view `fov` (so `pi/3` too), width 120 and depth 16, and `sinf 0 = 0`,
`cosf 0 = 1`: the ray angle of the centre column 60 is 0, and the march of
that column ends (any fuel of at least 700 passes is enough) on a wall hit with
`distanceToWall = 7`, hence within one ray step of 7. -/
theorem castRay_scenario (m : MathFns α) (g : Game α) (fuel : ℕ)
    (hsin : m.sinf 0 = 0) (hcos : m.cosf 0 = 1)
    (hw : g.mapWidth = 16) (hh : g.mapHeight = 16) (hsw : g.screenWidth = 120)
    (hd : g.depth = 16) (hx : g.playerX = 8) (hy : g.playerY = 8) (ha : g.playerA = 0)
    (hmap : ∀ i j : ℤ, 0 ≤ i → i < 16 → 0 ≤ j → j < 16 →
      ∃ c, cstrAt g.gameMap (i * 16 + j) = .ok c ∧
        (c = '#' ↔ (i = 0 ∨ i = 15 ∨ j = 0 ∨ j = 15)))
    (hfuel : 700 ≤ fuel) :
    rayAngleOf g 60 = 0 ∧
    ∃ s, castRay m g fuel 60 = .ok s ∧ s.hitWall = true ∧ s.distanceToWall = 7 ∧
      |s.distanceToWall - 7| ≤ stepSize := by
  have hang : rayAngleOf g 60 = 0 := by
    unfold rayAngleOf
    rw [ha, hsw]; push_cast; ring
  refine ⟨hang, ?_⟩
  unfold castRay
  simp only []
  rw [hang, hsin, hcos]
  have hX : ∀ d : α, toInt (g.playerX + 0 * d) = 8 := by
    intro d
    rw [hx, zero_mul, add_zero, toInt_of_nonneg _ (by norm_num)]
    exact_mod_cast Int.floor_natCast (8 : ℕ)
  have hY : ∀ j : ℕ, j ≤ 700 →
      toInt (g.playerY + 1 * ((j : α) * stepSize)) = 8 + ((j / 100 : ℕ) : ℤ) := by
    intro j _
    have hj : (0 : α) ≤ (j : α) := Nat.cast_nonneg j
    rw [hy, one_mul, toInt_of_nonneg _ (by unfold stepSize; positivity), Int.floor_eq_iff]
    generalize hq : j / 100 = q
    have h1 : (q : α) * 100 ≤ (j : α) := by
      exact_mod_cast (by omega : q * 100 ≤ j)
    have h2 : (j : α) < ((q : α) + 1) * 100 := by
      exact_mod_cast (by omega : j < (q + 1) * 100)
    unfold stepSize
    push_cast
    constructor <;> linarith
  have hb := marchLoop_to_wall m g 0 0 1 700
    (by rw [hd]; unfold stepSize; norm_num)
    (by
      intro j _ hj
      rw [hX, hY j hj, hw, hh]
      have : j / 100 ≤ 7 := Nat.div_le_of_le_mul (by omega)
      omega)
    (by
      intro j _ hj
      rw [hX, hY j hj.le, hw]
      have h7 : j / 100 < 7 := Nat.div_lt_of_lt_mul (by omega)
      obtain ⟨c, hc, hiff⟩ := hmap 8 (8 + ((j / 100 : ℕ) : ℤ)) (by norm_num) (by norm_num)
        (by omega) (by omega)
      refine ⟨c, fun h => ?_, hc⟩
      have := hiff.mp h
      omega)
    (by
      rw [hX, hY 700 (le_refl _), hw]
      obtain ⟨c, hc, hiff⟩ := hmap 8 15 (by norm_num) (by norm_num) (by norm_num) (by norm_num)
      rw [hiff.mpr (by norm_num)] at hc
      exact hc)
    699 fuel 0 ⟨0, false, false⟩ (by norm_num) (by omega) (by simp) rfl
  refine ⟨_, hb, rfl, ?_, ?_⟩ <;> simp only [] <;> unfold stepSize <;> norm_num

set_option maxRecDepth 100000 in
/-- The cells of `borderedMap`, as the march reads them. -/
theorem borderedMap_cells : ∀ i j : Fin 16,
    cstrAt borderedMap ((i.val : ℤ) * 16 + (j.val : ℤ)) =
      .ok (if i.val = 0 ∨ i.val = 15 ∨ j.val = 0 ∨ j.val = 15 then '#' else '.') := by
  decide

/-- Witness of `castRay_scenario`: the constructor's game with the player put
at `(8, 8)` on `borderedMap`. -/
theorem castRay_scenario_witness :
    ∃ s, castRay ratFns
        { (init : Game ℚ) with playerX := 8, playerY := 8, gameMap := borderedMap } 700 60 = .ok s ∧
      s.hitWall = true ∧ s.distanceToWall = 7 ∧ |s.distanceToWall - 7| ≤ stepSize :=
  (castRay_scenario ratFns
    { (init : Game ℚ) with playerX := 8, playerY := 8, gameMap := borderedMap } 700
    (by norm_num [ratFns]) (by norm_num [ratFns]) rfl rfl rfl rfl rfl rfl rfl
    (by
      intro i j hi0 hi1 hj0 hj1
      have h := borderedMap_cells ⟨i.toNat, by omega⟩ ⟨j.toNat, by omega⟩
      simp only [Int.toNat_of_nonneg hi0, Int.toNat_of_nonneg hj0] at h
      refine ⟨_, h, ?_⟩
      have e1 : (i.toNat = 0 ∨ i.toNat = 15 ∨ j.toNat = 0 ∨ j.toNat = 15) ↔
          (i = 0 ∨ i = 15 ∨ j = 0 ∨ j = 15) := by omega
      rw [← e1]
      split_ifs with hb
      · exact ⟨fun _ => hb, fun _ => rfl⟩
      · exact ⟨fun hc => absurd hc (by decide), fun hc => absurd hc hb⟩)
    (le_refl _)).2

/-- Truncation of a non-negative value lying in `[z, z + 1)`. -/
theorem toInt_eq_of_mem (x : α) (z : ℤ) (h0 : 0 ≤ x) (h1 : (z : α) ≤ x) (h2 : x < (z : α) + 1) :
    toInt x = z := by
  rw [toInt_of_nonneg x h0, Int.floor_eq_iff]
  exact ⟨h1, h2⟩

/-- Bounds of the truncation of a value lying in `[a, b + 1)`, `a ≥ 0`. -/
theorem toInt_bounds (x : α) (a b : ℤ) (ha : 0 ≤ a) (h1 : (a : α) ≤ x) (h2 : x < (b : α) + 1) :
    a ≤ toInt x ∧ toInt x ≤ b := by
  have h0 : (0 : α) ≤ x := le_trans (by exact_mod_cast ha) h1
  rw [toInt_of_nonneg x h0]
  refine ⟨Int.le_floor.mpr h1, ?_⟩
  have : ⌊x⌋ < b + 1 := Int.floor_lt.mpr (by push_cast; exact h2)
  omega

omit [LinearOrderedField α] [FloorRing α] in
/-- The buffer positions of two cells of a screen of positive width are
equal only for equal cells. -/
theorem cellIndex_inj (g : Game α) (hw : 0 < g.screenWidth) (x y x1 y1 : ℕ)
    (hx : (x : ℤ) < g.screenWidth) (hx1 : (x1 : ℤ) < g.screenWidth)
    (h : cellIndex g x y = cellIndex g x1 y1) : x = x1 ∧ y = y1 := by
  unfold cellIndex at h
  have h0 : (0 : ℤ) ≤ (y : ℤ) * g.screenWidth := by positivity
  have h1 : (0 : ℤ) ≤ (y1 : ℤ) * g.screenWidth := by positivity
  have e : (y : ℤ) * g.screenWidth + x = (y1 : ℤ) * g.screenWidth + x1 := by omega
  have hy : (y : ℤ) = y1 := by
    rcases lt_trichotomy (y : ℤ) y1 with hlt | heq | hgt
    · exfalso
      have : ((y : ℤ) + 1) * g.screenWidth ≤ (y1 : ℤ) * g.screenWidth :=
        mul_le_mul_of_nonneg_right (by omega) hw.le
      nlinarith
    · exact heq
    · exfalso
      have : ((y1 : ℤ) + 1) * g.screenWidth ≤ (y : ℤ) * g.screenWidth :=
        mul_le_mul_of_nonneg_right (by omega) hw.le
      nlinarith
  rw [hy] at e
  constructor <;> omega

omit [LinearOrderedField α] [FloorRing α] in
/-- The buffer position of a cell of the screen lies inside a buffer of
`screenWidth * screenHeight` cells. -/
theorem cellIndex_lt (g : Game α) (x y : ℕ)
    (hx : (x : ℤ) < g.screenWidth) (hy : (y : ℤ) < g.screenHeight) :
    cellIndex g x y < (g.screenWidth * g.screenHeight).toNat := by
  unfold cellIndex
  have h1 : ((y : ℤ) + 1) * g.screenWidth ≤ g.screenHeight * g.screenWidth :=
    mul_le_mul_of_nonneg_right (by omega) (by omega)
  have h2 : (0 : ℤ) ≤ (y : ℤ) * g.screenWidth := mul_nonneg (by omega) (by omega)
  have h3 : g.screenHeight * g.screenWidth = g.screenWidth * g.screenHeight := mul_comm _ _
  have h4 : ((y : ℤ) + 1) * g.screenWidth = (y : ℤ) * g.screenWidth + g.screenWidth := by ring
  omega

/-- The loop over the first `n` rows of column `x`: the buffer keeps its
length, holds `rowGlyph` in the rows done, and is unchanged elsewhere; the
variable `shade` has its initial value unless a floor row has been done. -/
theorem drawRows_spec (g : Game α) (hw : 0 < g.screenWidth) (x : ℕ)
    (hx : (x : ℤ) < g.screenWidth) (c f : ℤ) (shade : Char) (buf : List Char) (n : ℕ) :
    (((List.range n).foldl (drawRow g x c f) (shade, buf)).1 = shade ∨
      ∃ y0 : ℕ, y0 < n ∧ c < y0 ∧ f < y0) ∧
    ((List.range n).foldl (drawRow g x c f) (shade, buf)).2.length = buf.length ∧
    (∀ y : ℕ, y < n → cellIndex g x y < buf.length →
      ((List.range n).foldl (drawRow g x c f) (shade, buf)).2[cellIndex g x y]? =
        some (rowGlyph g c f shade y)) ∧
    (∀ i : ℕ, (∀ y : ℕ, y < n → i ≠ cellIndex g x y) →
      ((List.range n).foldl (drawRow g x c f) (shade, buf)).2[i]? = buf[i]?) := by
  induction n with
  | zero => simp
  | succ n ih =>
    obtain ⟨ih1, ih2, ih3, ih4⟩ := ih
    rw [List.range_succ, List.foldl_append]
    simp only [List.foldl_cons, List.foldl_nil]
    generalize (List.range n).foldl (drawRow g x c f) (shade, buf) = st at ih1 ih2 ih3 ih4
    have key : (drawRow g x c f st n).2 = st.2.set (cellIndex g x n) (rowGlyph g c f shade n) ∧
        ((drawRow g x c f st n).1 = shade ∨ ∃ y0 : ℕ, y0 < n + 1 ∧ c < y0 ∧ f < y0) := by
      unfold drawRow rowGlyph
      by_cases h1 : (n : ℤ) ≤ c
      · rw [if_pos h1, if_pos h1]
        refine ⟨rfl, ?_⟩
        rcases ih1 with h | ⟨y0, hy0, hc0, hf0⟩
        · exact Or.inl h
        · exact Or.inr ⟨y0, by omega, hc0, hf0⟩
      · by_cases h2 : (n : ℤ) ≤ f
        · have h3 : (n : ℤ) > c ∧ (n : ℤ) ≤ f := ⟨by omega, h2⟩
          rw [if_neg h1, if_pos h3, if_neg h1, if_pos h2]
          rcases ih1 with h | ⟨y0, hy0, hc0, hf0⟩
          · exact ⟨by rw [h], Or.inl h⟩
          · exfalso; omega
        · have h3 : ¬ ((n : ℤ) > c ∧ (n : ℤ) ≤ f) := fun h => h2 h.2
          rw [if_neg h1, if_neg h3, if_neg h1, if_neg h2]
          exact ⟨rfl, Or.inr ⟨n, by omega, by omega, by omega⟩⟩
    obtain ⟨k1, k2⟩ := key
    refine ⟨k2, ?_, ?_, ?_⟩
    · rw [k1, List.length_set, ih2]
    · intro y hy hlt
      rw [k1]
      by_cases hyn : y = n
      · subst hyn
        rw [List.getElem?_set_self (by rw [ih2]; exact hlt)]
      · rw [List.getElem?_set_ne]
        · exact ih3 y (by omega) hlt
        · intro h
          exact hyn (cellIndex_inj g hw x n x y hx hx h).2.symm
    · intro i hi
      rw [k1, List.getElem?_set_ne (fun h => hi n (by omega) h.symm)]
      exact ih4 i (fun y hy => hi y (by omega))


/-- The march always ends on a 16x16 map stored in 256 characters, whatever
the pose and the direction of the ray: from the state reached after `k`
passes, `fuel` passes are enough as soon as `(k + fuel) * stepSize` reaches the
depth, no read leaves the map, and the final distance is the depth (after an
out-of-range sample) or a multiple `j * stepSize` whose predecessor is below
the depth. -/
theorem marchLoop_total (m : MathFns α) (g : Game α) (rayAngle eyeX eyeY : α)
    (hw : g.mapWidth = 16) (hh : g.mapHeight = 16) (hlen : g.gameMap.length = 256) :
    ∀ (fuel k : ℕ) (s : RayState α), s.distanceToWall = (k : α) * stepSize →
      s.hitWall = false → g.depth ≤ ((k + fuel : ℕ) : α) * stepSize →
      ∃ s1, marchLoop m g rayAngle eyeX eyeY fuel s = .ok s1 ∧
        ((s1 = s ∧ g.depth ≤ s.distanceToWall) ∨
         (s1.distanceToWall = g.depth ∧ s1.hitWall = true ∧ s.distanceToWall < g.depth) ∨
         (∃ j : ℕ, k < j ∧ s1.distanceToWall = (j : α) * stepSize ∧
            ((j : α) - 1) * stepSize < g.depth)) := by
  intro fuel
  induction fuel with
  | zero =>
    intro k s hs _ hfuel
    have hge : g.depth ≤ s.distanceToWall := by rw [hs]; simpa using hfuel
    exact ⟨s, marchLoop_stop m g _ _ _ 0 s (fun h => absurd h.2 (not_lt.mpr hge)),
      Or.inl ⟨rfl, hge⟩⟩
  | succ f ih =>
    intro k s hs hhit hfuel
    by_cases hlt : s.distanceToWall < g.depth
    · rw [marchLoop_succ m g _ _ _ f s ⟨hhit, hlt⟩]
      have hd1 : s.distanceToWall + stepSize = ((k + 1 : ℕ) : α) * stepSize := by
        rw [hs]; push_cast; ring
      have hk1 : (((k + 1 : ℕ) : α) - 1) * stepSize < g.depth := by
        push_cast; rw [add_sub_cancel_right, ← hs]; exact hlt
      by_cases hout : toInt (g.playerX + eyeX * (s.distanceToWall + stepSize)) < 0 ∨
          toInt (g.playerX + eyeX * (s.distanceToWall + stepSize)) ≥ g.mapWidth ∨
          toInt (g.playerY + eyeY * (s.distanceToWall + stepSize)) < 0 ∨
          toInt (g.playerY + eyeY * (s.distanceToWall + stepSize)) ≥ g.mapHeight
      · rw [marchStep_out m g rayAngle eyeX eyeY s hout]
        exact ⟨_, marchLoop_stop m g _ _ _ f _ (by simp), Or.inr (Or.inl ⟨rfl, rfl, hlt⟩)⟩
      · have hout1 := hout
        rw [hw, hh] at hout1
        push_neg at hout1
        obtain ⟨hx0, hx1, hy0, hy1⟩ := hout1
        obtain ⟨c, _, hc⟩ := cstrAt_of_lt g.gameMap
          (toInt (g.playerX + eyeX * (s.distanceToWall + stepSize)) * g.mapWidth +
            toInt (g.playerY + eyeY * (s.distanceToWall + stepSize)))
          (by rw [hw]; omega) (by rw [hw, hlen]; push_cast; omega)
        by_cases hwall : c = '#'
        · rw [hwall] at hc
          rw [marchStep_wall m g rayAngle eyeX eyeY s hout hc]
          exact ⟨_, marchLoop_stop m g _ _ _ f _ (by simp),
            Or.inr (Or.inr ⟨k + 1, by omega, hd1, hk1⟩)⟩
        · rw [marchStep_empty m g rayAngle eyeX eyeY s c hout hc hwall]
          obtain ⟨s1, h1, hcases⟩ := ih (k + 1)
            ⟨s.distanceToWall + stepSize, s.hitWall, s.boundary⟩ hd1 hhit
            (by rw [show k + 1 + f = k + (f + 1) by omega]; exact hfuel)
          refine ⟨s1, h1, ?_⟩
          rcases hcases with ⟨e, _⟩ | ⟨e1, e2, _⟩ | ⟨j, hj, e1, e2⟩
          · exact Or.inr (Or.inr ⟨k + 1, by omega, by rw [e]; exact hd1, hk1⟩)
          · exact Or.inr (Or.inl ⟨e1, e2, hlt⟩)
          · exact Or.inr (Or.inr ⟨j, by omega, e1, e2⟩)
    · exact ⟨s, marchLoop_stop m g _ _ _ (f + 1) s (fun h => hlt h.2),
        Or.inl ⟨rfl, not_lt.mp hlt⟩⟩

/-- With a positive depth the march of every column ends with a distance that
is not zero. -/
theorem castRay_total (m : MathFns α) (g : Game α) (fuel x : ℕ)
    (hw : g.mapWidth = 16) (hh : g.mapHeight = 16) (hlen : g.gameMap.length = 256)
    (hd : 0 < g.depth) (hfuel : g.depth ≤ (fuel : α) * stepSize) :
    ∃ s, castRay m g fuel x = .ok s ∧ 0 < s.distanceToWall := by
  have hstep : (0 : α) < stepSize := by unfold stepSize; norm_num
  unfold castRay
  obtain ⟨s1, h1, hcases⟩ := marchLoop_total m g (rayAngleOf g x) (m.sinf (rayAngleOf g x))
    (m.cosf (rayAngleOf g x)) hw hh hlen fuel 0 ⟨0, false, false⟩ (by simp) rfl
    (by simpa using hfuel)
  refine ⟨s1, h1, ?_⟩
  rcases hcases with ⟨_, e⟩ | ⟨e, _, _⟩ | ⟨j, hj, e, _⟩
  · exact absurd e (not_le.mpr hd)
  · rw [e]; exact hd
  · rw [e]
    have : (0 : α) < (j : α) := by exact_mod_cast hj
    positivity

/-- The march does not read the screen buffer. -/
theorem marchLoop_buffer (m : MathFns α) (g : Game α) (buf : List Char)
    (rayAngle eyeX eyeY : α) : ∀ (fuel : ℕ) (s : RayState α),
    marchLoop m (withBuffer g buf) rayAngle eyeX eyeY fuel s =
      marchLoop m g rayAngle eyeX eyeY fuel s := by
  intro fuel
  induction fuel with
  | zero => intro s; rfl
  | succ f ih =>
    intro s
    by_cases h : s.hitWall = false ∧ s.distanceToWall < g.depth
    · rw [marchLoop_succ m g _ _ _ f s h, marchLoop_succ m (withBuffer g buf) _ _ _ f s h]
      have e : marchStep m (withBuffer g buf) rayAngle eyeX eyeY s =
          marchStep m g rayAngle eyeX eyeY s := rfl
      rw [e]
      cases marchStep m g rayAngle eyeX eyeY s with
      | error e => rfl
      | ok s1 => exact ih s1
    · rw [marchLoop_stop m g _ _ _ _ s h, marchLoop_stop m (withBuffer g buf) _ _ _ _ s h]

/-- The march of a column does not read the screen buffer. -/
theorem castRay_buffer (m : MathFns α) (g : Game α) (buf : List Char) (fuel x : ℕ) :
    castRay m (withBuffer g buf) fuel x = castRay m g fuel x := by
  unfold castRay
  exact marchLoop_buffer m g buf _ _ _ fuel _


/-- The loop over the columns, on a list of columns split in two. -/
theorem castColumns_append (m : MathFns α) (fuel : ℕ) (xs ys : List ℕ) :
    ∀ g : Game α, castColumns m fuel (xs ++ ys) g =
      match castColumns m fuel xs g with
      | .error e => .error e
      | .ok g1 => castColumns m fuel ys g1 := by
  induction xs with
  | nil => intro g; rfl
  | cons x xs ih =>
    intro g
    simp only [List.cons_append, castColumns]
    cases castColumn m fuel g x with
    | error e => rfl
    | ok g1 => exact ih g1

/-- The loop over the first `n` columns, when the march of every column ends
with a distance that is not zero: only the buffer changes, it keeps its
length, every cell of the columns done holds `rowGlyph` for the result of the
march of its column, and the other cells are as before. -/
theorem castColumns_range (m : MathFns α) (fuel : ℕ) (g : Game α) (hw : 0 < g.screenWidth)
    (hbuf : g.screenBuffer.length = (g.screenWidth * g.screenHeight).toNat)
    (hray : ∀ x : ℕ, (x : ℤ) < g.screenWidth →
      ∃ s, castRay m g fuel x = .ok s ∧ 0 < s.distanceToWall) :
    ∀ n : ℕ, (n : ℤ) ≤ g.screenWidth →
      ∃ buf : List Char,
        castColumns m fuel (List.range n) g = .ok (withBuffer g buf) ∧
        buf.length = g.screenBuffer.length ∧
        (∀ x y : ℕ, x < n → (y : ℤ) < g.screenHeight →
          ∃ s, castRay m g fuel x = .ok s ∧ 0 < s.distanceToWall ∧
            buf[cellIndex g x y]? = some (rowGlyph g (ceilingOf g s.distanceToWall)
              (floorOf g s.distanceToWall) (wallShade g s.distanceToWall s.boundary) y)) ∧
        (∀ i : ℕ, (∀ x y : ℕ, x < n → (y : ℤ) < g.screenHeight → i ≠ cellIndex g x y) →
          buf[i]? = g.screenBuffer[i]?) := by
  intro n
  induction n with
  | zero =>
    intro _
    exact ⟨g.screenBuffer, rfl, rfl, fun x y hx => absurd hx (Nat.not_lt_zero x), fun i _ => rfl⟩
  | succ n ih =>
    intro hn
    obtain ⟨buf, h1, h2, h3, h4⟩ := ih (by omega)
    obtain ⟨s, hs, hpos⟩ := hray n (by omega)
    have hstep : castColumns m fuel [n] (withBuffer g buf) =
        .ok (withBuffer g (drawColumn (withBuffer g buf) n s.distanceToWall s.boundary)) := by
      simp only [castColumns, castColumn]
      rw [castRay_buffer m g buf fuel n, hs]
      simp only [if_neg (ne_of_gt hpos)]
    obtain ⟨_, d2, d3, d4⟩ := drawRows_spec (withBuffer g buf) hw n
      (show (n : ℤ) < g.screenWidth by omega)
      (ceilingOf g s.distanceToWall) (floorOf g s.distanceToWall)
      (wallShade g s.distanceToWall s.boundary) buf g.screenHeight.toNat
    refine ⟨drawColumn (withBuffer g buf) n s.distanceToWall s.boundary, ?_, ?_, ?_, ?_⟩
    · rw [List.range_succ, castColumns_append, h1]
      exact hstep
    · exact d2.trans h2
    · intro x y hx hy
      by_cases hxn : x = n
      · subst hxn
        refine ⟨s, hs, hpos, ?_⟩
        exact d3 y (by omega) (by
          rw [h2, hbuf]
          exact cellIndex_lt g x y (by omega) hy)
      · obtain ⟨s1, hs1, hpos1, hcell⟩ := h3 x y (by omega) hy
        refine ⟨s1, hs1, hpos1, ?_⟩
        rw [← hcell]
        refine d4 (cellIndex g x y) (fun y1 _ h => hxn ?_)
        exact (cellIndex_inj g hw x y n y1 (by omega) (by omega) h).1
    · intro i hi
      rw [← h4 i (fun x y hx hy => hi x y (by omega) hy)]
      exact d4 i (fun y hy => hi n y (by omega) (by omega))

/-- The effect of `CastRays` on a 16x16 map stored in 256 characters, with a
positive depth and a screen buffer of `screenWidth * screenHeight` cells:
the call returns (any fuel with `depth ≤ fuel * stepSize` is enough), changes
only the buffer, and leaves in every cell `(x, y)` of the screen the glyph
`rowGlyph` for the distance and boundary flag with which the march of column
`x` ended. -/
theorem CastRays_frame (m : MathFns α) (fuel : ℕ) (g : Game α)
    (hmw : g.mapWidth = 16) (hmh : g.mapHeight = 16) (hlen : g.gameMap.length = 256)
    (hd : 0 < g.depth) (hfuel : g.depth ≤ (fuel : α) * stepSize)
    (hbuf : g.screenBuffer.length = (g.screenWidth * g.screenHeight).toNat) :
    ∃ buf : List Char, CastRays m fuel g = .ok (withBuffer g buf) ∧
      buf.length = g.screenBuffer.length ∧
      ∀ x y : ℕ, (x : ℤ) < g.screenWidth → (y : ℤ) < g.screenHeight →
        ∃ s, castRay m g fuel x = .ok s ∧ 0 < s.distanceToWall ∧
          buf[cellIndex g x y]? = some (rowGlyph g (ceilingOf g s.distanceToWall)
            (floorOf g s.distanceToWall) (wallShade g s.distanceToWall s.boundary) y) := by
  by_cases hw : 0 < g.screenWidth
  · obtain ⟨buf, h1, h2, h3, _⟩ := castColumns_range m fuel g hw hbuf
      (fun x _ => castRay_total m g fuel x hmw hmh hlen hd hfuel) g.screenWidth.toNat (by omega)
    exact ⟨buf, h1, h2, fun x y hx hy => h3 x y (by omega) hy⟩
  · refine ⟨g.screenBuffer, ?_, rfl, fun x y hx => by omega⟩
    unfold CastRays
    rw [show g.screenWidth.toNat = 0 by omega]
    rfl

/-- The rows of one column after `drawColumn`, on a buffer of
`screenWidth * screenHeight` cells. -/
theorem drawColumn_spec (g : Game α) (x y : ℕ) (d : α) (b : Bool)
    (hx : (x : ℤ) < g.screenWidth) (hy : (y : ℤ) < g.screenHeight)
    (hbuf : g.screenBuffer.length = (g.screenWidth * g.screenHeight).toNat) :
    (drawColumn g x d b)[cellIndex g x y]? =
      some (rowGlyph g (ceilingOf g d) (floorOf g d) (wallShade g d b) y) := by
  obtain ⟨_, _, h3, _⟩ := drawRows_spec g (by omega) x hx (ceilingOf g d) (floorOf g d)
    (wallShade g d b) g.screenBuffer g.screenHeight.toNat
  exact h3 y (by omega) (by rw [hbuf]; exact cellIndex_lt g x y hx hy)

/-- For a positive distance and a screen of non-negative height, `ceiling`
is at most `floor`. -/
theorem ceilingOf_le_floorOf (g : Game α) (d : α) (hh : 0 ≤ g.screenHeight) (hd : 0 < d) :
    ceilingOf g d ≤ floorOf g d := by
  unfold floorOf ceilingOf toInt
  have hq : (0 : α) ≤ (g.screenHeight : α) / d :=
    div_nonneg (by exact_mod_cast hh) hd.le
  split_ifs with h0
  · have h1 := Int.floor_le ((g.screenHeight : α) / 2 - (g.screenHeight : α) / d)
    have h2 : (2 : α) * (⌊(g.screenHeight : α) / 2 - (g.screenHeight : α) / d⌋ : α) ≤
        (g.screenHeight : α) := by linarith
    have h3 : 2 * ⌊(g.screenHeight : α) / 2 - (g.screenHeight : α) / d⌋ ≤ g.screenHeight := by
      exact_mod_cast h2
    omega
  · have h1 : ⌈(g.screenHeight : α) / 2 - (g.screenHeight : α) / d⌉ ≤ 0 :=
      Int.ceil_le.mpr (by push_cast; exact (not_le.mp h0).le)
    omega

set_option maxRecDepth 100000 in
/-- The constructor's map has 256 characters. -/
theorem builtinMap_length : builtinMap.length = 256 := by decide

omit [FloorRing α] in
/-- The constructor's buffer has `screenWidth * screenHeight` cells. -/
theorem init_buffer_length :
    (init : Game α).screenBuffer.length =
      ((init : Game α).screenWidth * (init : Game α).screenHeight).toNat := by
  show (List.replicate (120 * 40) ' ').length = ((120 : ℤ) * 40).toNat
  rw [List.length_replicate]
  rfl

/-- **C8** (column banding, as the code does it).  On a 16x16 map stored in 256
characters, with a positive depth and a buffer of `screenWidth * screenHeight`
cells, `CastRays` returns, and for every column `x` and row `y` of the screen,
with `d > 0` the distance with which the march of the column ended,
`ceiling = trunc(height/2 - height/d)` and `floor = height - ceiling`: the
cell holds a blank when `y ≤ ceiling`, the wall glyph of the column when
`ceiling < y ≤ floor`, and the floor glyph of row `y` when `y > floor`. -/
theorem CastRays_bands (m : MathFns α) (fuel : ℕ) (g : Game α)
    (hmw : g.mapWidth = 16) (hmh : g.mapHeight = 16) (hlen : g.gameMap.length = 256)
    (hd : 0 < g.depth) (hfuel : g.depth ≤ (fuel : α) * stepSize)
    (hbuf : g.screenBuffer.length = (g.screenWidth * g.screenHeight).toNat) :
    ∃ buf : List Char, CastRays m fuel g = .ok (withBuffer g buf) ∧
      ∀ x y : ℕ, (x : ℤ) < g.screenWidth → (y : ℤ) < g.screenHeight →
        ∃ s, castRay m g fuel x = .ok s ∧ 0 < s.distanceToWall ∧
          ((y : ℤ) ≤ ceilingOf g s.distanceToWall → buf[cellIndex g x y]? = some ' ') ∧
          (ceilingOf g s.distanceToWall < (y : ℤ) → (y : ℤ) ≤ floorOf g s.distanceToWall →
            buf[cellIndex g x y]? = some (wallShade g s.distanceToWall s.boundary)) ∧
          (floorOf g s.distanceToWall < (y : ℤ) →
            buf[cellIndex g x y]? = some (floorShade g y)) := by
  obtain ⟨buf, h1, _, h3⟩ := CastRays_frame m fuel g hmw hmh hlen hd hfuel hbuf
  refine ⟨buf, h1, fun x y hx hy => ?_⟩
  obtain ⟨s, hs, hpos, hcell⟩ := h3 x y hx hy
  have hcf := ceilingOf_le_floorOf g s.distanceToWall (by omega) hpos
  refine ⟨s, hs, hpos, fun hc => ?_, fun hc hf => ?_, fun hf => ?_⟩
  · rw [hcell, rowGlyph, if_pos hc]
  · rw [hcell, rowGlyph, if_neg (not_le.mpr hc), if_pos hf]
  · rw [hcell, rowGlyph, if_neg (not_le.mpr (lt_of_le_of_lt hcf hf)), if_neg (not_le.mpr hf)]

/-- Witness of `CastRays_bands`: the constructor's game. -/
theorem CastRays_bands_witness :
    ∃ buf : List Char, CastRays ratFns 1600 (init : Game ℚ) = .ok (withBuffer init buf) ∧
      ∀ x y : ℕ, (x : ℤ) < 120 → (y : ℤ) < 40 →
        ∃ s, castRay ratFns (init : Game ℚ) 1600 x = .ok s ∧ 0 < s.distanceToWall ∧
          ((y : ℤ) ≤ ceilingOf (init : Game ℚ) s.distanceToWall →
            buf[cellIndex (init : Game ℚ) x y]? = some ' ') ∧
          (ceilingOf (init : Game ℚ) s.distanceToWall < (y : ℤ) →
            (y : ℤ) ≤ floorOf (init : Game ℚ) s.distanceToWall →
            buf[cellIndex (init : Game ℚ) x y]? =
              some (wallShade (init : Game ℚ) s.distanceToWall s.boundary)) ∧
          (floorOf (init : Game ℚ) s.distanceToWall < (y : ℤ) →
            buf[cellIndex (init : Game ℚ) x y]? = some (floorShade (init : Game ℚ) y)) :=
  CastRays_bands ratFns 1600 (init : Game ℚ) rfl rfl builtinMap_length (by norm_num [init])
    (by norm_num [init, stepSize]) init_buffer_length

/-- A natural number below `2 ^ 24` is a binary32 value. -/
theorem f32_natCast (n : ℕ) (h : n < 16777216) : f32 (n : α) = n := by
  rcases Nat.eq_zero_or_pos n with h0 | hpos
  · subst h0
    simpa using @f32_zero α _ _
  · have hn0 : n ≠ 0 := by omega
    have hL : n.log2 < 24 := (Nat.log2_lt hn0).mpr (by norm_num; exact h)
    have hlo : 2 ^ n.log2 ≤ n := Nat.log2_self_le hn0
    have hhi : n < 2 ^ (n.log2 + 1) := Nat.lt_log2_self
    have hx : (0 : α) < (n : α) := by exact_mod_cast hpos
    have h1 : (2 : α) ^ ((n.log2 : ℕ) : ℤ) ≤ (n : α) := by
      rw [zpow_natCast]
      exact_mod_cast hlo
    have h2 : (n : α) < (2 : α) ^ (((n.log2 : ℕ) : ℤ) + 1) := by
      rw [show ((n.log2 : ℕ) : ℤ) + 1 = ((n.log2 + 1 : ℕ) : ℤ) by push_cast; rfl, zpow_natCast]
      exact_mod_cast hhi
    unfold f32 roundBin
    rw [if_pos hx.le, roundMag_eq 24 (-126) (n : α) (n.log2 : ℤ) hx (by omega) h2 (Or.inl h1)]
    have e3 : ((n.log2 : ℕ) : ℤ) - (((24 : ℕ) : ℤ) - 1) = -(((23 - n.log2 : ℕ) : ℕ) : ℤ) := by
      omega
    rw [e3, zpow_neg, zpow_natCast, div_inv_eq_mul]
    have e4 : (n : α) * (2 : α) ^ (23 - n.log2) = (((n * 2 ^ (23 - n.log2) : ℕ) : ℤ) : α) := by
      push_cast
      rfl
    rw [e4, roundEven_intCast]
    push_cast
    rw [mul_assoc, mul_inv_cancel₀ (pow_ne_zero _ two_ne_zero), mul_one]

/-- The binary64 rounding is monotone. -/
theorem f64_mono {x y : α} (h : x ≤ y) : f64 x ≤ f64 y :=
  roundBin_mono 53 (by norm_num) (-1022) x y h

/-- The `double` constants `0.20`, `0.4`, `0.60` and `0.8` of lines 193-202. -/
theorem f64_thresholds :
    f64 ((20 : α) / 100) = (3602879701896397 / 18014398509481984) ∧
    f64 ((4 : α) / 10) = (3602879701896397 / 9007199254740992) ∧
    f64 ((60 : α) / 100) = (5404319552844595 / 9007199254740992) ∧
    f64 ((8 : α) / 10) = (3602879701896397 / 4503599627370496) := by
  have t1 : f64 ((20 : α) / 100) = (3602879701896397 / 18014398509481984) := by
    rw [show (20 : α) / 100 = (1 / 5) by norm_num]
    rw [f64_eval (1 / 5) (-3) (1 / 36028797018963968) 7205759403792794 (by norm_num [zpow_neg])
      (by norm_num) (by norm_num) (by norm_num) (roundEven_of_gt _ 7205759403792793 (by norm_num)
      (by norm_num))]
    norm_num
  have t2 : f64 ((4 : α) / 10) = (3602879701896397 / 9007199254740992) := by
    rw [show (4 : α) / 10 = (2 / 5) by norm_num]
    rw [f64_eval (2 / 5) (-2) (1 / 18014398509481984) 7205759403792794 (by norm_num [zpow_neg])
      (by norm_num) (by norm_num) (by norm_num) (roundEven_of_gt _ 7205759403792793 (by norm_num)
      (by norm_num))]
    norm_num
  have t3 : f64 ((60 : α) / 100) = (5404319552844595 / 9007199254740992) := by
    rw [show (60 : α) / 100 = (3 / 5) by norm_num]
    rw [f64_eval (3 / 5) (-1) (1 / 9007199254740992) 5404319552844595 (by norm_num [zpow_neg])
      (by norm_num) (by norm_num) (by norm_num) (roundEven_of_lt _ 5404319552844595 (by norm_num)
      (by norm_num))]
    norm_num
  have t4 : f64 ((8 : α) / 10) = (3602879701896397 / 4503599627370496) := by
    rw [show (8 : α) / 10 = (4 / 5) by norm_num]
    rw [f64_eval (4 / 5) (-1) (1 / 9007199254740992) 7205759403792794 (by norm_num [zpow_neg])
      (by norm_num) (by norm_num) (by norm_num) (roundEven_of_gt _ 7205759403792793 (by norm_num)
      (by norm_num))]
    norm_num
  exact ⟨t1, t2, t3, t4⟩

/-- The value of `b` in row 24 of a 40-row screen. -/
theorem blend_row_24 (g : Game α) (h40 : g.screenHeight = 40) :
    blend g 24 = 13421773 / 16777216 := by
  have h40a : f32 (40 : α) = 40 := by simpa using @f32_natCast α _ _ 40 (by norm_num)
  have h20 : f32 (20 : α) = 20 := by simpa using @f32_natCast α _ _ 20 (by norm_num)
  have hy : f32 (24 : α) = 24 := by simpa using @f32_natCast α _ _ 24 (by norm_num)
  have h2 : f32 (4 : α) = 4 := by simpa using @f32_natCast α _ _ 4 (by norm_num)
  have h3 : f32 ((1 / 5) : α) = (13421773 / 67108864) := by
    rw [f32_eval (1 / 5) (-3) (1 / 67108864) 13421773 (by norm_num [zpow_neg]) (by norm_num) (by
      norm_num) (by norm_num) (roundEven_of_gt _ 13421772 (by norm_num) (by norm_num))]
    norm_num
  have h4 : f32 ((53687091 / 67108864) : α) = (13421773 / 16777216) := by
    rw [f32_eval (53687091 / 67108864) (-1) (1 / 16777216) 13421773 (by norm_num [zpow_neg]) (by
      norm_num) (by norm_num) (by norm_num) (roundEven_of_gt _ 13421772 (by norm_num) (by
      norm_num))]
    norm_num
  unfold blend
  rw [h40]
  push_cast
  rw [h40a, show (40 : α) / 2 = 20 by norm_num, h20, hy, show (24 : α) - 20 = 4 by norm_num,
    h2, show (4 : α) / 20 = (1 / 5) by norm_num, h3,
    show (1 : α) - (13421773 / 67108864) = (53687091 / 67108864) by norm_num, h4]

/-- The value of `b` in row 25 of a 40-row screen. -/
theorem blend_row_25 (g : Game α) (h40 : g.screenHeight = 40) :
    blend g 25 = 3 / 4 := by
  have h40a : f32 (40 : α) = 40 := by simpa using @f32_natCast α _ _ 40 (by norm_num)
  have h20 : f32 (20 : α) = 20 := by simpa using @f32_natCast α _ _ 20 (by norm_num)
  have hy : f32 (25 : α) = 25 := by simpa using @f32_natCast α _ _ 25 (by norm_num)
  have h2 : f32 (5 : α) = 5 := by simpa using @f32_natCast α _ _ 5 (by norm_num)
  have h3 : f32 ((1 / 4) : α) = (1 / 4) := by
    rw [f32_eval (1 / 4) (-2) (1 / 33554432) 8388608 (by norm_num [zpow_neg]) (by norm_num) (by
      norm_num) (by norm_num) (roundEven_of_lt _ 8388608 (by norm_num) (by norm_num))]
    norm_num
  have h4 : f32 ((3 / 4) : α) = (3 / 4) := by
    rw [f32_eval (3 / 4) (-1) (1 / 16777216) 12582912 (by norm_num [zpow_neg]) (by norm_num) (by
      norm_num) (by norm_num) (roundEven_of_lt _ 12582912 (by norm_num) (by norm_num))]
    norm_num
  unfold blend
  rw [h40]
  push_cast
  rw [h40a, show (40 : α) / 2 = 20 by norm_num, h20, hy, show (25 : α) - 20 = 5 by norm_num,
    h2, show (5 : α) / 20 = (1 / 4) by norm_num, h3,
    show (1 : α) - (1 / 4) = (3 / 4) by norm_num, h4]

/-- The value of `b` in row 28 of a 40-row screen. -/
theorem blend_row_28 (g : Game α) (h40 : g.screenHeight = 40) :
    blend g 28 = 5033165 / 8388608 := by
  have h40a : f32 (40 : α) = 40 := by simpa using @f32_natCast α _ _ 40 (by norm_num)
  have h20 : f32 (20 : α) = 20 := by simpa using @f32_natCast α _ _ 20 (by norm_num)
  have hy : f32 (28 : α) = 28 := by simpa using @f32_natCast α _ _ 28 (by norm_num)
  have h2 : f32 (8 : α) = 8 := by simpa using @f32_natCast α _ _ 8 (by norm_num)
  have h3 : f32 ((2 / 5) : α) = (13421773 / 33554432) := by
    rw [f32_eval (2 / 5) (-2) (1 / 33554432) 13421773 (by norm_num [zpow_neg]) (by norm_num) (by
      norm_num) (by norm_num) (roundEven_of_gt _ 13421772 (by norm_num) (by norm_num))]
    norm_num
  have h4 : f32 ((20132659 / 33554432) : α) = (5033165 / 8388608) := by
    rw [f32_eval (20132659 / 33554432) (-1) (1 / 16777216) 10066330 (by norm_num [zpow_neg]) (by
      norm_num) (by norm_num) (by norm_num) ((roundEven_of_tie _ 10066329 (by norm_num)).trans
      (by norm_num))]
    norm_num
  unfold blend
  rw [h40]
  push_cast
  rw [h40a, show (40 : α) / 2 = 20 by norm_num, h20, hy, show (28 : α) - 20 = 8 by norm_num,
    h2, show (8 : α) / 20 = (2 / 5) by norm_num, h3,
    show (1 : α) - (13421773 / 33554432) = (20132659 / 33554432) by norm_num, h4]

/-- The value of `b` in row 29 of a 40-row screen. -/
theorem blend_row_29 (g : Game α) (h40 : g.screenHeight = 40) :
    blend g 29 = 9227469 / 16777216 := by
  have h40a : f32 (40 : α) = 40 := by simpa using @f32_natCast α _ _ 40 (by norm_num)
  have h20 : f32 (20 : α) = 20 := by simpa using @f32_natCast α _ _ 20 (by norm_num)
  have hy : f32 (29 : α) = 29 := by simpa using @f32_natCast α _ _ 29 (by norm_num)
  have h2 : f32 (9 : α) = 9 := by simpa using @f32_natCast α _ _ 9 (by norm_num)
  have h3 : f32 ((9 / 20) : α) = (7549747 / 16777216) := by
    rw [f32_eval (9 / 20) (-2) (1 / 33554432) 15099494 (by norm_num [zpow_neg]) (by norm_num) (by
      norm_num) (by norm_num) (roundEven_of_lt _ 15099494 (by norm_num) (by norm_num))]
    norm_num
  have h4 : f32 ((9227469 / 16777216) : α) = (9227469 / 16777216) := by
    rw [f32_eval (9227469 / 16777216) (-1) (1 / 16777216) 9227469 (by norm_num [zpow_neg]) (by
      norm_num) (by norm_num) (by norm_num) (roundEven_of_lt _ 9227469 (by norm_num) (by
      norm_num))]
    norm_num
  unfold blend
  rw [h40]
  push_cast
  rw [h40a, show (40 : α) / 2 = 20 by norm_num, h20, hy, show (29 : α) - 20 = 9 by norm_num,
    h2, show (9 : α) / 20 = (9 / 20) by norm_num, h3,
    show (1 : α) - (7549747 / 16777216) = (9227469 / 16777216) by norm_num, h4]

/-- The value of `b` in row 31 of a 40-row screen. -/
theorem blend_row_31 (g : Game α) (h40 : g.screenHeight = 40) :
    blend g 31 = 7549747 / 16777216 := by
  have h40a : f32 (40 : α) = 40 := by simpa using @f32_natCast α _ _ 40 (by norm_num)
  have h20 : f32 (20 : α) = 20 := by simpa using @f32_natCast α _ _ 20 (by norm_num)
  have hy : f32 (31 : α) = 31 := by simpa using @f32_natCast α _ _ 31 (by norm_num)
  have h2 : f32 (11 : α) = 11 := by simpa using @f32_natCast α _ _ 11 (by norm_num)
  have h3 : f32 ((11 / 20) : α) = (9227469 / 16777216) := by
    rw [f32_eval (11 / 20) (-1) (1 / 16777216) 9227469 (by norm_num [zpow_neg]) (by norm_num) (by
      norm_num) (by norm_num) (roundEven_of_gt _ 9227468 (by norm_num) (by norm_num))]
    norm_num
  have h4 : f32 ((7549747 / 16777216) : α) = (7549747 / 16777216) := by
    rw [f32_eval (7549747 / 16777216) (-2) (1 / 33554432) 15099494 (by norm_num [zpow_neg]) (by
      norm_num) (by norm_num) (by norm_num) (roundEven_of_lt _ 15099494 (by norm_num) (by
      norm_num))]
    norm_num
  unfold blend
  rw [h40]
  push_cast
  rw [h40a, show (40 : α) / 2 = 20 by norm_num, h20, hy, show (31 : α) - 20 = 11 by norm_num,
    h2, show (11 : α) / 20 = (11 / 20) by norm_num, h3,
    show (1 : α) - (9227469 / 16777216) = (7549747 / 16777216) by norm_num, h4]

/-- The value of `b` in row 32 of a 40-row screen. -/
theorem blend_row_32 (g : Game α) (h40 : g.screenHeight = 40) :
    blend g 32 = 3355443 / 8388608 := by
  have h40a : f32 (40 : α) = 40 := by simpa using @f32_natCast α _ _ 40 (by norm_num)
  have h20 : f32 (20 : α) = 20 := by simpa using @f32_natCast α _ _ 20 (by norm_num)
  have hy : f32 (32 : α) = 32 := by simpa using @f32_natCast α _ _ 32 (by norm_num)
  have h2 : f32 (12 : α) = 12 := by simpa using @f32_natCast α _ _ 12 (by norm_num)
  have h3 : f32 ((3 / 5) : α) = (5033165 / 8388608) := by
    rw [f32_eval (3 / 5) (-1) (1 / 16777216) 10066330 (by norm_num [zpow_neg]) (by norm_num) (by
      norm_num) (by norm_num) (roundEven_of_gt _ 10066329 (by norm_num) (by norm_num))]
    norm_num
  have h4 : f32 ((3355443 / 8388608) : α) = (3355443 / 8388608) := by
    rw [f32_eval (3355443 / 8388608) (-2) (1 / 33554432) 13421772 (by norm_num [zpow_neg]) (by
      norm_num) (by norm_num) (by norm_num) (roundEven_of_lt _ 13421772 (by norm_num) (by
      norm_num))]
    norm_num
  unfold blend
  rw [h40]
  push_cast
  rw [h40a, show (40 : α) / 2 = 20 by norm_num, h20, hy, show (32 : α) - 20 = 12 by norm_num,
    h2, show (12 : α) / 20 = (3 / 5) by norm_num, h3,
    show (1 : α) - (5033165 / 8388608) = (3355443 / 8388608) by norm_num, h4]

/-- The value of `b` in row 35 of a 40-row screen. -/
theorem blend_row_35 (g : Game α) (h40 : g.screenHeight = 40) :
    blend g 35 = 1 / 4 := by
  have h40a : f32 (40 : α) = 40 := by simpa using @f32_natCast α _ _ 40 (by norm_num)
  have h20 : f32 (20 : α) = 20 := by simpa using @f32_natCast α _ _ 20 (by norm_num)
  have hy : f32 (35 : α) = 35 := by simpa using @f32_natCast α _ _ 35 (by norm_num)
  have h2 : f32 (15 : α) = 15 := by simpa using @f32_natCast α _ _ 15 (by norm_num)
  have h3 : f32 ((3 / 4) : α) = (3 / 4) := by
    rw [f32_eval (3 / 4) (-1) (1 / 16777216) 12582912 (by norm_num [zpow_neg]) (by norm_num) (by
      norm_num) (by norm_num) (roundEven_of_lt _ 12582912 (by norm_num) (by norm_num))]
    norm_num
  have h4 : f32 ((1 / 4) : α) = (1 / 4) := by
    rw [f32_eval (1 / 4) (-2) (1 / 33554432) 8388608 (by norm_num [zpow_neg]) (by norm_num) (by
      norm_num) (by norm_num) (roundEven_of_lt _ 8388608 (by norm_num) (by norm_num))]
    norm_num
  unfold blend
  rw [h40]
  push_cast
  rw [h40a, show (40 : α) / 2 = 20 by norm_num, h20, hy, show (35 : α) - 20 = 15 by norm_num,
    h2, show (15 : α) / 20 = (3 / 4) by norm_num, h3,
    show (1 : α) - (3 / 4) = (1 / 4) by norm_num, h4]

/-- The value of `b` in row 36 of a 40-row screen. -/
theorem blend_row_36 (g : Game α) (h40 : g.screenHeight = 40) :
    blend g 36 = 3355443 / 16777216 := by
  have h40a : f32 (40 : α) = 40 := by simpa using @f32_natCast α _ _ 40 (by norm_num)
  have h20 : f32 (20 : α) = 20 := by simpa using @f32_natCast α _ _ 20 (by norm_num)
  have hy : f32 (36 : α) = 36 := by simpa using @f32_natCast α _ _ 36 (by norm_num)
  have h2 : f32 (16 : α) = 16 := by simpa using @f32_natCast α _ _ 16 (by norm_num)
  have h3 : f32 ((4 / 5) : α) = (13421773 / 16777216) := by
    rw [f32_eval (4 / 5) (-1) (1 / 16777216) 13421773 (by norm_num [zpow_neg]) (by norm_num) (by
      norm_num) (by norm_num) (roundEven_of_gt _ 13421772 (by norm_num) (by norm_num))]
    norm_num
  have h4 : f32 ((3355443 / 16777216) : α) = (3355443 / 16777216) := by
    rw [f32_eval (3355443 / 16777216) (-3) (1 / 67108864) 13421772 (by norm_num [zpow_neg]) (by
      norm_num) (by norm_num) (by norm_num) (roundEven_of_lt _ 13421772 (by norm_num) (by
      norm_num))]
    norm_num
  unfold blend
  rw [h40]
  push_cast
  rw [h40a, show (40 : α) / 2 = 20 by norm_num, h20, hy, show (36 : α) - 20 = 16 by norm_num,
    h2, show (16 : α) / 20 = (4 / 5) by norm_num, h3,
    show (1 : α) - (13421773 / 16777216) = (3355443 / 16777216) by norm_num, h4]

/-- On a 40-row screen the value of `b` does not grow with the row. -/
theorem blend_antitone (g : Game α) (h40 : g.screenHeight = 40) (y1 y2 : ℕ) (h : y1 ≤ y2) :
    blend g y2 ≤ blend g y1 := by
  have h40a : f32 (40 : α) = 40 := by simpa using @f32_natCast α _ _ 40 (by norm_num)
  have h20 : f32 (20 : α) = 20 := by simpa using @f32_natCast α _ _ 20 (by norm_num)
  unfold blend
  rw [h40]
  push_cast
  rw [h40a, show (40 : α) / 2 = 20 by norm_num, h20]
  have h1 : f32 (y1 : α) ≤ f32 (y2 : α) := f32_mono (by exact_mod_cast h)
  have h2 : f32 (f32 (y1 : α) - 20) ≤ f32 (f32 (y2 : α) - 20) := f32_mono (by linarith)
  have h3 : f32 (f32 (f32 (y1 : α) - 20) / 20) ≤ f32 (f32 (f32 (y2 : α) - 20) / 20) :=
    f32_mono (div_le_div_of_nonneg_right h2 (by norm_num))
  exact f32_mono (by linarith)

/-- The floor glyph of each row of a 40-row screen. -/
theorem floorShade_rows (g : Game α) (h40 : g.screenHeight = 40) (y : ℕ) :
    floorShade g y =
      if 36 ≤ y then '#' else if 32 ≤ y then 'x' else if 29 ≤ y then '.'
      else if 25 ≤ y then '-' else ' ' := by
  obtain ⟨t1, t2, t3, t4⟩ := @f64_thresholds α _ _
  have anti := blend_antitone g h40
  have r24 := blend_row_24 g h40
  have r25 := blend_row_25 g h40
  have r28 := blend_row_28 g h40
  have r29 := blend_row_29 g h40
  have r31 := blend_row_31 g h40
  have r32 := blend_row_32 g h40
  have r35 := blend_row_35 g h40
  have r36 := blend_row_36 g h40
  unfold floorShade
  simp only []
  rw [t1, t2, t3, t4]
  by_cases h36 : 36 ≤ y
  · have hb := anti 36 y h36
    rw [r36] at hb
    rw [if_pos h36, if_pos (lt_of_le_of_lt hb (by norm_num))]
  · rw [if_neg h36]
    by_cases h32 : 32 ≤ y
    · have hb1 := anti y 35 (by omega)
      have hb2 := anti 32 y h32
      rw [r35] at hb1
      rw [r32] at hb2
      rw [if_pos h32, if_neg (not_lt.mpr (le_trans (by norm_num) hb1)),
        if_pos (lt_of_le_of_lt hb2 (by norm_num))]
    · rw [if_neg h32]
      by_cases h29 : 29 ≤ y
      · have hb1 := anti y 31 (by omega)
        have hb2 := anti 29 y h29
        rw [r31] at hb1
        rw [r29] at hb2
        rw [if_pos h29, if_neg (not_lt.mpr (le_trans (by norm_num) hb1)),
          if_neg (not_lt.mpr (le_trans (by norm_num) hb1)),
          if_pos (lt_of_le_of_lt hb2 (by norm_num))]
      · rw [if_neg h29]
        by_cases h25 : 25 ≤ y
        · have hb1 := anti y 28 (by omega)
          have hb2 := anti 25 y h25
          rw [r28] at hb1
          rw [r25] at hb2
          rw [if_pos h25, if_neg (not_lt.mpr (le_trans (by norm_num) hb1)),
            if_neg (not_lt.mpr (le_trans (by norm_num) hb1)),
            if_neg (not_lt.mpr (le_trans (by norm_num) hb1)),
            if_pos (lt_of_le_of_lt hb2 (by norm_num))]
        · have hb1 := anti y 24 (by omega)
          rw [r24] at hb1
          rw [if_neg h25, if_neg (not_lt.mpr (le_trans (by norm_num) hb1)),
            if_neg (not_lt.mpr (le_trans (by norm_num) hb1)),
            if_neg (not_lt.mpr (le_trans (by norm_num) hb1)),
            if_neg (not_lt.mpr (le_trans (by norm_num) hb1))]

/-- **C9** (floor shading, as the code computes it).  On a 40-row screen the
glyph of a floor row `y` is chosen by the value `b` of
`1 - (y - height/2)/(height/2)` computed in single precision (`blend`) and
compared with the `double` constants: `#` when `b < 0.2`, `x` when
`0.2 ≤ b < 0.4`, `.` when `0.4 ≤ b < 0.6`, `-` when `0.6 ≤ b < 0.8` and blank
when `b ≥ 0.8`.  In the rows 36 and 32 the computed `b` is
`0.19999998…` and `0.39999997…`, below the thresholds that the exact value
meets, and in the rows 28 and 24 it is `0.60000002…` and `0.80000001…`; so
the glyph is `#` for the rows from 36 on, `x` for 32..35, `.` for 29..31, `-`
for 25..28 and blank up to 24.  A lower row never has a sparser glyph than a
higher one; and whatever the distance `d > 0` and the boundary flag of the
column, `drawColumn` leaves exactly this glyph in every row below `floor`. -/
theorem floorShade_bands (g : Game α) (h40 : g.screenHeight = 40) :
    (∀ y : ℕ,
      (blend g y < f64 (20 / 100) → floorShade g y = '#') ∧
      (f64 (20 / 100) ≤ blend g y → blend g y < f64 (4 / 10) → floorShade g y = 'x') ∧
      (f64 (4 / 10) ≤ blend g y → blend g y < f64 (60 / 100) → floorShade g y = '.') ∧
      (f64 (60 / 100) ≤ blend g y → blend g y < f64 (8 / 10) → floorShade g y = '-') ∧
      (f64 (8 / 10) ≤ blend g y → floorShade g y = ' ')) ∧
    (blend g 36 = 3355443 / 16777216 ∧ blend g 32 = 3355443 / 8388608 ∧
      blend g 28 = 5033165 / 8388608 ∧ blend g 24 = 13421773 / 16777216) ∧
    (∀ y : ℕ, (36 ≤ y → floorShade g y = '#') ∧
      (32 ≤ y → y ≤ 35 → floorShade g y = 'x') ∧
      (29 ≤ y → y ≤ 31 → floorShade g y = '.') ∧
      (25 ≤ y → y ≤ 28 → floorShade g y = '-') ∧
      (y ≤ 24 → floorShade g y = ' ')) ∧
    (∀ y1 y2 : ℕ, y1 ≤ y2 → floorTier (floorShade g y1) ≤ floorTier (floorShade g y2)) ∧
    (∀ (x y : ℕ) (d : α) (boundary : Bool), 0 < d → (x : ℤ) < g.screenWidth →
      (y : ℤ) < g.screenHeight →
      g.screenBuffer.length = (g.screenWidth * g.screenHeight).toNat →
      floorOf g d < (y : ℤ) →
      (drawColumn g x d boundary)[cellIndex g x y]? = some (floorShade g y)) := by
  refine ⟨?_, ⟨blend_row_36 g h40, blend_row_32 g h40, blend_row_28 g h40,
    blend_row_24 g h40⟩, ?_, ?_, ?_⟩
  · intro y
    have e : floorShade g y =
        if blend g y < f64 (20 / 100) then '#' else if blend g y < f64 (4 / 10) then 'x'
        else if blend g y < f64 (60 / 100) then '.'
        else if blend g y < f64 (8 / 10) then '-' else ' ' := rfl
    have m1 : f64 ((20 : α) / 100) ≤ f64 (4 / 10) := f64_mono (by norm_num)
    have m2 : f64 ((4 : α) / 10) ≤ f64 (60 / 100) := f64_mono (by norm_num)
    have m3 : f64 ((60 : α) / 100) ≤ f64 (8 / 10) := f64_mono (by norm_num)
    refine ⟨fun h => ?_, fun h1 h2 => ?_, fun h1 h2 => ?_, fun h1 h2 => ?_, fun h1 => ?_⟩
    · rw [e, if_pos h]
    · rw [e, if_neg (not_lt.mpr h1), if_pos h2]
    · rw [e, if_neg (not_lt.mpr (m1.trans h1)), if_neg (not_lt.mpr h1), if_pos h2]
    · rw [e, if_neg (not_lt.mpr (m1.trans (m2.trans h1))), if_neg (not_lt.mpr (m2.trans h1)),
        if_neg (not_lt.mpr h1), if_pos h2]
    · rw [e, if_neg (not_lt.mpr (m1.trans (m2.trans (m3.trans h1)))),
        if_neg (not_lt.mpr (m2.trans (m3.trans h1))), if_neg (not_lt.mpr (m3.trans h1)),
        if_neg (not_lt.mpr h1)]
  · intro y
    rw [floorShade_rows g h40 y]
    refine ⟨fun h => ?_, fun h1 h2 => ?_, fun h1 h2 => ?_, fun h1 h2 => ?_, fun h1 => ?_⟩
    · rw [if_pos h]
    · rw [if_neg (by omega), if_pos h1]
    · rw [if_neg (by omega), if_neg (by omega), if_pos h1]
    · rw [if_neg (by omega), if_neg (by omega), if_neg (by omega), if_pos h1]
    · rw [if_neg (by omega), if_neg (by omega), if_neg (by omega), if_neg (by omega)]
  · intro y1 y2 h
    rw [floorShade_rows g h40 y1, floorShade_rows g h40 y2]
    split_ifs <;> first | decide | (exfalso; omega)
  · intro x y d boundary hd hx hy hbuf hf
    have hcf := ceilingOf_le_floorOf g d (by omega) hd
    rw [drawColumn_spec g x y d boundary hx hy hbuf, rowGlyph,
      if_neg (not_le.mpr (lt_of_le_of_lt hcf hf)), if_neg (not_le.mpr hf)]

/-- Witness of `floorShade_bands`: row 36 of the constructor's screen. -/
theorem floorShade_bands_witness :
    (init : Game ℚ).screenHeight = 40 ∧ floorShade (init : Game ℚ) 36 = '#' :=
  ⟨rfl, ((floorShade_bands (init : Game ℚ) rfl).2.2.1 36).1 (by norm_num)⟩

/-- Counterexample to **C9** as stated: on the constructor's 40-row screen the
exact value of `1 - (y - height/2)/(height/2)` is `0.2` in row 36 and `0.4`
in row 32, but the value computed in single precision is `3355443 / 2^24`,
below `0.2`, and `3355443 / 2^23`, below `0.4`; the code writes `#` in row 36
and `x` in row 32, not `x` and `.`. -/
theorem floorShade_row_36 :
    (1 : ℚ) - ((36 - 40 / 2) / (40 / 2)) = 2 / 10 ∧
    (1 : ℚ) - ((32 - 40 / 2) / (40 / 2)) = 4 / 10 ∧
    blend (init : Game ℚ) 36 = 3355443 / 16777216 ∧
    blend (init : Game ℚ) 32 = 3355443 / 8388608 ∧
    floorShade (init : Game ℚ) 36 = '#' ∧ floorShade (init : Game ℚ) 32 = 'x' := by
  refine ⟨by norm_num, by norm_num, blend_row_36 _ rfl, blend_row_32 _ rfl, ?_, ?_⟩
  · rw [floorShade_rows (init : Game ℚ) rfl 36]
    rfl
  · rw [floorShade_rows (init : Game ℚ) rfl 32]
    rfl

/-- **C10** (boundary override).  For every distance the wall glyph of a
column whose boundary flag is set is the blank; and on a 16x16 map stored in
256 characters, with a positive depth and a buffer of
`screenWidth * screenHeight` cells, after `CastRays` every wall row
(`ceiling < y ≤ floor`) of a column whose march ended with `boundary = true`
holds a blank. -/
theorem CastRays_boundary_blank (m : MathFns α) (fuel : ℕ) (g : Game α)
    (hmw : g.mapWidth = 16) (hmh : g.mapHeight = 16) (hlen : g.gameMap.length = 256)
    (hd : 0 < g.depth) (hfuel : g.depth ≤ (fuel : α) * stepSize)
    (hbuf : g.screenBuffer.length = (g.screenWidth * g.screenHeight).toNat) :
    (∀ d : α, wallShade g d true = ' ') ∧
    ∃ buf : List Char, CastRays m fuel g = .ok (withBuffer g buf) ∧
      ∀ (x y : ℕ) (s : RayState α), (x : ℤ) < g.screenWidth → (y : ℤ) < g.screenHeight →
        castRay m g fuel x = .ok s → s.boundary = true →
        ceilingOf g s.distanceToWall < (y : ℤ) → (y : ℤ) ≤ floorOf g s.distanceToWall →
        buf[cellIndex g x y]? = some ' ' := by
  have hshade : ∀ d : α, wallShade g d true = ' ' := fun d => by
    unfold wallShade
    simp only [if_true]
  refine ⟨hshade, ?_⟩
  obtain ⟨buf, h1, _, h3⟩ := CastRays_frame m fuel g hmw hmh hlen hd hfuel hbuf
  refine ⟨buf, h1, fun x y s hx hy hs hb hc hf => ?_⟩
  obtain ⟨s1, hs1, _, hcell⟩ := h3 x y hx hy
  rw [hs] at hs1
  cases hs1
  rw [hcell, rowGlyph, if_neg (not_le.mpr hc), if_pos hf, hb, hshade]

/-- Witness of `CastRays_boundary_blank`: the constructor's game. -/
theorem CastRays_boundary_blank_witness :
    (∀ d : ℚ, wallShade (init : Game ℚ) d true = ' ') ∧
    ∃ buf : List Char, CastRays ratFns 1600 (init : Game ℚ) = .ok (withBuffer init buf) ∧
      ∀ (x y : ℕ) (s : RayState ℚ), (x : ℤ) < 120 → (y : ℤ) < 40 →
        castRay ratFns (init : Game ℚ) 1600 x = .ok s → s.boundary = true →
        ceilingOf (init : Game ℚ) s.distanceToWall < (y : ℤ) →
        (y : ℤ) ≤ floorOf (init : Game ℚ) s.distanceToWall →
        buf[cellIndex (init : Game ℚ) x y]? = some ' ' :=
  CastRays_boundary_blank ratFns 1600 (init : Game ℚ) rfl rfl builtinMap_length
    (by norm_num [init]) (by norm_num [init, stepSize]) init_buffer_length

omit [FloorRing α] in
/-- Insertion keeps the elements. -/
theorem insertPair_perm (a : α × α) : ∀ l : List (α × α), (insertPair a l).Perm (a :: l) := by
  intro l
  induction l with
  | nil => exact List.Perm.refl _
  | cons b l ih =>
    unfold insertPair
    split_ifs
    · exact List.Perm.refl _
    · exact (List.Perm.cons b ih).trans (List.Perm.swap a b l)

omit [FloorRing α] in
/-- The sort keeps the elements. -/
theorem sortPairs_perm : ∀ l : List (α × α), (sortPairs l).Perm l := by
  have key : ∀ (l sorted : List (α × α)),
      (l.foldl (fun sorted a => insertPair a sorted) sorted).Perm (l ++ sorted) := by
    intro l
    induction l with
    | nil => intro sorted; exact List.Perm.refl _
    | cons a l ih =>
      intro sorted
      rw [List.foldl_cons]
      refine (ih (insertPair a sorted)).trans ?_
      refine (List.Perm.append_left l (insertPair_perm a sorted)).trans ?_
      exact List.perm_middle
  intro l
  have := key l []
  rwa [List.append_nil] at this

omit [FloorRing α] in
/-- Insertion into a list ordered by first component gives such a list. -/
theorem insertPair_sorted (a : α × α) : ∀ l : List (α × α),
    l.Pairwise (fun p q => p.1 ≤ q.1) → (insertPair a l).Pairwise (fun p q => p.1 ≤ q.1) := by
  intro l
  induction l with
  | nil => intro _; exact List.pairwise_singleton _ _
  | cons b l ih =>
    intro h
    unfold insertPair
    rw [List.pairwise_cons] at h
    split_ifs with hab
    · refine List.Pairwise.cons ?_ (List.Pairwise.cons h.1 h.2)
      intro q hq
      rcases List.mem_cons.mp hq with rfl | hq
      · exact hab.le
      · exact hab.le.trans (h.1 q hq)
    · refine List.Pairwise.cons ?_ (ih h.2)
      intro q hq
      rcases List.mem_cons.mp ((insertPair_perm a l).subset hq) with rfl | hq
      · exact not_lt.mp hab
      · exact h.1 q hq

omit [FloorRing α] in
/-- The sorted vector is ordered by first component. -/
theorem sortPairs_sorted : ∀ l : List (α × α),
    (sortPairs l).Pairwise (fun p q => p.1 ≤ q.1) := by
  have key : ∀ (l sorted : List (α × α)), sorted.Pairwise (fun p q => p.1 ≤ q.1) →
      (l.foldl (fun sorted a => insertPair a sorted) sorted).Pairwise
        (fun p q => p.1 ≤ q.1) := by
    intro l
    induction l with
    | nil => intro sorted h; exact h
    | cons a l ih =>
      intro sorted h
      rw [List.foldl_cons]
      exact ih _ (insertPair_sorted a sorted h)
  intro l
  exact key l [] List.Pairwise.nil

omit [FloorRing α] in
/-- If some pair of a four-element vector has a first component strictly below
that of another pair and an `acos` of its second component below `bound`,
the test on the sorted vector succeeds: the pair is among the first three. -/
theorem nearCorner_of_nearer (m : MathFns α) (p : List (α × α)) (hp : p.length = 4)
    (q q1 : α × α) (hq : q ∈ p) (hq1 : q1 ∈ p) (hlt : q.1 < q1.1)
    (hq2 : m.acos q.2 < bound) : nearCorner m (sortPairs p) = true := by
  have hperm := sortPairs_perm p
  have hsorted := sortPairs_sorted p
  have hlen : (sortPairs p).length = 4 := by rw [hperm.length_eq, hp]
  have hq' : q ∈ sortPairs p := hperm.symm.subset hq
  have hq1' : q1 ∈ sortPairs p := hperm.symm.subset hq1
  generalize sortPairs p = l at hsorted hlen hq' hq1'
  match l, hlen with
  | [s0, s1, s2, s3], _ =>
    simp only [List.pairwise_cons, List.mem_cons, List.mem_singleton, forall_eq_or_imp,
      forall_eq, List.not_mem_nil, false_implies, implies_true, List.Pairwise.nil,
      and_true, or_false] at hsorted hq' hq1'
    obtain ⟨⟨h01, h02, h03⟩, ⟨h12, h13⟩, h23⟩ := hsorted
    unfold nearCorner
    simp only [Bool.or_eq_true, decide_eq_true_eq]
    rcases hq' with rfl | rfl | rfl | rfl
    · exact Or.inl (Or.inl hq2)
    · exact Or.inl (Or.inr hq2)
    · exact Or.inr hq2
    · exfalso
      rcases hq1' with rfl | rfl | rfl | rfl
      · exact absurd h03 (not_le.mpr hlt)
      · exact absurd h13 (not_le.mpr hlt)
      · exact absurd h23 (not_le.mpr hlt)
      · exact lt_irrefl _ hlt

omit [FloorRing α] in
/-- If no pair of the vector has an `acos` of its second component below
`bound`, the test on the sorted vector fails. -/
theorem nearCorner_of_all_far (m : MathFns α) (p : List (α × α))
    (h : ∀ q ∈ p, bound ≤ m.acos q.2) : nearCorner m (sortPairs p) = false := by
  have hperm := sortPairs_perm p
  have h' : ∀ q ∈ sortPairs p, bound ≤ m.acos q.2 := fun q hq => h q (hperm.subset hq)
  generalize sortPairs p = l at h'
  unfold nearCorner
  split
  · rename_i p0 p1 p2 rest
    have h0 := h' p0 (by simp)
    have h1 := h' p1 (by simp)
    have h2 := h' p2 (by simp)
    simp [not_lt.mpr h0, not_lt.mpr h1, not_lt.mpr h2]
  · rfl

/-- An angle of at least `bound` for the real `arccos`. -/
theorem bound_le_arccos (x : ℝ) (hx : x ≤ 99995 / 100000) : (bound : ℝ) ≤ Real.arccos x := by
  unfold bound
  by_cases h1 : x ≤ -1
  · rw [Real.arccos_of_le_neg_one h1]
    linarith [Real.pi_gt_three]
  · push_neg at h1
    by_contra hlt
    push_neg at hlt
    have hcos : Real.arccos (Real.cos (1 / 100)) = 1 / 100 :=
      Real.arccos_cos (by norm_num) (by linarith [Real.pi_gt_three])
    rw [← hcos] at hlt
    have hmem : Real.cos (1 / 100) ∈ Set.Icc (-1 : ℝ) 1 :=
      ⟨Real.neg_one_le_cos _, Real.cos_le_one _⟩
    have h2 := (Real.strictAntiOn_arccos.lt_iff_lt ⟨h1.le, by linarith⟩ hmem).mp hlt
    have h3 := @Real.one_sub_sq_div_two_le_cos (1 / 100)
    norm_num at h3
    linarith

/-- An angle below `bound` for the real `arccos`. -/
theorem arccos_lt_bound (x : ℝ) (hx : 99995001 / 100000000 ≤ x) :
    Real.arccos x < (bound : ℝ) := by
  unfold bound
  by_cases h1 : 1 ≤ x
  · rw [Real.arccos_of_one_le h1]; norm_num
  · push_neg at h1
    have hcos : Real.arccos (Real.cos (1 / 100)) = 1 / 100 :=
      Real.arccos_cos (by norm_num) (by linarith [Real.pi_gt_three])
    rw [← hcos]
    have hmem : Real.cos (1 / 100) ∈ Set.Icc (-1 : ℝ) 1 :=
      ⟨Real.neg_one_le_cos _, Real.cos_le_one _⟩
    refine (Real.strictAntiOn_arccos.lt_iff_lt ⟨by linarith, h1.le⟩ hmem).mpr ?_
    have h3 := @Real.cos_bound (1 / 100) (by rw [abs_of_pos] <;> norm_num)
    rw [abs_le] at h3
    have h4 : |(1 / 100 : ℝ)| ^ 4 * (5 / 96) ≤ 1 / 1000000000 := by
      rw [abs_of_pos (by norm_num)]; norm_num
    have h5 := h3.2
    norm_num at h5 h4 ⊢
    linarith

/-- An upper bound of the cosine `(e·v)/|v|` computed by
`HandleWallIntersection`, from a bound of its square. -/
theorem dot_le_of_sq (ex ey vx vy c : ℝ) (hc : 0 ≤ c)
    (h : (ex * vx + ey * vy) ^ 2 ≤ c ^ 2 * (vx * vx + vy * vy)) :
    ex * vx / Real.sqrt (vx * vx + vy * vy) + ey * vy / Real.sqrt (vx * vx + vy * vy) ≤ c := by
  rw [← add_div]
  rcases (Real.sqrt_nonneg (vx * vx + vy * vy)).eq_or_lt with h0 | hpos
  · rw [← h0, div_zero]; exact hc
  · rw [div_le_iff₀ hpos]
    have h1 : |ex * vx + ey * vy| ≤ Real.sqrt (c ^ 2 * (vx * vx + vy * vy)) :=
      Real.abs_le_sqrt h
    rw [Real.sqrt_mul (sq_nonneg c), Real.sqrt_sq hc] at h1
    exact (le_abs_self _).trans h1

/-- A lower bound of the cosine `(e·v)/|v|` computed by
`HandleWallIntersection`, from a bound of its square. -/
theorem le_dot_of_sq (ex ey vx vy c : ℝ) (hc : 0 < c) (hS : 0 < vx * vx + vy * vy)
    (h0 : 0 ≤ ex * vx + ey * vy)
    (h : c ^ 2 * (vx * vx + vy * vy) ≤ (ex * vx + ey * vy) ^ 2) :
    c ≤ ex * vx / Real.sqrt (vx * vx + vy * vy) + ey * vy / Real.sqrt (vx * vx + vy * vy) := by
  rw [← add_div, le_div_iff₀ (Real.sqrt_pos.mpr hS)]
  have h1 : Real.sqrt (c ^ 2 * (vx * vx + vy * vy)) ≤ Real.sqrt ((ex * vx + ey * vy) ^ 2) :=
    Real.sqrt_le_sqrt h
  rw [Real.sqrt_mul (sq_nonneg c), Real.sqrt_sq hc.le, Real.sqrt_sq h0] at h1
  exact h1

/-- The sine and cosine of the angle `arcsin (4/5)`. -/
theorem sin_cos_arcsin_four_fifths :
    Real.sin (Real.arcsin (4 / 5)) = 4 / 5 ∧ Real.cos (Real.arcsin (4 / 5)) = 3 / 5 := by
  refine ⟨Real.sin_arcsin (by norm_num) (by norm_num), ?_⟩
  rw [Real.cos_arcsin]
  rw [show (1 : ℝ) - (4 / 5) ^ 2 = (3 / 5) ^ 2 by norm_num]
  exact Real.sqrt_sq (by norm_num)



omit [FloorRing α] in
/-- Each corner of the tile has its pair in the vector `p`. -/
theorem cornerPair_mem (m : MathFns α) (g : Game α) (testX testY : ℤ) (rayAngle : α)
    (i j : ℤ) (hi : i = 0 ∨ i = 1) (hj : j = 0 ∨ j = 1) :
    cornerPair m g testX testY rayAngle i j ∈ cornerPairs m g testX testY rayAngle := by
  unfold cornerPairs
  rcases hi with rfl | rfl <;> rcases hj with rfl | rfl <;> simp




set_option maxRecDepth 100000 in
/-- The cell `(4, 7)` of the constructor's map, as the march reads it, is a
wall. -/
theorem builtinMap_cell_4_7 : cstrAt builtinMap (4 * 16 + 7) = .ok '#' := by decide

/-- The corner case of the boundary test, for a record `m` of functions that
are the real `sin`, `cos`, `sqrt` and `arccos`. -/
theorem nearCorner_of_points_at (m : MathFns ℝ) (hsin : m.sinf = Real.sin)
    (hcos : m.cosf = Real.cos) (hsqrt : m.sqrt = Real.sqrt) (hacos : m.acos = Real.arccos)
    (g : Game ℝ) (testX testY : ℤ) (rayAngle t : ℝ) (i j i1 j1 : ℤ)
    (hi : i = 0 ∨ i = 1) (hj : j = 0 ∨ j = 1) (hi1 : i1 = 0 ∨ i1 = 1) (hj1 : j1 = 0 ∨ j1 = 1)
    (ht : 0 < t)
    (hx : g.playerX + t * Real.sin rayAngle = (testX : ℝ) + (i : ℝ))
    (hy : g.playerY + t * Real.cos rayAngle = (testY : ℝ) + (j : ℝ))
    (hfar : t * t < ((testX : ℝ) + (i1 : ℝ) - g.playerX) * ((testX : ℝ) + (i1 : ℝ) - g.playerX) +
      ((testY : ℝ) + (j1 : ℝ) - g.playerY) * ((testY : ℝ) + (j1 : ℝ) - g.playerY)) :
    nearCorner m (sortPairs (cornerPairs m g testX testY rayAngle)) = true := by
  have hvx : (testX : ℝ) + (i : ℝ) - g.playerX = t * Real.sin rayAngle := by linarith
  have hvy : (testY : ℝ) + (j : ℝ) - g.playerY = t * Real.cos rayAngle := by linarith
  have hS : (t * Real.sin rayAngle) * (t * Real.sin rayAngle) +
      (t * Real.cos rayAngle) * (t * Real.cos rayAngle) = t * t := by
    have := Real.sin_sq_add_cos_sq rayAngle
    nlinarith
  have ht2 : Real.sqrt (t * t) = t := Real.sqrt_mul_self ht.le
  refine nearCorner_of_nearer m (cornerPairs m g testX testY rayAngle) rfl
    (cornerPair m g testX testY rayAngle i j) (cornerPair m g testX testY rayAngle i1 j1)
    (cornerPair_mem m g testX testY rayAngle i j hi hj)
    (cornerPair_mem m g testX testY rayAngle i1 j1 hi1 hj1) ?_ ?_
  · simp only [cornerPair, hsqrt]
    rw [hvx, hvy, hS]
    exact Real.sqrt_lt_sqrt (mul_nonneg ht.le ht.le) hfar
  · simp only [cornerPair, hsin, hcos, hsqrt, hacos]
    rw [hvx, hvy, hS, ht2]
    have h1 : Real.sin rayAngle * (t * Real.sin rayAngle) / t +
        Real.cos rayAngle * (t * Real.cos rayAngle) / t = 1 := by
      have := Real.sin_sq_add_cos_sq rayAngle
      field_simp
      nlinarith
    rw [h1, Real.arccos_one]
    unfold bound
    norm_num

/-- The corner case in exact arithmetic (operations without rounding, the
real `sin`, `cos`, `sqrt` and `arccos`): for every player position and every
hit wall cell `(testX, testY)`, if the ray's unit direction
`(sin rayAngle, cos rayAngle)` points exactly at the corner
`(testX + i, testY + j)` of the cell (the corner is the player position plus
`t > 0` times the direction, so the player is not on it) and some corner
`(testX + i1, testY + j1)` of the cell is strictly farther from the player,
then `HandleWallIntersection` sets `hitWall` and `boundary`: the exact `dot`
of that corner is 1.  With binary32 rounding the computed `dot` can exceed 1,
which `HandleWallIntersectionF` covers. -/
theorem HandleWallIntersection_near_corner (g : Game ℝ) (testX testY : ℤ) (d : ℝ)
    (hitWall boundary : Bool) (rayAngle t : ℝ) (i j i1 j1 : ℤ)
    (hi : i = 0 ∨ i = 1) (hj : j = 0 ∨ j = 1) (hi1 : i1 = 0 ∨ i1 = 1) (hj1 : j1 = 0 ∨ j1 = 1)
    (hwall : cstrAt g.gameMap (testX * g.mapWidth + testY) = .ok '#')
    (ht : 0 < t)
    (hx : g.playerX + t * Real.sin rayAngle = (testX : ℝ) + (i : ℝ))
    (hy : g.playerY + t * Real.cos rayAngle = (testY : ℝ) + (j : ℝ))
    (hfar : t * t < ((testX : ℝ) + (i1 : ℝ) - g.playerX) * ((testX : ℝ) + (i1 : ℝ) - g.playerX) +
      ((testY : ℝ) + (j1 : ℝ) - g.playerY) * ((testY : ℝ) + (j1 : ℝ) - g.playerY)) :
    HandleWallIntersection ⟨Real.sin, Real.cos, Real.sqrt, Real.arccos⟩ g testX testY d
      hitWall boundary rayAngle = .ok (true, true) := by
  rw [HandleWallIntersection_wall _ g testX testY d hitWall boundary rayAngle hwall,
    nearCorner_of_points_at _ rfl rfl rfl rfl g testX testY rayAngle t i j i1 j1 hi hj hi1 hj1
      ht hx hy hfar]
  rfl

/-- An instance of the corner case in exact arithmetic: on the constructor's
map, the player at `(3.2, 6.4)`, the ray of direction `(4/5, 3/5)`, which
points at the corner `(4, 7)` of the wall cell `(4, 7)`. -/
theorem HandleWallIntersection_near_corner_witness :
    HandleWallIntersection ⟨Real.sin, Real.cos, Real.sqrt, Real.arccos⟩
      { (init : Game ℝ) with playerX := 16 / 5, playerY := 32 / 5 } 4 7 1 false false
      (Real.arcsin (4 / 5)) = .ok (true, true) :=
  HandleWallIntersection_near_corner
    { (init : Game ℝ) with playerX := 16 / 5, playerY := 32 / 5 } 4 7 1 false false
    (Real.arcsin (4 / 5)) 1 0 0 1 1 (Or.inl rfl) (Or.inl rfl) (Or.inr rfl) (Or.inr rfl)
    builtinMap_cell_4_7 one_pos
    (by rw [sin_cos_arcsin_four_fifths.1]; norm_num)
    (by rw [sin_cos_arcsin_four_fifths.2]; norm_num)
    (by norm_num)



set_option maxRecDepth 100000 in
/-- The cell `(15, 14)` of the constructor's map, as the march reads it, is a
wall. -/
theorem builtinMap_cell_15_14 : cstrAt builtinMap (15 * 16 + 14) = .ok '#' := by decide

/-- The sine and cosine of the angle `arcsin (20/101)`. -/
theorem sin_cos_arcsin_grazing :
    Real.sin (Real.arcsin (20 / 101)) = 20 / 101 ∧
    Real.cos (Real.arcsin (20 / 101)) = 99 / 101 := by
  refine ⟨Real.sin_arcsin (by norm_num) (by norm_num), ?_⟩
  rw [Real.cos_arcsin]
  rw [show (1 : ℝ) - (20 / 101) ^ 2 = (99 / 101) ^ 2 by norm_num]
  exact Real.sqrt_sq (by norm_num)

/-- The face case of the boundary test at a grazing ray, for a record `m` of
functions that are the real `sin`, `cos`, `sqrt` and `arccos`: the player at
`(13, 4.6)`, the cell `(15, 14)`, the direction `(20/101, 99/101)`. -/
theorem nearCorner_grazing (m : MathFns ℝ) (hsin : m.sinf = Real.sin)
    (hcos : m.cosf = Real.cos) (hsqrt : m.sqrt = Real.sqrt) (hacos : m.acos = Real.arccos)
    (g : Game ℝ) (hx : g.playerX = 13) (hy : g.playerY = 23 / 5) :
    nearCorner m (sortPairs (cornerPairs m g 15 14 (Real.arcsin (20 / 101)))) = true := by
  obtain ⟨hs, hc⟩ := sin_cos_arcsin_grazing
  refine nearCorner_of_nearer m _ rfl
    (cornerPair m g 15 14 (Real.arcsin (20 / 101)) 0 1)
    (cornerPair m g 15 14 (Real.arcsin (20 / 101)) 1 1)
    (cornerPair_mem m _ 15 14 _ 0 1 (Or.inl rfl) (Or.inr rfl))
    (cornerPair_mem m _ 15 14 _ 1 1 (Or.inr rfl) (Or.inr rfl)) ?_ ?_
  · simp only [cornerPair, hsqrt, hx, hy]
    apply Real.sqrt_lt_sqrt <;> norm_num
  · simp only [cornerPair, hsin, hcos, hsqrt, hacos, hx, hy]
    apply arccos_lt_bound
    apply le_dot_of_sq _ _ _ _ _ (by norm_num) (by norm_num)
    · rw [hs, hc]; norm_num
    · rw [hs, hc]; norm_num

set_option maxRecDepth 100000 in
/-- The cells `(13, 4..14)` and `(14, 4..14)` of the constructor's map, as the
march reads them, are empty. -/
theorem builtinMap_cells_13_14 : ∀ (i : Fin 2) (j : Fin 11),
    cstrAt builtinMap ((13 + (i.val : ℤ)) * 16 + (4 + (j.val : ℤ))) = .ok '.' := by decide

/-- The march of the centre column on the constructor's map, from the pose
`(13, 4.6)` with heading `arcsin (20/101)`: the ray has direction
`(20/101, 99/101)`, stays in empty cells of the rows 13 and 14 for 1009 passes
and enters the wall cell `(15, 14)` in pass 1010, where the boundary test
succeeds. -/
theorem castRay_grazing :
    castRay ⟨Real.sin, Real.cos, Real.sqrt, Real.arccos⟩
      { (init : Game ℝ) with
        playerX := 13, playerY := 23 / 5, playerA := Real.arcsin (20 / 101) }
      1600 60 = .ok ⟨101 / 10, true, true⟩ := by
  obtain ⟨hs, hc⟩ := sin_cos_arcsin_grazing
  have hang : rayAngleOf ({ (init : Game ℝ) with
      playerX := 13, playerY := 23 / 5, playerA := Real.arcsin (20 / 101) } : Game ℝ) 60 =
      Real.arcsin (20 / 101) := by
    simp only [rayAngleOf, init]
    push_cast
    ring
  unfold castRay
  simp only []
  rw [hang, hs, hc]
  have hX : ∀ j : ℕ, j < 1010 →
      13 ≤ toInt ((13 : ℝ) + 20 / 101 * ((j : ℝ) * stepSize)) ∧
      toInt ((13 : ℝ) + 20 / 101 * ((j : ℝ) * stepSize)) ≤ 14 := by
    intro j hj
    have h0 : (0 : ℝ) ≤ (j : ℝ) := Nat.cast_nonneg j
    have h1 : (j : ℝ) ≤ 1009 := by exact_mod_cast (by omega : j ≤ 1009)
    unfold stepSize
    exact toInt_bounds _ 13 14 (by norm_num) (by push_cast; linarith) (by push_cast; linarith)
  have hY : ∀ j : ℕ, j ≤ 1010 →
      4 ≤ toInt ((23 / 5 : ℝ) + 99 / 101 * ((j : ℝ) * stepSize)) ∧
      toInt ((23 / 5 : ℝ) + 99 / 101 * ((j : ℝ) * stepSize)) ≤ 14 := by
    intro j hj
    have h0 : (0 : ℝ) ≤ (j : ℝ) := Nat.cast_nonneg j
    have h1 : (j : ℝ) ≤ 1010 := by exact_mod_cast hj
    unfold stepSize
    exact toInt_bounds _ 4 14 (by norm_num) (by push_cast; linarith) (by push_cast; linarith)
  have hX1010 : toInt ((13 : ℝ) + 20 / 101 * (((1010 : ℕ) : ℝ) * stepSize)) = 15 := by
    unfold stepSize
    exact toInt_eq_of_mem _ 15 (by norm_num) (by norm_num) (by norm_num)
  have hY1010 : toInt ((23 / 5 : ℝ) + 99 / 101 * (((1010 : ℕ) : ℝ) * stepSize)) = 14 := by
    unfold stepSize
    exact toInt_eq_of_mem _ 14 (by norm_num) (by norm_num) (by norm_num)
  have hmarch := marchLoop_to_wall (⟨Real.sin, Real.cos, Real.sqrt, Real.arccos⟩ : MathFns ℝ)
    ({ (init : Game ℝ) with
      playerX := 13, playerY := 23 / 5, playerA := Real.arcsin (20 / 101) } : Game ℝ)
    (Real.arcsin (20 / 101)) (20 / 101) (99 / 101) 1010
    (by norm_num [init, stepSize])
    (by
      intro j _ hj
      show ¬ (toInt ((13 : ℝ) + 20 / 101 * ((j : ℝ) * stepSize)) < 0 ∨
        toInt ((13 : ℝ) + 20 / 101 * ((j : ℝ) * stepSize)) ≥ 16 ∨
        toInt ((23 / 5 : ℝ) + 99 / 101 * ((j : ℝ) * stepSize)) < 0 ∨
        toInt ((23 / 5 : ℝ) + 99 / 101 * ((j : ℝ) * stepSize)) ≥ 16)
      have hy := hY j hj
      rcases Nat.lt_or_ge j 1010 with h | h
      · have hx := hX j h
        omega
      · obtain rfl : j = 1010 := by omega
        rw [hX1010]
        omega)
    (by
      intro j _ hj
      show ∃ c, c ≠ '#' ∧ cstrAt builtinMap
        (toInt ((13 : ℝ) + 20 / 101 * ((j : ℝ) * stepSize)) * 16 +
          toInt ((23 / 5 : ℝ) + 99 / 101 * ((j : ℝ) * stepSize))) = .ok c
      obtain ⟨hx1, hx2⟩ := hX j hj
      obtain ⟨hy1, hy2⟩ := hY j hj.le
      refine ⟨'.', by decide, ?_⟩
      have hcell := builtinMap_cells_13_14
        ⟨(toInt ((13 : ℝ) + 20 / 101 * ((j : ℝ) * stepSize)) - 13).toNat, by omega⟩
        ⟨(toInt ((23 / 5 : ℝ) + 99 / 101 * ((j : ℝ) * stepSize)) - 4).toNat, by omega⟩
      simp only [Int.toNat_of_nonneg (sub_nonneg.mpr hx1),
        Int.toNat_of_nonneg (sub_nonneg.mpr hy1)] at hcell
      rw [← hcell]
      congr 1
      ring)
    (by
      show cstrAt builtinMap
        (toInt ((13 : ℝ) + 20 / 101 * (((1010 : ℕ) : ℝ) * stepSize)) * 16 +
          toInt ((23 / 5 : ℝ) + 99 / 101 * (((1010 : ℕ) : ℝ) * stepSize))) = .ok '#'
      rw [hX1010, hY1010]
      exact builtinMap_cell_15_14)
    1009 1600 0 ⟨0, false, false⟩ (by norm_num) (by norm_num) (by simp) rfl
  rw [hmarch]
  have e1 : toInt (({ (init : Game ℝ) with
      playerX := 13, playerY := 23 / 5, playerA := Real.arcsin (20 / 101) } : Game ℝ).playerX +
      20 / 101 * (((1010 : ℕ) : ℝ) * stepSize)) = 15 := hX1010
  have e2 : toInt (({ (init : Game ℝ) with
      playerX := 13, playerY := 23 / 5, playerA := Real.arcsin (20 / 101) } : Game ℝ).playerY +
      99 / 101 * (((1010 : ℕ) : ℝ) * stepSize)) = 14 := hY1010
  rw [e1, e2, nearCorner_grazing _ rfl rfl rfl rfl _ rfl rfl]
  norm_num [stepSize]

/-- Counterexample to **C7** as stated: on the constructor's map, from the
pose `(13, 4.6)` with heading `arcsin (20/101)`, the ray of the centre column
has the unit direction `(sin, cos) = (20/101, 99/101)` and its march stops at
distance `10.1` on the wall cell `(15, 14)`; the ray points exactly at the
midpoint `(15, 14.5)` of the face `x = 15` through which it enters the cell
(the player plus `10.1` times the direction); yet `HandleWallIntersection`
sets `boundary`, and so does the march: seen at this grazing angle the corner
`(15, 15)` is within 0.01 rad of the ray. -/
theorem HandleWallIntersection_grazing_face :
    Real.sin (Real.arcsin (20 / 101)) = 20 / 101 ∧
    Real.cos (Real.arcsin (20 / 101)) = 99 / 101 ∧
    (13 : ℝ) + 101 / 10 * (20 / 101) = ((15 : ℤ) : ℝ) ∧
    (23 / 5 : ℝ) + 101 / 10 * (99 / 101) = ((14 : ℤ) : ℝ) + 1 / 2 ∧
    HandleWallIntersection ⟨Real.sin, Real.cos, Real.sqrt, Real.arccos⟩
      { (init : Game ℝ) with
        playerX := 13, playerY := 23 / 5, playerA := Real.arcsin (20 / 101) }
      15 14 (101 / 10) false false (Real.arcsin (20 / 101)) = .ok (true, true) ∧
    castRay ⟨Real.sin, Real.cos, Real.sqrt, Real.arccos⟩
      { (init : Game ℝ) with
        playerX := 13, playerY := 23 / 5, playerA := Real.arcsin (20 / 101) }
      1600 60 = .ok ⟨101 / 10, true, true⟩ := by
  refine ⟨sin_cos_arcsin_grazing.1, sin_cos_arcsin_grazing.2, by norm_num, by norm_num, ?_,
    castRay_grazing⟩
  rw [HandleWallIntersection_wall ⟨Real.sin, Real.cos, Real.sqrt, Real.arccos⟩
    { (init : Game ℝ) with playerX := 13, playerY := 23 / 5, playerA := Real.arcsin (20 / 101) }
    15 14 (101 / 10) false false (Real.arcsin (20 / 101)) builtinMap_cell_15_14,
    nearCorner_grazing _ rfl rfl rfl rfl _ rfl rfl]
  rfl

/-- The face case of the boundary test for a ray parallel to an axis, for a
record `m` of functions that are the real `sin`, `cos`, `sqrt` and
`arccos`. -/
theorem nearCorner_of_face_center (m : MathFns ℝ) (hsin : m.sinf = Real.sin)
    (hcos : m.cosf = Real.cos) (hsqrt : m.sqrt = Real.sqrt) (hacos : m.acos = Real.arccos)
    (g : Game ℝ) (testX testY : ℤ) (rayAngle D : ℝ)
    (hax : Real.sin rayAngle = 0 ∨ Real.cos rayAngle = 0) (hD : 0 < D) (hD2 : D ≤ 48)
    (hx : g.playerX + D * Real.sin rayAngle = (testX : ℝ) + 1 / 2 - Real.sin rayAngle / 2)
    (hy : g.playerY + D * Real.cos rayAngle = (testY : ℝ) + 1 / 2 - Real.cos rayAngle / 2) :
    nearCorner m (sortPairs (cornerPairs m g testX testY rayAngle)) = false := by
  have hunit := Real.sin_sq_add_cos_sq rayAngle
  have hpx : g.playerX = (testX : ℝ) + 1 / 2 - Real.sin rayAngle / 2 - D * Real.sin rayAngle := by
    linarith
  have hpy : g.playerY = (testY : ℝ) + 1 / 2 - Real.cos rayAngle / 2 - D * Real.cos rayAngle := by
    linarith
  have hDD : D ^ 2 ≤ 2304 := by nlinarith
  have key : ∀ i j : ℤ, (i = 0 ∨ i = 1) → (j = 0 ∨ j = 1) →
      bound ≤ m.acos (cornerPair m g testX testY rayAngle i j).2 := by
    intro i j hi hj
    simp only [cornerPair, hsin, hcos, hsqrt, hacos]
    apply bound_le_arccos
    apply dot_le_of_sq _ _ _ _ _ (by norm_num)
    rw [hpx, hpy]
    have hcases : (Real.sin rayAngle = 0 ∧ (Real.cos rayAngle = 1 ∨ Real.cos rayAngle = -1)) ∨
        (Real.cos rayAngle = 0 ∧ (Real.sin rayAngle = 1 ∨ Real.sin rayAngle = -1)) := by
      rcases hax with h | h
      · left
        refine ⟨h, ?_⟩
        rw [h] at hunit
        have h1 : Real.cos rayAngle ^ 2 = 1 := by linarith
        have h3 : (Real.cos rayAngle - 1) * (Real.cos rayAngle + 1) = 0 := by linarith
        rcases mul_eq_zero.mp h3 with h2 | h2
        · exact Or.inl (by linarith)
        · exact Or.inr (by linarith)
      · right
        refine ⟨h, ?_⟩
        rw [h] at hunit
        have h1 : Real.sin rayAngle ^ 2 = 1 := by linarith
        have h3 : (Real.sin rayAngle - 1) * (Real.sin rayAngle + 1) = 0 := by linarith
        rcases mul_eq_zero.mp h3 with h2 | h2
        · exact Or.inl (by linarith)
        · exact Or.inr (by linarith)
    rcases hcases with ⟨hs, hc | hc⟩ | ⟨hc, hs | hs⟩ <;> rw [hs, hc] <;>
      rcases hi with rfl | rfl <;> rcases hj with rfl | rfl <;> push_cast <;> ring_nf <;>
      linarith
  apply nearCorner_of_all_far
  intro q hq
  unfold cornerPairs at hq
  simp only [List.mem_cons, List.mem_singleton, List.not_mem_nil, or_false] at hq
  rcases hq with rfl | rfl | rfl | rfl
  · exact key 0 0 (Or.inl rfl) (Or.inl rfl)
  · exact key 0 1 (Or.inl rfl) (Or.inr rfl)
  · exact key 1 0 (Or.inr rfl) (Or.inl rfl)
  · exact key 1 1 (Or.inr rfl) (Or.inr rfl)



omit [FloorRing α] in
/-- If one pair of a four-element vector has a first component strictly above
those of the three others, and none of these three has an `acos` of its second
component below `bound`, the test on the sorted vector fails: the sort puts
that pair last, and the test does not look at it. -/
theorem nearCorner_of_farthest (m : MathFns α) (p : List (α × α)) (q r1 r2 r3 : α × α)
    (hperm : p.Perm [q, r1, r2, r3]) (h1 : r1.1 < q.1) (h2 : r2.1 < q.1) (h3 : r3.1 < q.1)
    (f1 : bound ≤ m.acos r1.2) (f2 : bound ≤ m.acos r2.2) (f3 : bound ≤ m.acos r3.2) :
    nearCorner m (sortPairs p) = false := by
  have hperm1 := (sortPairs_perm p).trans hperm
  have hsorted := sortPairs_sorted p
  have hlen : (sortPairs p).length = 4 := by rw [hperm1.length_eq]; rfl
  have n1 : r1 ≠ q := fun h => absurd h1 (by rw [h]; exact lt_irrefl _)
  have n2 : r2 ≠ q := fun h => absurd h2 (by rw [h]; exact lt_irrefl _)
  have n3 : r3 ≠ q := fun h => absurd h3 (by rw [h]; exact lt_irrefl _)
  have hcount := hperm1.countP_eq (fun s => decide (q.1 ≤ s.1))
  simp only [List.countP_cons, List.countP_nil, le_refl, decide_True, if_true,
    decide_eq_true_eq, not_le.mpr h1, not_le.mpr h2, not_le.mpr h3, if_false, zero_add,
    add_zero] at hcount
  generalize sortPairs p = l at hperm1 hsorted hlen hcount
  match l, hlen with
  | [s0, s1, s2, s3], _ =>
    have mem : ∀ s ∈ [s0, s1, s2, s3], s = q ∨ bound ≤ m.acos s.2 := by
      intro s hs
      have := hperm1.subset hs
      simp only [List.mem_cons, List.mem_singleton, List.not_mem_nil, or_false] at this
      rcases this with rfl | rfl | rfl | rfl
      · exact Or.inl rfl
      · exact Or.inr f1
      · exact Or.inr f2
      · exact Or.inr f3
    simp only [List.pairwise_cons, List.mem_cons, List.mem_singleton, forall_eq_or_imp,
      forall_eq, List.not_mem_nil, false_implies, implies_true, List.Pairwise.nil,
      and_true] at hsorted
    obtain ⟨⟨h01, h02, h03⟩, ⟨h12, h13⟩, h23⟩ := hsorted
    simp only [List.countP_cons, List.countP_nil, decide_eq_true_eq, zero_add] at hcount
    have key : ∀ s, s ∈ [s0, s1, s2] → s.1 ≤ s3.1 → bound ≤ m.acos s.2 := by
      intro s hs hle
      rcases mem s (by
        simp only [List.mem_cons, List.mem_singleton, List.not_mem_nil, or_false] at hs ⊢
        tauto) with hq | hf
      · exfalso
        have e3 : q.1 ≤ s3.1 := by rw [← hq]; exact hle
        simp only [List.mem_cons, List.mem_singleton, List.not_mem_nil, or_false] at hs
        rcases hs with rfl | rfl | rfl <;> subst hq <;>
          simp only [e3, le_refl, if_true] at hcount <;> split_ifs at hcount <;> omega
      · exact hf
    have k0 := key s0 (by simp) h03
    have k1 := key s1 (by simp) h13
    have k2 := key s2 (by simp) h23
    unfold nearCorner
    simp [not_lt.mpr k0, not_lt.mpr k1, not_lt.mpr k2]

/-- A lower bound of the angle between the ray and the direction `v` of a
corner, for a unit vector `e`: when the component of `v` along the ray is at
most 99 times its component across the ray, the angle is at least `bound`. -/
theorem bound_le_arccos_dot (ex ey vx vy : ℝ) (hunit : ex ^ 2 + ey ^ 2 = 1)
    (h : ex * vx + ey * vy ≤ 99 * |ex * vy - ey * vx|) :
    (bound : ℝ) ≤ Real.arccos (ex * vx / Real.sqrt (vx * vx + vy * vy) +
      ey * vy / Real.sqrt (vx * vx + vy * vy)) := by
  apply bound_le_arccos
  by_cases h0 : ex * vx + ey * vy ≤ 0
  · rw [← add_div]
    exact le_trans (div_nonpos_of_nonpos_of_nonneg h0 (Real.sqrt_nonneg _)) (by norm_num)
  · push_neg at h0
    apply dot_le_of_sq _ _ _ _ _ (by norm_num)
    have hL : vx * vx + vy * vy = (ex * vx + ey * vy) ^ 2 + (ex * vy - ey * vx) ^ 2 := by
      linear_combination (-(vx * vx + vy * vy)) * hunit
    have hsq : (ex * vx + ey * vy) ^ 2 ≤ 9801 * (ex * vy - ey * vx) ^ 2 := by
      have h1 : (ex * vx + ey * vy) ^ 2 ≤ (99 * |ex * vy - ey * vx|) ^ 2 :=
        pow_le_pow_left₀ h0.le h 2
      rw [mul_pow, sq_abs] at h1
      linarith
    rw [hL]
    nlinarith [sq_nonneg (ex * vy - ey * vx), sq_nonneg (ex * vx + ey * vy)]

omit [FloorRing α] in
/-- The test on the sorted vector of the four corners fails when one corner is
strictly farther than the three others and none of these three is within
`bound` of the ray. -/
theorem nearCorner_of_far_corner (m : MathFns α) (g : Game α) (testX testY : ℤ)
    (rayAngle : α) (i0 j0 : ℤ) (hi0 : i0 = 0 ∨ i0 = 1) (hj0 : j0 = 0 ∨ j0 = 1)
    (h : ∀ i j : ℤ, (i = 0 ∨ i = 1) → (j = 0 ∨ j = 1) → (i ≠ i0 ∨ j ≠ j0) →
      (cornerPair m g testX testY rayAngle i j).1 <
          (cornerPair m g testX testY rayAngle i0 j0).1 ∧
        bound ≤ m.acos (cornerPair m g testX testY rayAngle i j).2) :
    nearCorner m (sortPairs (cornerPairs m g testX testY rayAngle)) = false := by
  have z0 : (0 : ℤ) = 0 ∨ (0 : ℤ) = 1 := Or.inl rfl
  have z1 : (1 : ℤ) = 0 ∨ (1 : ℤ) = 1 := Or.inr rfl
  unfold cornerPairs
  rcases hi0 with rfl | rfl <;> rcases hj0 with rfl | rfl
  · obtain ⟨a1, a2⟩ := h 0 1 z0 z1 (Or.inr (by norm_num))
    obtain ⟨b1, b2⟩ := h 1 0 z1 z0 (Or.inl (by norm_num))
    obtain ⟨c1, c2⟩ := h 1 1 z1 z1 (Or.inl (by norm_num))
    exact nearCorner_of_farthest m _ _ _ _ _ (List.Perm.refl _) a1 b1 c1 a2 b2 c2
  · obtain ⟨a1, a2⟩ := h 0 0 z0 z0 (Or.inr (by norm_num))
    obtain ⟨b1, b2⟩ := h 1 0 z1 z0 (Or.inl (by norm_num))
    obtain ⟨c1, c2⟩ := h 1 1 z1 z1 (Or.inl (by norm_num))
    exact nearCorner_of_farthest m _ _ _ _ _
      (@List.perm_middle _ (cornerPair m g testX testY rayAngle 0 1)
        [cornerPair m g testX testY rayAngle 0 0]
        [cornerPair m g testX testY rayAngle 1 0, cornerPair m g testX testY rayAngle 1 1])
      a1 b1 c1 a2 b2 c2
  · obtain ⟨a1, a2⟩ := h 0 0 z0 z0 (Or.inl (by norm_num))
    obtain ⟨b1, b2⟩ := h 0 1 z0 z1 (Or.inl (by norm_num))
    obtain ⟨c1, c2⟩ := h 1 1 z1 z1 (Or.inr (by norm_num))
    exact nearCorner_of_farthest m _ _ _ _ _
      (@List.perm_middle _ (cornerPair m g testX testY rayAngle 1 0)
        [cornerPair m g testX testY rayAngle 0 0, cornerPair m g testX testY rayAngle 0 1]
        [cornerPair m g testX testY rayAngle 1 1])
      a1 b1 c1 a2 b2 c2
  · obtain ⟨a1, a2⟩ := h 0 0 z0 z0 (Or.inl (by norm_num))
    obtain ⟨b1, b2⟩ := h 0 1 z0 z1 (Or.inl (by norm_num))
    obtain ⟨c1, c2⟩ := h 1 0 z1 z0 (Or.inr (by norm_num))
    exact nearCorner_of_farthest m _ _ _ _ _
      (@List.perm_middle _ (cornerPair m g testX testY rayAngle 1 1)
        [cornerPair m g testX testY rayAngle 0 0, cornerPair m g testX testY rayAngle 0 1,
          cornerPair m g testX testY rayAngle 1 0] [])
      a1 b1 c1 a2 b2 c2

/-- The angle between the ray and the direction of the corner `(i, j)` of the
cell, for a player from whom the ray points at the midpoint of the face with
inward normal `(nx, ny)`, at the distance `D`: the angle is at least `bound`
when the component of the corner direction along the ray is at most 99 times
the component across the ray. -/
theorem cornerPair_far_of_midpoint (m : MathFns ℝ) (hsin : m.sinf = Real.sin)
    (hcos : m.cosf = Real.cos) (hsqrt : m.sqrt = Real.sqrt) (hacos : m.acos = Real.arccos)
    (g : Game ℝ) (testX testY : ℤ) (rayAngle D nx ny : ℝ)
    (hx : g.playerX + D * Real.sin rayAngle = (testX : ℝ) + 1 / 2 - nx / 2)
    (hy : g.playerY + D * Real.cos rayAngle = (testY : ℝ) + 1 / 2 - ny / 2) (i j : ℤ)
    (h : D + Real.sin rayAngle * ((i : ℝ) - 1 / 2 + nx / 2) +
          Real.cos rayAngle * ((j : ℝ) - 1 / 2 + ny / 2) ≤
        99 * (Real.sin rayAngle * ((j : ℝ) - 1 / 2 + ny / 2) -
          Real.cos rayAngle * ((i : ℝ) - 1 / 2 + nx / 2)) ∨
      D + Real.sin rayAngle * ((i : ℝ) - 1 / 2 + nx / 2) +
          Real.cos rayAngle * ((j : ℝ) - 1 / 2 + ny / 2) ≤
        99 * -(Real.sin rayAngle * ((j : ℝ) - 1 / 2 + ny / 2) -
          Real.cos rayAngle * ((i : ℝ) - 1 / 2 + nx / 2))) :
    bound ≤ m.acos (cornerPair m g testX testY rayAngle i j).2 := by
  have hunit := Real.sin_sq_add_cos_sq rayAngle
  have hpx : g.playerX = (testX : ℝ) + 1 / 2 - nx / 2 - D * Real.sin rayAngle := by linarith
  have hpy : g.playerY = (testY : ℝ) + 1 / 2 - ny / 2 - D * Real.cos rayAngle := by linarith
  simp only [cornerPair, hsin, hcos, hsqrt, hacos]
  apply bound_le_arccos_dot _ _ _ _ hunit
  have e1 : Real.sin rayAngle * ((testX : ℝ) + (i : ℝ) - g.playerX) +
      Real.cos rayAngle * ((testY : ℝ) + (j : ℝ) - g.playerY) =
      D + Real.sin rayAngle * ((i : ℝ) - 1 / 2 + nx / 2) +
        Real.cos rayAngle * ((j : ℝ) - 1 / 2 + ny / 2) := by
    rw [hpx, hpy]
    linear_combination D * hunit
  have e2 : Real.sin rayAngle * ((testY : ℝ) + (j : ℝ) - g.playerY) -
      Real.cos rayAngle * ((testX : ℝ) + (i : ℝ) - g.playerX) =
      Real.sin rayAngle * ((j : ℝ) - 1 / 2 + ny / 2) -
        Real.cos rayAngle * ((i : ℝ) - 1 / 2 + nx / 2) := by
    rw [hpx, hpy]
    ring
  rw [e1, e2]
  rcases h with h | h
  · exact h.trans (mul_le_mul_of_nonneg_left (le_abs_self _) (by norm_num))
  · exact h.trans (mul_le_mul_of_nonneg_left (neg_le_abs _) (by norm_num))

/-- Comparison of the distances of the corners `(i, j)` and `(i0, j0)` of the
cell from a player from whom the ray points at the midpoint of the face with
inward normal `(nx, ny)`, at the distance `D`. -/
theorem cornerPair_lt_of_midpoint (m : MathFns ℝ) (hsqrt : m.sqrt = Real.sqrt)
    (g : Game ℝ) (testX testY : ℤ) (rayAngle D nx ny : ℝ)
    (hx : g.playerX + D * Real.sin rayAngle = (testX : ℝ) + 1 / 2 - nx / 2)
    (hy : g.playerY + D * Real.cos rayAngle = (testY : ℝ) + 1 / 2 - ny / 2) (i j i0 j0 : ℤ)
    (h : 2 * (D * Real.sin rayAngle) * ((i : ℝ) - 1 / 2 + nx / 2) +
          2 * (D * Real.cos rayAngle) * ((j : ℝ) - 1 / 2 + ny / 2) +
          ((i : ℝ) - 1 / 2 + nx / 2) ^ 2 + ((j : ℝ) - 1 / 2 + ny / 2) ^ 2 <
        2 * (D * Real.sin rayAngle) * ((i0 : ℝ) - 1 / 2 + nx / 2) +
          2 * (D * Real.cos rayAngle) * ((j0 : ℝ) - 1 / 2 + ny / 2) +
          ((i0 : ℝ) - 1 / 2 + nx / 2) ^ 2 + ((j0 : ℝ) - 1 / 2 + ny / 2) ^ 2) :
    (cornerPair m g testX testY rayAngle i j).1 <
      (cornerPair m g testX testY rayAngle i0 j0).1 := by
  have hpx : g.playerX = (testX : ℝ) + 1 / 2 - nx / 2 - D * Real.sin rayAngle := by linarith
  have hpy : g.playerY = (testY : ℝ) + 1 / 2 - ny / 2 - D * Real.cos rayAngle := by linarith
  have e : ∀ a b : ℝ,
      ((testX : ℝ) + a - g.playerX) * ((testX : ℝ) + a - g.playerX) +
        ((testY : ℝ) + b - g.playerY) * ((testY : ℝ) + b - g.playerY) =
      2 * (D * Real.sin rayAngle) * (a - 1 / 2 + nx / 2) +
        2 * (D * Real.cos rayAngle) * (b - 1 / 2 + ny / 2) +
        (a - 1 / 2 + nx / 2) ^ 2 + (b - 1 / 2 + ny / 2) ^ 2 +
        D ^ 2 * (Real.sin rayAngle ^ 2 + Real.cos rayAngle ^ 2) := by
    intro a b
    rw [hpx, hpy]
    ring
  simp only [cornerPair, hsqrt]
  apply Real.sqrt_lt_sqrt
  · exact add_nonneg (mul_self_nonneg _) (mul_self_nonneg _)
  · rw [e, e]
    linarith

omit [FloorRing α] in
/-- The test on the sorted vector fails when none of the four corners is
within `bound` of the ray. -/
theorem nearCorner_of_corners_far (m : MathFns α) (g : Game α) (testX testY : ℤ)
    (rayAngle : α)
    (h : ∀ i j : ℤ, (i = 0 ∨ i = 1) → (j = 0 ∨ j = 1) →
      bound ≤ m.acos (cornerPair m g testX testY rayAngle i j).2) :
    nearCorner m (sortPairs (cornerPairs m g testX testY rayAngle)) = false := by
  apply nearCorner_of_all_far
  intro q hq
  unfold cornerPairs at hq
  simp only [List.mem_cons, List.mem_singleton, List.not_mem_nil, or_false] at hq
  rcases hq with rfl | rfl | rfl | rfl
  · exact h 0 0 (Or.inl rfl) (Or.inl rfl)
  · exact h 0 1 (Or.inl rfl) (Or.inr rfl)
  · exact h 1 0 (Or.inr rfl) (Or.inl rfl)
  · exact h 1 1 (Or.inr rfl) (Or.inr rfl)

set_option maxHeartbeats 1000000 in
/-- The face case of the boundary test for the face `x = testX`, which the ray enters with `sin rayAngle > 0`: the ray
points at the midpoint of the face from the distance `D`. -/
theorem nearCorner_of_midpoint_low_x (m : MathFns ℝ) (hsin : m.sinf = Real.sin)
    (hcos : m.cosf = Real.cos) (hsqrt : m.sqrt = Real.sqrt) (hacos : m.acos = Real.arccos)
    (g : Game ℝ) (testX testY : ℤ) (rayAngle D : ℝ) (hD : 0 < D)
    (hx : g.playerX + D * Real.sin rayAngle = (testX : ℝ) + 1 / 2 - (1 : ℝ) / 2)
    (hy : g.playerY + D * Real.cos rayAngle = (testY : ℝ) + 1 / 2 - (0 : ℝ) / 2)
    (hc : 0 < Real.sin rayAngle)
    (hA : D + |Real.cos rayAngle| / 2 ≤ 99 * (Real.sin rayAngle) / 2)
    (hB : D + (Real.sin rayAngle) - |Real.cos rayAngle| / 2 ≤ 99 * ((Real.sin rayAngle) / 2 + |Real.cos rayAngle|)) :
    nearCorner m (sortPairs (cornerPairs m g testX testY rayAngle)) = false := by
  have z0 : (0 : ℤ) = 0 ∨ (0 : ℤ) = 1 := Or.inl rfl
  have z1 : (1 : ℤ) = 0 ∨ (1 : ℤ) = 1 := Or.inr rfl
  have hDc : 0 < D * Real.sin rayAngle := mul_pos hD hc
  rcases lt_trichotomy (Real.cos rayAngle) 0 with hs | hs | hs
  · rw [abs_of_neg hs] at hA hB
    have hDs : D * Real.cos rayAngle < 0 := mul_neg_of_pos_of_neg hD hs
    apply nearCorner_of_far_corner m g testX testY rayAngle 1 0 z1 z0
    intro i j hi hj hne
    rcases hi with rfl | rfl <;> rcases hj with rfl | rfl <;>
      first
      | (exfalso; omega)
      | (refine ⟨cornerPair_lt_of_midpoint m hsqrt g testX testY rayAngle D _ _ hx hy _ _ _ _
            (by push_cast; linarith),
          cornerPair_far_of_midpoint m hsin hcos hsqrt hacos g testX testY rayAngle D _ _ hx hy
            _ _ (by
              push_cast
              first
              | exact Or.inl (by linarith)
              | exact Or.inr (by linarith))⟩)
  · rw [hs, abs_zero] at hA hB
    apply nearCorner_of_corners_far
    intro i j hi hj
    rcases hi with rfl | rfl <;> rcases hj with rfl | rfl <;>
      exact cornerPair_far_of_midpoint m hsin hcos hsqrt hacos g testX testY rayAngle D _ _
        hx hy _ _ (by
          rw [hs]
          push_cast
          first
          | exact Or.inl (by linarith)
          | exact Or.inr (by linarith))
  · rw [abs_of_pos hs] at hA hB
    have hDs : 0 < D * Real.cos rayAngle := mul_pos hD hs
    apply nearCorner_of_far_corner m g testX testY rayAngle 1 1 z1 z1
    intro i j hi hj hne
    rcases hi with rfl | rfl <;> rcases hj with rfl | rfl <;>
      first
      | (exfalso; omega)
      | (refine ⟨cornerPair_lt_of_midpoint m hsqrt g testX testY rayAngle D _ _ hx hy _ _ _ _
            (by push_cast; linarith),
          cornerPair_far_of_midpoint m hsin hcos hsqrt hacos g testX testY rayAngle D _ _ hx hy
            _ _ (by
              push_cast
              first
              | exact Or.inl (by linarith)
              | exact Or.inr (by linarith))⟩)

set_option maxHeartbeats 1000000 in
/-- The face case of the boundary test for the face `x = testX + 1`, which the ray enters with `sin rayAngle < 0`: the ray
points at the midpoint of the face from the distance `D`. -/
theorem nearCorner_of_midpoint_high_x (m : MathFns ℝ) (hsin : m.sinf = Real.sin)
    (hcos : m.cosf = Real.cos) (hsqrt : m.sqrt = Real.sqrt) (hacos : m.acos = Real.arccos)
    (g : Game ℝ) (testX testY : ℤ) (rayAngle D : ℝ) (hD : 0 < D)
    (hx : g.playerX + D * Real.sin rayAngle = (testX : ℝ) + 1 / 2 - (-1 : ℝ) / 2)
    (hy : g.playerY + D * Real.cos rayAngle = (testY : ℝ) + 1 / 2 - (0 : ℝ) / 2)
    (hc : Real.sin rayAngle < 0)
    (hA : D + |Real.cos rayAngle| / 2 ≤ 99 * (-Real.sin rayAngle) / 2)
    (hB : D + (-Real.sin rayAngle) - |Real.cos rayAngle| / 2 ≤ 99 * ((-Real.sin rayAngle) / 2 + |Real.cos rayAngle|)) :
    nearCorner m (sortPairs (cornerPairs m g testX testY rayAngle)) = false := by
  have z0 : (0 : ℤ) = 0 ∨ (0 : ℤ) = 1 := Or.inl rfl
  have z1 : (1 : ℤ) = 0 ∨ (1 : ℤ) = 1 := Or.inr rfl
  have hDc : D * Real.sin rayAngle < 0 := mul_neg_of_pos_of_neg hD hc
  rcases lt_trichotomy (Real.cos rayAngle) 0 with hs | hs | hs
  · rw [abs_of_neg hs] at hA hB
    have hDs : D * Real.cos rayAngle < 0 := mul_neg_of_pos_of_neg hD hs
    apply nearCorner_of_far_corner m g testX testY rayAngle 0 0 z0 z0
    intro i j hi hj hne
    rcases hi with rfl | rfl <;> rcases hj with rfl | rfl <;>
      first
      | (exfalso; omega)
      | (refine ⟨cornerPair_lt_of_midpoint m hsqrt g testX testY rayAngle D _ _ hx hy _ _ _ _
            (by push_cast; linarith),
          cornerPair_far_of_midpoint m hsin hcos hsqrt hacos g testX testY rayAngle D _ _ hx hy
            _ _ (by
              push_cast
              first
              | exact Or.inl (by linarith)
              | exact Or.inr (by linarith))⟩)
  · rw [hs, abs_zero] at hA hB
    apply nearCorner_of_corners_far
    intro i j hi hj
    rcases hi with rfl | rfl <;> rcases hj with rfl | rfl <;>
      exact cornerPair_far_of_midpoint m hsin hcos hsqrt hacos g testX testY rayAngle D _ _
        hx hy _ _ (by
          rw [hs]
          push_cast
          first
          | exact Or.inl (by linarith)
          | exact Or.inr (by linarith))
  · rw [abs_of_pos hs] at hA hB
    have hDs : 0 < D * Real.cos rayAngle := mul_pos hD hs
    apply nearCorner_of_far_corner m g testX testY rayAngle 0 1 z0 z1
    intro i j hi hj hne
    rcases hi with rfl | rfl <;> rcases hj with rfl | rfl <;>
      first
      | (exfalso; omega)
      | (refine ⟨cornerPair_lt_of_midpoint m hsqrt g testX testY rayAngle D _ _ hx hy _ _ _ _
            (by push_cast; linarith),
          cornerPair_far_of_midpoint m hsin hcos hsqrt hacos g testX testY rayAngle D _ _ hx hy
            _ _ (by
              push_cast
              first
              | exact Or.inl (by linarith)
              | exact Or.inr (by linarith))⟩)

set_option maxHeartbeats 1000000 in
/-- The face case of the boundary test for the face `y = testY`, which the ray enters with `cos rayAngle > 0`: the ray
points at the midpoint of the face from the distance `D`. -/
theorem nearCorner_of_midpoint_low_y (m : MathFns ℝ) (hsin : m.sinf = Real.sin)
    (hcos : m.cosf = Real.cos) (hsqrt : m.sqrt = Real.sqrt) (hacos : m.acos = Real.arccos)
    (g : Game ℝ) (testX testY : ℤ) (rayAngle D : ℝ) (hD : 0 < D)
    (hx : g.playerX + D * Real.sin rayAngle = (testX : ℝ) + 1 / 2 - (0 : ℝ) / 2)
    (hy : g.playerY + D * Real.cos rayAngle = (testY : ℝ) + 1 / 2 - (1 : ℝ) / 2)
    (hc : 0 < Real.cos rayAngle)
    (hA : D + |Real.sin rayAngle| / 2 ≤ 99 * (Real.cos rayAngle) / 2)
    (hB : D + (Real.cos rayAngle) - |Real.sin rayAngle| / 2 ≤ 99 * ((Real.cos rayAngle) / 2 + |Real.sin rayAngle|)) :
    nearCorner m (sortPairs (cornerPairs m g testX testY rayAngle)) = false := by
  have z0 : (0 : ℤ) = 0 ∨ (0 : ℤ) = 1 := Or.inl rfl
  have z1 : (1 : ℤ) = 0 ∨ (1 : ℤ) = 1 := Or.inr rfl
  have hDc : 0 < D * Real.cos rayAngle := mul_pos hD hc
  rcases lt_trichotomy (Real.sin rayAngle) 0 with hs | hs | hs
  · rw [abs_of_neg hs] at hA hB
    have hDs : D * Real.sin rayAngle < 0 := mul_neg_of_pos_of_neg hD hs
    apply nearCorner_of_far_corner m g testX testY rayAngle 0 1 z0 z1
    intro i j hi hj hne
    rcases hi with rfl | rfl <;> rcases hj with rfl | rfl <;>
      first
      | (exfalso; omega)
      | (refine ⟨cornerPair_lt_of_midpoint m hsqrt g testX testY rayAngle D _ _ hx hy _ _ _ _
            (by push_cast; linarith),
          cornerPair_far_of_midpoint m hsin hcos hsqrt hacos g testX testY rayAngle D _ _ hx hy
            _ _ (by
              push_cast
              first
              | exact Or.inl (by linarith)
              | exact Or.inr (by linarith))⟩)
  · rw [hs, abs_zero] at hA hB
    apply nearCorner_of_corners_far
    intro i j hi hj
    rcases hi with rfl | rfl <;> rcases hj with rfl | rfl <;>
      exact cornerPair_far_of_midpoint m hsin hcos hsqrt hacos g testX testY rayAngle D _ _
        hx hy _ _ (by
          rw [hs]
          push_cast
          first
          | exact Or.inl (by linarith)
          | exact Or.inr (by linarith))
  · rw [abs_of_pos hs] at hA hB
    have hDs : 0 < D * Real.sin rayAngle := mul_pos hD hs
    apply nearCorner_of_far_corner m g testX testY rayAngle 1 1 z1 z1
    intro i j hi hj hne
    rcases hi with rfl | rfl <;> rcases hj with rfl | rfl <;>
      first
      | (exfalso; omega)
      | (refine ⟨cornerPair_lt_of_midpoint m hsqrt g testX testY rayAngle D _ _ hx hy _ _ _ _
            (by push_cast; linarith),
          cornerPair_far_of_midpoint m hsin hcos hsqrt hacos g testX testY rayAngle D _ _ hx hy
            _ _ (by
              push_cast
              first
              | exact Or.inl (by linarith)
              | exact Or.inr (by linarith))⟩)

set_option maxHeartbeats 1000000 in
/-- The face case of the boundary test for the face `y = testY + 1`, which the ray enters with `cos rayAngle < 0`: the ray
points at the midpoint of the face from the distance `D`. -/
theorem nearCorner_of_midpoint_high_y (m : MathFns ℝ) (hsin : m.sinf = Real.sin)
    (hcos : m.cosf = Real.cos) (hsqrt : m.sqrt = Real.sqrt) (hacos : m.acos = Real.arccos)
    (g : Game ℝ) (testX testY : ℤ) (rayAngle D : ℝ) (hD : 0 < D)
    (hx : g.playerX + D * Real.sin rayAngle = (testX : ℝ) + 1 / 2 - (0 : ℝ) / 2)
    (hy : g.playerY + D * Real.cos rayAngle = (testY : ℝ) + 1 / 2 - (-1 : ℝ) / 2)
    (hc : Real.cos rayAngle < 0)
    (hA : D + |Real.sin rayAngle| / 2 ≤ 99 * (-Real.cos rayAngle) / 2)
    (hB : D + (-Real.cos rayAngle) - |Real.sin rayAngle| / 2 ≤ 99 * ((-Real.cos rayAngle) / 2 + |Real.sin rayAngle|)) :
    nearCorner m (sortPairs (cornerPairs m g testX testY rayAngle)) = false := by
  have z0 : (0 : ℤ) = 0 ∨ (0 : ℤ) = 1 := Or.inl rfl
  have z1 : (1 : ℤ) = 0 ∨ (1 : ℤ) = 1 := Or.inr rfl
  have hDc : D * Real.cos rayAngle < 0 := mul_neg_of_pos_of_neg hD hc
  rcases lt_trichotomy (Real.sin rayAngle) 0 with hs | hs | hs
  · rw [abs_of_neg hs] at hA hB
    have hDs : D * Real.sin rayAngle < 0 := mul_neg_of_pos_of_neg hD hs
    apply nearCorner_of_far_corner m g testX testY rayAngle 0 0 z0 z0
    intro i j hi hj hne
    rcases hi with rfl | rfl <;> rcases hj with rfl | rfl <;>
      first
      | (exfalso; omega)
      | (refine ⟨cornerPair_lt_of_midpoint m hsqrt g testX testY rayAngle D _ _ hx hy _ _ _ _
            (by push_cast; linarith),
          cornerPair_far_of_midpoint m hsin hcos hsqrt hacos g testX testY rayAngle D _ _ hx hy
            _ _ (by
              push_cast
              first
              | exact Or.inl (by linarith)
              | exact Or.inr (by linarith))⟩)
  · rw [hs, abs_zero] at hA hB
    apply nearCorner_of_corners_far
    intro i j hi hj
    rcases hi with rfl | rfl <;> rcases hj with rfl | rfl <;>
      exact cornerPair_far_of_midpoint m hsin hcos hsqrt hacos g testX testY rayAngle D _ _
        hx hy _ _ (by
          rw [hs]
          push_cast
          first
          | exact Or.inl (by linarith)
          | exact Or.inr (by linarith))
  · rw [abs_of_pos hs] at hA hB
    have hDs : 0 < D * Real.sin rayAngle := mul_pos hD hs
    apply nearCorner_of_far_corner m g testX testY rayAngle 1 0 z1 z0
    intro i j hi hj hne
    rcases hi with rfl | rfl <;> rcases hj with rfl | rfl <;>
      first
      | (exfalso; omega)
      | (refine ⟨cornerPair_lt_of_midpoint m hsqrt g testX testY rayAngle D _ _ hx hy _ _ _ _
            (by push_cast; linarith),
          cornerPair_far_of_midpoint m hsin hcos hsqrt hacos g testX testY rayAngle D _ _ hx hy
            _ _ (by
              push_cast
              first
              | exact Or.inl (by linarith)
              | exact Or.inr (by linarith))⟩)

/-- The face case of the boundary test, for a record `m` of functions that are
the real `sin`, `cos`, `sqrt` and `arccos`: the ray points at the midpoint of
the face with inward normal `(nx, ny)` of the cell, from the distance `D`;
`c = e·n` is the cosine and `s = |e×n|` the sine of the angle of incidence. -/
theorem nearCorner_of_face_midpoint (m : MathFns ℝ) (hsin : m.sinf = Real.sin)
    (hcos : m.cosf = Real.cos) (hsqrt : m.sqrt = Real.sqrt) (hacos : m.acos = Real.arccos)
    (g : Game ℝ) (testX testY : ℤ) (rayAngle D : ℝ) (nx ny : ℤ)
    (hn : (nx = 1 ∧ ny = 0) ∨ (nx = -1 ∧ ny = 0) ∨ (nx = 0 ∧ ny = 1) ∨ (nx = 0 ∧ ny = -1))
    (hD : 0 < D)
    (hx : g.playerX + D * Real.sin rayAngle = (testX : ℝ) + 1 / 2 - (nx : ℝ) / 2)
    (hy : g.playerY + D * Real.cos rayAngle = (testY : ℝ) + 1 / 2 - (ny : ℝ) / 2)
    (hc : 0 < Real.sin rayAngle * (nx : ℝ) + Real.cos rayAngle * (ny : ℝ))
    (hA : D + |Real.sin rayAngle * (ny : ℝ) - Real.cos rayAngle * (nx : ℝ)| / 2 ≤
      99 * (Real.sin rayAngle * (nx : ℝ) + Real.cos rayAngle * (ny : ℝ)) / 2)
    (hB : D + (Real.sin rayAngle * (nx : ℝ) + Real.cos rayAngle * (ny : ℝ)) -
        |Real.sin rayAngle * (ny : ℝ) - Real.cos rayAngle * (nx : ℝ)| / 2 ≤
      99 * ((Real.sin rayAngle * (nx : ℝ) + Real.cos rayAngle * (ny : ℝ)) / 2 +
        |Real.sin rayAngle * (ny : ℝ) - Real.cos rayAngle * (nx : ℝ)|)) :
    nearCorner m (sortPairs (cornerPairs m g testX testY rayAngle)) = false := by
  rcases hn with ⟨rfl, rfl⟩ | ⟨rfl, rfl⟩ | ⟨rfl, rfl⟩ | ⟨rfl, rfl⟩
  · simp only [Int.cast_one, Int.cast_zero, mul_one, mul_zero, add_zero, zero_sub, abs_neg]
      at hc hA hB
    exact nearCorner_of_midpoint_low_x m hsin hcos hsqrt hacos g testX testY rayAngle D hD
      (by rw [hx]; push_cast; ring) (by rw [hy]; push_cast; ring) hc hA hB
  · simp only [Int.cast_one, Int.cast_zero, Int.cast_neg, mul_one, mul_zero, add_zero,
      zero_sub, mul_neg, neg_neg] at hc hA hB
    exact nearCorner_of_midpoint_high_x m hsin hcos hsqrt hacos g testX testY rayAngle D hD
      (by rw [hx]; push_cast; ring) (by rw [hy]; push_cast; ring) (neg_pos.mp hc)
      (by linarith) (by linarith)
  · simp only [Int.cast_one, Int.cast_zero, mul_one, mul_zero, zero_add, sub_zero]
      at hc hA hB
    exact nearCorner_of_midpoint_low_y m hsin hcos hsqrt hacos g testX testY rayAngle D hD
      (by rw [hx]; push_cast; ring) (by rw [hy]; push_cast; ring) hc hA hB
  · simp only [Int.cast_one, Int.cast_zero, Int.cast_neg, mul_one, mul_zero, zero_add,
      sub_zero, mul_neg, abs_neg] at hc hA hB
    exact nearCorner_of_midpoint_high_y m hsin hcos hsqrt hacos g testX testY rayAngle D hD
      (by rw [hx]; push_cast; ring) (by rw [hy]; push_cast; ring) (neg_pos.mp hc)
      (by linarith) (by linarith)

/-- **C7** (boundary detection, face case, as the code does it).  With the
real `sin`, `cos`, `sqrt` and `arccos`: let the ray's unit direction
`e = (sin rayAngle, cos rayAngle)` point from the player at the midpoint of a
face of the hit wall cell `(testX, testY)` that the ray enters through: `n =
(nx, ny)` is the inward normal of the face (one of `(1, 0)`, `(-1, 0)`,
`(0, 1)`, `(0, -1)`), the midpoint is the cell centre minus `n / 2`, it is the
player position plus `D > 0` times `e`, and `c = e·n > 0` is the cosine and
`s = |e×n|` the sine of the angle of incidence.  Then `HandleWallIntersection`
sets `hitWall` and leaves `boundary = false` whenever
`D + s/2 ≤ 99 c/2` and `D + c - s/2 ≤ 99 (c/2 + s)`, which say that the two
corners of the face and the nearer corner of the opposite face are at least
`arctan (1/99) > 0.01` rad away from the ray; in particular whenever `D ≤ 17`
(which covers every march with depth 16) and `c ≥ 4/11`, an angle of incidence
of up to 68 degrees. -/
theorem HandleWallIntersection_face_center (g : Game ℝ) (testX testY : ℤ) (d : ℝ)
    (hitWall : Bool) (rayAngle D : ℝ) (nx ny : ℤ)
    (hwall : cstrAt g.gameMap (testX * g.mapWidth + testY) = .ok '#')
    (hn : (nx = 1 ∧ ny = 0) ∨ (nx = -1 ∧ ny = 0) ∨ (nx = 0 ∧ ny = 1) ∨ (nx = 0 ∧ ny = -1))
    (hD : 0 < D)
    (hx : g.playerX + D * Real.sin rayAngle = (testX : ℝ) + 1 / 2 - (nx : ℝ) / 2)
    (hy : g.playerY + D * Real.cos rayAngle = (testY : ℝ) + 1 / 2 - (ny : ℝ) / 2)
    (hc : 0 < Real.sin rayAngle * (nx : ℝ) + Real.cos rayAngle * (ny : ℝ)) :
    (D + |Real.sin rayAngle * (ny : ℝ) - Real.cos rayAngle * (nx : ℝ)| / 2 ≤
        99 * (Real.sin rayAngle * (nx : ℝ) + Real.cos rayAngle * (ny : ℝ)) / 2 →
      D + (Real.sin rayAngle * (nx : ℝ) + Real.cos rayAngle * (ny : ℝ)) -
          |Real.sin rayAngle * (ny : ℝ) - Real.cos rayAngle * (nx : ℝ)| / 2 ≤
        99 * ((Real.sin rayAngle * (nx : ℝ) + Real.cos rayAngle * (ny : ℝ)) / 2 +
          |Real.sin rayAngle * (ny : ℝ) - Real.cos rayAngle * (nx : ℝ)|) →
      HandleWallIntersection ⟨Real.sin, Real.cos, Real.sqrt, Real.arccos⟩ g testX testY d
        hitWall false rayAngle = .ok (true, false)) ∧
    (D ≤ 17 → 4 / 11 ≤ Real.sin rayAngle * (nx : ℝ) + Real.cos rayAngle * (ny : ℝ) →
      HandleWallIntersection ⟨Real.sin, Real.cos, Real.sqrt, Real.arccos⟩ g testX testY d
        hitWall false rayAngle = .ok (true, false)) := by
  have main : D + |Real.sin rayAngle * (ny : ℝ) - Real.cos rayAngle * (nx : ℝ)| / 2 ≤
        99 * (Real.sin rayAngle * (nx : ℝ) + Real.cos rayAngle * (ny : ℝ)) / 2 →
      D + (Real.sin rayAngle * (nx : ℝ) + Real.cos rayAngle * (ny : ℝ)) -
          |Real.sin rayAngle * (ny : ℝ) - Real.cos rayAngle * (nx : ℝ)| / 2 ≤
        99 * ((Real.sin rayAngle * (nx : ℝ) + Real.cos rayAngle * (ny : ℝ)) / 2 +
          |Real.sin rayAngle * (ny : ℝ) - Real.cos rayAngle * (nx : ℝ)|) →
      HandleWallIntersection ⟨Real.sin, Real.cos, Real.sqrt, Real.arccos⟩ g testX testY d
        hitWall false rayAngle = .ok (true, false) := by
    intro hA hB
    rw [HandleWallIntersection_wall _ g testX testY d hitWall false rayAngle hwall,
      nearCorner_of_face_midpoint _ rfl rfl rfl rfl g testX testY rayAngle D nx ny hn hD hx hy
        hc hA hB]
    rfl
  refine ⟨main, fun hD17 h411 => ?_⟩
  have hs0 := abs_nonneg (Real.sin rayAngle * (ny : ℝ) - Real.cos rayAngle * (nx : ℝ))
  have hs1 : |Real.sin rayAngle * (ny : ℝ) - Real.cos rayAngle * (nx : ℝ)| ≤ 1 := by
    rcases hn with ⟨rfl, rfl⟩ | ⟨rfl, rfl⟩ | ⟨rfl, rfl⟩ | ⟨rfl, rfl⟩
    · simpa using Real.abs_cos_le_one rayAngle
    · simpa using Real.abs_cos_le_one rayAngle
    · simpa using Real.abs_sin_le_one rayAngle
    · simpa using Real.abs_sin_le_one rayAngle
  exact main (by linarith) (by linarith)

/-- Witness of `HandleWallIntersection_face_center`: on the constructor's map,
the player at `(13, 13)`, the ray of direction `(4/5, 3/5)`, which meets the
face `x = 15` of the wall cell `(15, 14)` at its midpoint `(15, 14.5)`, at
distance `5/2` and with an angle of incidence of 37 degrees. -/
theorem HandleWallIntersection_face_center_witness :
    HandleWallIntersection ⟨Real.sin, Real.cos, Real.sqrt, Real.arccos⟩
      { (init : Game ℝ) with playerX := 13, playerY := 13 } 15 14 (5 / 2) false false
      (Real.arcsin (4 / 5)) = .ok (true, false) :=
  (HandleWallIntersection_face_center
    { (init : Game ℝ) with playerX := 13, playerY := 13 } 15 14 (5 / 2) false
    (Real.arcsin (4 / 5)) (5 / 2) 1 0 builtinMap_cell_15_14 (Or.inl ⟨rfl, rfl⟩) (by norm_num)
    (by rw [sin_cos_arcsin_four_fifths.1]; norm_num)
    (by rw [sin_cos_arcsin_four_fifths.2]; norm_num)
    (by rw [sin_cos_arcsin_four_fifths.1, sin_cos_arcsin_four_fifths.2]; norm_num)).2
    (by norm_num)
    (by rw [sin_cos_arcsin_four_fifths.1, sin_cos_arcsin_four_fifths.2]; norm_num)

omit [FloorRing α] in
/-- The wall glyph of a column at distance 4, for the depth 16. -/
theorem wallShade_four (g : Game α) (hd : g.depth = 16) : wallShade g 4 false = '█' := by
  unfold wallShade
  rw [hd]
  norm_num

/-- The values of `ceiling` and `floor` of a column at distance 4 on a 40-row
screen. -/
theorem ceilingOf_four (g : Game α) (h40 : g.screenHeight = 40) :
    ceilingOf g 4 = 10 ∧ floorOf g 4 = 30 := by
  have hc : ceilingOf g 4 = 10 := by
    unfold ceilingOf
    rw [h40]
    exact toInt_eq_of_mem _ 10 (by norm_num) (by norm_num) (by norm_num)
  refine ⟨hc, ?_⟩
  unfold floorOf
  rw [hc, h40]
  rfl

set_option maxRecDepth 100000 in
/-- The map `borderedMap` has 256 characters. -/
theorem borderedMap_length : borderedMap.length = 256 := by decide

/-- The march of the centre column on `borderedMap`, from the pose `(8.5, 11)`
with heading 0: the ray has direction `(0, 1)`, stays in the empty cells
`(8, 11..14)` for 399 passes and enters the wall cell `(8, 15)` in pass 400
through the midpoint of its face, where the boundary test fails. -/
theorem castRay_straight :
    castRay ⟨Real.sin, Real.cos, Real.sqrt, Real.arccos⟩
      { (init : Game ℝ) with playerX := 17 / 2, playerY := 11, gameMap := borderedMap }
      1600 60 = .ok ⟨4, true, false⟩ := by
  have hang : rayAngleOf ({ (init : Game ℝ) with
      playerX := 17 / 2, playerY := 11, gameMap := borderedMap } : Game ℝ) 60 = 0 := by
    simp only [rayAngleOf, init]
    push_cast
    ring
  unfold castRay
  simp only []
  rw [hang, Real.sin_zero, Real.cos_zero]
  have hX : ∀ d : ℝ, toInt ((17 / 2 : ℝ) + 0 * d) = 8 := by
    intro d
    exact toInt_eq_of_mem _ 8 (by norm_num) (by norm_num) (by norm_num)
  have hY : ∀ j : ℕ, j < 400 →
      11 ≤ toInt ((11 : ℝ) + 1 * ((j : ℝ) * stepSize)) ∧
      toInt ((11 : ℝ) + 1 * ((j : ℝ) * stepSize)) ≤ 14 := by
    intro j hj
    have h0 : (0 : ℝ) ≤ (j : ℝ) := Nat.cast_nonneg j
    have h1 : (j : ℝ) ≤ 399 := by exact_mod_cast (by omega : j ≤ 399)
    unfold stepSize
    exact toInt_bounds _ 11 14 (by norm_num) (by push_cast; linarith) (by push_cast; linarith)
  have hY400 : toInt ((11 : ℝ) + 1 * (((400 : ℕ) : ℝ) * stepSize)) = 15 := by
    unfold stepSize
    exact toInt_eq_of_mem _ 15 (by norm_num) (by norm_num) (by norm_num)
  have hmarch := marchLoop_to_wall (⟨Real.sin, Real.cos, Real.sqrt, Real.arccos⟩ : MathFns ℝ)
    ({ (init : Game ℝ) with
      playerX := 17 / 2, playerY := 11, gameMap := borderedMap } : Game ℝ)
    0 0 1 400
    (by norm_num [init, stepSize])
    (by
      intro j _ hj
      show ¬ (toInt ((17 / 2 : ℝ) + 0 * ((j : ℝ) * stepSize)) < 0 ∨
        toInt ((17 / 2 : ℝ) + 0 * ((j : ℝ) * stepSize)) ≥ 16 ∨
        toInt ((11 : ℝ) + 1 * ((j : ℝ) * stepSize)) < 0 ∨
        toInt ((11 : ℝ) + 1 * ((j : ℝ) * stepSize)) ≥ 16)
      rw [hX]
      rcases Nat.lt_or_ge j 400 with h | h
      · have hy := hY j h
        omega
      · obtain rfl : j = 400 := by omega
        rw [hY400]
        omega)
    (by
      intro j _ hj
      show ∃ c, c ≠ '#' ∧ cstrAt borderedMap
        (toInt ((17 / 2 : ℝ) + 0 * ((j : ℝ) * stepSize)) * 16 +
          toInt ((11 : ℝ) + 1 * ((j : ℝ) * stepSize))) = .ok c
      rw [hX]
      obtain ⟨hy1, hy2⟩ := hY j hj
      refine ⟨'.', by decide, ?_⟩
      have hcell := borderedMap_cells ⟨8, by norm_num⟩
        ⟨(toInt ((11 : ℝ) + 1 * ((j : ℝ) * stepSize))).toNat, by omega⟩
      simp only [Int.toNat_of_nonneg (le_trans (by norm_num : (0 : ℤ) ≤ 11) hy1)] at hcell
      rw [if_neg (by omega)] at hcell
      exact hcell)
    (by
      show cstrAt borderedMap
        (toInt ((17 / 2 : ℝ) + 0 * (((400 : ℕ) : ℝ) * stepSize)) * 16 +
          toInt ((11 : ℝ) + 1 * (((400 : ℕ) : ℝ) * stepSize))) = .ok '#'
      rw [hX, hY400]
      exact borderedMap_cells ⟨8, by norm_num⟩ ⟨15, by norm_num⟩)
    399 1600 0 ⟨0, false, false⟩ (by norm_num) (by norm_num) (by simp) rfl
  rw [hmarch]
  have e1 : toInt (({ (init : Game ℝ) with
      playerX := 17 / 2, playerY := 11, gameMap := borderedMap } : Game ℝ).playerX +
      0 * (((400 : ℕ) : ℝ) * stepSize)) = 8 := hX _
  have e2 : toInt (({ (init : Game ℝ) with
      playerX := 17 / 2, playerY := 11, gameMap := borderedMap } : Game ℝ).playerY +
      1 * (((400 : ℕ) : ℝ) * stepSize)) = 15 := hY400
  rw [e1, e2, nearCorner_of_face_center _ rfl rfl rfl rfl _ 8 15 0 4 (Or.inl Real.sin_zero)
    (by norm_num) (by norm_num)
    (by rw [Real.sin_zero]; norm_num [init]) (by rw [Real.cos_zero]; norm_num [init])]
  norm_num [stepSize]

/-- Counterexample to **C8** as stated: on `borderedMap`, from the pose
`(8.5, 11)` with heading 0, `CastRays` returns; the march of column 60 ends at
distance 4 with `boundary = false`, so `ceiling = 10`, `floor = 30` and the
wall glyph of the column is the solid block; yet the cell of row 10, which
satisfies `ceiling ≤ 10 ≤ floor`, holds a blank. -/
theorem CastRays_ceiling_row_blank :
    ∃ buf : List Char,
      CastRays ⟨Real.sin, Real.cos, Real.sqrt, Real.arccos⟩ 1600
        { (init : Game ℝ) with playerX := 17 / 2, playerY := 11, gameMap := borderedMap } =
        .ok (withBuffer
          { (init : Game ℝ) with playerX := 17 / 2, playerY := 11, gameMap := borderedMap }
          buf) ∧
      castRay ⟨Real.sin, Real.cos, Real.sqrt, Real.arccos⟩
        { (init : Game ℝ) with playerX := 17 / 2, playerY := 11, gameMap := borderedMap }
        1600 60 = .ok ⟨4, true, false⟩ ∧
      ceilingOf ({ (init : Game ℝ) with
        playerX := 17 / 2, playerY := 11, gameMap := borderedMap } : Game ℝ) 4 = 10 ∧
      floorOf ({ (init : Game ℝ) with
        playerX := 17 / 2, playerY := 11, gameMap := borderedMap } : Game ℝ) 4 = 30 ∧
      wallShade ({ (init : Game ℝ) with
        playerX := 17 / 2, playerY := 11, gameMap := borderedMap } : Game ℝ) 4 false = '█' ∧
      buf[cellIndex ({ (init : Game ℝ) with
        playerX := 17 / 2, playerY := 11, gameMap := borderedMap } : Game ℝ) 60 10]? =
        some ' ' := by
  obtain ⟨buf, h1, _, h3⟩ := CastRays_frame
    (⟨Real.sin, Real.cos, Real.sqrt, Real.arccos⟩ : MathFns ℝ) 1600
    ({ (init : Game ℝ) with playerX := 17 / 2, playerY := 11, gameMap := borderedMap } : Game ℝ)
    rfl rfl borderedMap_length (by norm_num [init]) (by norm_num [init, stepSize])
    (@init_buffer_length ℝ _)
  obtain ⟨s, hs, _, hcell⟩ := h3 60 10 (by norm_num [init]) (by norm_num [init])
  rw [castRay_straight] at hs
  cases hs
  obtain ⟨hc, hf⟩ := ceilingOf_four ({ (init : Game ℝ) with
    playerX := 17 / 2, playerY := 11, gameMap := borderedMap } : Game ℝ) rfl
  refine ⟨buf, h1, castRay_straight, hc, hf, wallShade_four _ rfl, ?_⟩
  rw [hcell, hc, rowGlyph, if_pos (by norm_num)]

/-- Truncation towards zero is monotone. -/
theorem toInt_mono (x y : α) (h : x ≤ y) : toInt x ≤ toInt y := by
  unfold toInt
  split_ifs with hx hy hy
  · exact Int.floor_mono h
  · exact absurd (le_trans hx h) hy
  · have h1 : ⌈x⌉ ≤ 0 := Int.ceil_le.mpr (by push_cast; exact (not_le.mp hx).le)
    have h2 : 0 ≤ ⌊y⌋ := Int.floor_nonneg.mpr hy
    omega
  · exact Int.ceil_mono h

/-- The truncation of a value that is at most `c ≥ 0` is at most `c`. -/
theorem toInt_cast_le (x c : α) (hc : 0 ≤ c) (h : x ≤ c) : ((toInt x : ℤ) : α) ≤ c := by
  unfold toInt
  split_ifs with hx
  · exact (Int.floor_le x).trans h
  · have h1 : ⌈x⌉ ≤ 0 := Int.ceil_le.mpr (by push_cast; exact (not_le.mp hx).le)
    have h2 : ((⌈x⌉ : ℤ) : α) ≤ 0 := by exact_mod_cast h1
    exact h2.trans hc

/-- **C20** (perspective monotonicity).  On a screen of non-negative height,
for all distances `0 < d1 ≤ d2` the row `ceiling` computed in `CastRays`
satisfies `ceiling(d1) ≤ ceiling(d2)` and the row `floor = screenHeight -
ceiling` satisfies `floor(d1) ≥ floor(d2)`, so the nearer wall covers at least
as many rows; and `ceiling(d) ≤ screenHeight/2 ≤ floor(d)` for every
`d > 0`. -/
theorem ceilingOf_monotone (g : Game α) (hh : 0 ≤ g.screenHeight) :
    (∀ d1 d2 : α, 0 < d1 → d1 ≤ d2 →
      ceilingOf g d1 ≤ ceilingOf g d2 ∧ floorOf g d2 ≤ floorOf g d1 ∧
      floorOf g d2 - ceilingOf g d2 ≤ floorOf g d1 - ceilingOf g d1) ∧
    (∀ d : α, floorOf g d = g.screenHeight - ceilingOf g d) ∧
    (∀ d : α, 0 < d →
      ((ceilingOf g d : ℤ) : α) ≤ (g.screenHeight : α) / 2 ∧
      (g.screenHeight : α) / 2 ≤ ((floorOf g d : ℤ) : α)) := by
  have hh' : (0 : α) ≤ (g.screenHeight : α) := by exact_mod_cast hh
  refine ⟨fun d1 d2 h1 h12 => ?_, fun d => rfl, fun d hd => ?_⟩
  · have hdiv : (g.screenHeight : α) / d2 ≤ (g.screenHeight : α) / d1 :=
      div_le_div_of_nonneg_left hh' h1 h12
    have hc : ceilingOf g d1 ≤ ceilingOf g d2 := by
      unfold ceilingOf
      exact toInt_mono _ _ (by linarith)
    unfold floorOf
    exact ⟨hc, by omega, by omega⟩
  · have hq : (0 : α) ≤ (g.screenHeight : α) / d := div_nonneg hh' hd.le
    have hc : ((ceilingOf g d : ℤ) : α) ≤ (g.screenHeight : α) / 2 := by
      unfold ceilingOf
      exact toInt_cast_le _ _ (by positivity) (by linarith)
    refine ⟨hc, ?_⟩
    unfold floorOf
    push_cast
    linarith

/-- Witness of `ceilingOf_monotone`: the constructor's 40-row screen, the
distances 4 and 8. -/
theorem ceilingOf_monotone_witness :
    (0 : ℤ) ≤ (init : Game ℚ).screenHeight ∧
    ceilingOf (init : Game ℚ) 4 ≤ ceilingOf (init : Game ℚ) 8 :=
  ⟨by decide, ((ceilingOf_monotone (init : Game ℚ) (by decide)).1 4 8 (by norm_num)
    (by norm_num)).1⟩

/-- The reads of the two call sites, in terms of `casterIndex` and
`collisionIndex`. -/
theorem lookups_eq (m : MathFns α) (g : Game α) (testX testY : ℤ) (d : α)
    (hitWall boundary : Bool) (rayAngle : α) :
    collisionCell g = cstrAt g.gameMap (collisionIndex g (toInt g.playerX) (toInt g.playerY)) ∧
    HandleWallIntersection m g testX testY d hitWall boundary rayAngle =
      match cstrAt g.gameMap (casterIndex g testX testY) with
      | .error e => .error e
      | .ok c =>
        if c = '#' then
          if nearCorner m (sortPairs (cornerPairs m g testX testY rayAngle)) then .ok (true, true)
          else .ok (true, boundary)
        else .ok (hitWall, boundary) :=
  ⟨rfl, rfl⟩

set_option maxRecDepth 100000 in
/-- Counterexample to **C17** as stated: for the cell `(0, 9)` the caster reads
the index 9, while the collision check reads the index 144 for the cell
`(9, 0)`; on the constructor's map these two indices hold an empty cell and a
wall. -/
theorem casterIndex_not_swapped :
    casterIndex (init : Game ℚ) 0 9 = 9 ∧ collisionIndex (init : Game ℚ) 9 0 = 144 ∧
    casterIndex (init : Game ℚ) 0 9 ≠ collisionIndex (init : Game ℚ) 9 0 ∧
    cstrAt (init : Game ℚ).gameMap (casterIndex (init : Game ℚ) 0 9) = .ok '.' ∧
    cstrAt (init : Game ℚ).gameMap (collisionIndex (init : Game ℚ) 9 0) = .ok '#' := by
  refine ⟨by decide, by decide, by decide, ?_, ?_⟩
  · show cstrAt builtinMap (0 * 16 + 9) = .ok '.'
    decide
  · show cstrAt builtinMap (9 * 16 + 0) = .ok '#'
    decide

/-- **C17** (axis order, as the code does it).  The map lookup of the caster
and the map lookup of the collision check use the same coordinate order: for
every cell `(a, b)` both read the index `a * mapWidth + b`; hence, for every map
and every player position, the collision check reads a wall in the cell of the
truncated player position exactly when `HandleWallIntersection`, called on
that cell with `hitWall = false`, sets `hitWall`; no cell is a wall for one of
the two and empty for the other. -/
theorem casterIndex_eq_collisionIndex (m : MathFns α) (g : Game α) (d : α) (boundary : Bool)
    (rayAngle : α) :
    (∀ a b : ℤ, casterIndex g a b = collisionIndex g a b) ∧
    (collisionCell g = .ok '#' ↔
      ∃ b1, HandleWallIntersection m g (toInt g.playerX) (toInt g.playerY) d false boundary
        rayAngle = .ok (true, b1)) := by
  refine ⟨fun a b => rfl, ?_⟩
  unfold collisionCell HandleWallIntersection
  cases cstrAt g.gameMap (toInt g.playerX * g.mapWidth + toInt g.playerY) with
  | error e => simp
  | ok c =>
    by_cases hc : c = '#'
    · subst hc
      simp only [if_true, true_iff]
      split_ifs
      · exact ⟨true, rfl⟩
      · exact ⟨boundary, rfl⟩
    · simp [hc]

/-- A forward step whose tentative cell is not read as a wall is kept. -/
theorem HandleMovement_accept (m : MathFns α) (keys : Intents) (t : α) (g : Game α) (c : Char)
    (hf : keys.moveForward = true) (hb : keys.moveBackward = false)
    (hcell : cstrAt g.gameMap
      (toInt (g.playerX + m.sinf g.playerA * g.speed * t) * g.mapWidth +
        toInt (g.playerY + m.cosf g.playerA * g.speed * t)) = .ok c) (hc : c ≠ '#') :
    HandleMovement m keys t g = .ok { g with
      playerX := g.playerX + m.sinf g.playerA * g.speed * t
      playerY := g.playerY + m.cosf g.playerA * g.speed * t } := by
  unfold HandleMovement
  rw [hf, hb]
  simp only [if_true]
  unfold moveForward collisionCell
  simp only []
  rw [hcell]
  simp [hc]

/-- A pass of the march whose sample lies in the range of the map and whose
map read has no defined result has no defined result. -/
theorem marchStep_fault (m : MathFns α) (g : Game α) (rayAngle eyeX eyeY : α) (s : RayState α)
    (e : Fault)
    (h : ¬ (toInt (g.playerX + eyeX * (s.distanceToWall + stepSize)) < 0 ∨
      toInt (g.playerX + eyeX * (s.distanceToWall + stepSize)) ≥ g.mapWidth ∨
      toInt (g.playerY + eyeY * (s.distanceToWall + stepSize)) < 0 ∨
      toInt (g.playerY + eyeY * (s.distanceToWall + stepSize)) ≥ g.mapHeight))
    (hc : cstrAt g.gameMap
      (toInt (g.playerX + eyeX * (s.distanceToWall + stepSize)) * g.mapWidth +
        toInt (g.playerY + eyeY * (s.distanceToWall + stepSize))) = .error e) :
    marchStep m g rayAngle eyeX eyeY s = .error e := by
  unfold marchStep
  simp only []
  rw [if_neg h]
  unfold HandleWallIntersection
  rw [hc]

/-- Every way in which the march can end, from the state reached after `k`
passes: the loop does not run; or, for some pass `K > k` entered with a
distance below the depth and after samples `k+1 .. K-1` that all lie in empty
cells of the map, the sample of pass `K` is out of range (distance set to the
depth), or lies in a wall cell (distance `K * stepSize`, `hitWall` set), or
lies in an empty cell with `K * stepSize` not below the depth. -/
theorem marchLoop_cases (m : MathFns α) (g : Game α) (rayAngle eyeX eyeY : α) :
    ∀ (fuel k : ℕ) (s s1 : RayState α), s.distanceToWall = (k : α) * stepSize →
      s.hitWall = false → marchLoop m g rayAngle eyeX eyeY fuel s = .ok s1 →
      (s1 = s ∧ g.depth ≤ s.distanceToWall) ∨
      ∃ K : ℕ, k < K ∧ ((K : α) - 1) * stepSize < g.depth ∧
        (∀ j : ℕ, k < j → j < K → inRange g (sampleX g eyeX j) (sampleY g eyeY j) ∧
          emptyAt g (sampleX g eyeX j) (sampleY g eyeY j)) ∧
        ((¬ inRange g (sampleX g eyeX K) (sampleY g eyeY K) ∧
            s1 = ⟨g.depth, true, s.boundary⟩) ∨
         (inRange g (sampleX g eyeX K) (sampleY g eyeY K) ∧
            wallAt g (sampleX g eyeX K) (sampleY g eyeY K) ∧
            s1 = ⟨(K : α) * stepSize, true,
              nearCorner m (sortPairs (cornerPairs m g (sampleX g eyeX K) (sampleY g eyeY K)
                rayAngle)) || s.boundary⟩) ∨
         (inRange g (sampleX g eyeX K) (sampleY g eyeY K) ∧
            emptyAt g (sampleX g eyeX K) (sampleY g eyeY K) ∧
            g.depth ≤ (K : α) * stepSize ∧
            s1 = ⟨(K : α) * stepSize, false, s.boundary⟩)) := by
  intro fuel
  induction fuel with
  | zero =>
    intro k s s1 hs hhit h
    by_cases hlt : s.distanceToWall < g.depth
    · rw [marchLoop, if_pos ⟨hhit, hlt⟩] at h
      cases h
    · rw [marchLoop_stop m g _ _ _ 0 s (fun h => hlt h.2)] at h
      cases h
      exact Or.inl ⟨rfl, not_lt.mp hlt⟩
  | succ f ih =>
    intro k s s1 hs hhit h
    by_cases hlt : s.distanceToWall < g.depth
    · right
      rw [marchLoop_succ m g _ _ _ f s ⟨hhit, hlt⟩] at h
      have hd1 : s.distanceToWall + stepSize = ((k + 1 : ℕ) : α) * stepSize := by
        rw [hs]; push_cast; ring
      have hk1 : (((k + 1 : ℕ) : α) - 1) * stepSize < g.depth := by
        push_cast; rw [add_sub_cancel_right, ← hs]; exact hlt
      by_cases hout : toInt (g.playerX + eyeX * (s.distanceToWall + stepSize)) < 0 ∨
          toInt (g.playerX + eyeX * (s.distanceToWall + stepSize)) ≥ g.mapWidth ∨
          toInt (g.playerY + eyeY * (s.distanceToWall + stepSize)) < 0 ∨
          toInt (g.playerY + eyeY * (s.distanceToWall + stepSize)) ≥ g.mapHeight
      · rw [marchStep_out m g rayAngle eyeX eyeY s hout] at h
        simp only [] at h
        rw [marchLoop_stop m g _ _ _ f _ (by simp)] at h
        cases h
        refine ⟨k + 1, by omega, hk1, fun j h1 h2 => by omega, Or.inl ⟨?_, rfl⟩⟩
        unfold inRange sampleX sampleY
        rw [← hd1]
        exact not_not.mpr hout
      · have hin : inRange g (sampleX g eyeX (k + 1)) (sampleY g eyeY (k + 1)) := by
          unfold inRange sampleX sampleY
          rw [← hd1]
          exact hout
        cases hc : cstrAt g.gameMap
            (toInt (g.playerX + eyeX * (s.distanceToWall + stepSize)) * g.mapWidth +
              toInt (g.playerY + eyeY * (s.distanceToWall + stepSize))) with
        | error e =>
          rw [marchStep_fault m g rayAngle eyeX eyeY s e hout hc] at h
          cases h
        | ok c =>
          by_cases hwall : c = '#'
          · rw [hwall] at hc
            rw [marchStep_wall m g rayAngle eyeX eyeY s hout hc] at h
            simp only [] at h
            rw [marchLoop_stop m g _ _ _ f _ (by simp)] at h
            cases h
            refine ⟨k + 1, by omega, hk1, fun j h1 h2 => by omega, Or.inr (Or.inl ⟨hin, ?_, ?_⟩)⟩
            · unfold wallAt sampleX sampleY
              rw [← hd1]
              exact hc
            · unfold sampleX sampleY
              rw [← hd1]
          · have hempty : emptyAt g (sampleX g eyeX (k + 1)) (sampleY g eyeY (k + 1)) := by
              unfold emptyAt sampleX sampleY
              rw [← hd1]
              exact ⟨c, hwall, hc⟩
            rw [marchStep_empty m g rayAngle eyeX eyeY s c hout hc hwall] at h
            simp only [] at h
            rcases ih (k + 1) ⟨s.distanceToWall + stepSize, s.hitWall, s.boundary⟩ s1 hd1 hhit h
              with ⟨e, hge⟩ | ⟨K, hK, hKd, hprev, hcases⟩
            · refine ⟨k + 1, by omega, hk1, fun j h1 h2 => by omega,
                Or.inr (Or.inr ⟨hin, hempty, ?_, ?_⟩)⟩
              · rw [← hd1]; exact hge
              · rw [e, ← hd1, hhit]
            · refine ⟨K, by omega, hKd, fun j h1 h2 => ?_, hcases⟩
              by_cases hj : j = k + 1
              · subst hj; exact ⟨hin, hempty⟩
              · exact hprev j (by omega) h2
    · rw [marchLoop_stop m g _ _ _ (f + 1) s (fun h => hlt h.2)] at h
      cases h
      exact Or.inl ⟨rfl, not_lt.mp hlt⟩

/-- The distance cap in exact arithmetic (operations without rounding, step
exactly 1/100): with the maximum depth 16, the `distanceToWall` with which a
march of `castRay` ends is at most 16, and on a 16x16 map stored in 256
characters the march does end, for any fuel of at least 1600 passes.  The
march with binary32 rounding is `castRayF`, whose cap is above 16. -/
theorem castRay_distance_le_depth (m : MathFns α) (g : Game α) (fuel x : ℕ)
    (hd : g.depth = 16) :
    (∀ s, castRay m g fuel x = .ok s → s.distanceToWall ≤ 16) ∧
    (g.mapWidth = 16 → g.mapHeight = 16 → g.gameMap.length = 256 → 1600 ≤ fuel →
      ∃ s, castRay m g fuel x = .ok s ∧ s.distanceToWall ≤ 16) := by
  have hstep : (0 : α) < stepSize := by unfold stepSize; norm_num
  have hle : ∀ s, castRay m g fuel x = .ok s → s.distanceToWall ≤ 16 := by
    intro s1 h
    unfold castRay at h
    have hK : ∀ K : ℕ, ((K : α) - 1) * stepSize < g.depth → (K : α) * stepSize ≤ 16 := by
      intro K hKd
      rw [hd] at hKd
      unfold stepSize at hKd ⊢
      have h1 : (K : α) < 1601 := by linarith
      have h2 : K < 1601 := by exact_mod_cast h1
      have h3 : (K : α) ≤ 1600 := by exact_mod_cast (by omega : K ≤ 1600)
      linarith
    rcases marchLoop_cases m g _ _ _ fuel 0 ⟨0, false, false⟩ s1 (by simp) rfl h with
      ⟨e, _⟩ | ⟨K, _, hKd, _, ⟨_, e⟩ | ⟨_, _, e⟩ | ⟨_, _, _, e⟩⟩
    · rw [e]; norm_num
    · rw [e]; exact hd.le
    · rw [e]; exact hK K hKd
    · rw [e]; exact hK K hKd
  refine ⟨hle, fun hw hh hlen hfuel => ?_⟩
  obtain ⟨s, hs, _⟩ := castRay_total m g fuel x hw hh hlen (by rw [hd]; norm_num) (by
    rw [hd]
    unfold stepSize
    have : ((1600 : ℕ) : α) ≤ (fuel : α) := Nat.cast_le.mpr hfuel
    push_cast at this
    linarith)
  exact ⟨s, hs, hle s hs⟩

/-- An instance of the distance cap in exact arithmetic: the constructor's
game, whose depth is 16. -/
theorem castRay_distance_le_depth_witness :
    ∃ s, castRay ratFns (init : Game ℚ) 1600 0 = .ok s ∧ s.distanceToWall ≤ 16 :=
  (castRay_distance_le_depth ratFns (init : Game ℚ) 1600 0 rfl).2 rfl rfl builtinMap_length
    (le_refl _)

/-- Truncation of a negative value is its ceiling. -/
theorem toInt_of_neg (x : α) (h : x < 0) : toInt x = ⌈x⌉ := by
  rw [toInt, if_neg (not_le.mpr h)]

/-- **C13** (lower bound of the divisor, as the code gives it).  With
`depth > 0`, for every map, every player pose and every column, the distance
with which a march ends, which is the divisor in `screenHeight /
distanceToWall`, is at least the smaller of the depth and the ray step 0.01,
so it is positive; when the depth is at least the ray step (as the
constructor's 16) it is at least the ray step; and on a 16x16 map stored in
256 characters the march does end, for any fuel with
`depth ≤ fuel * stepSize`. -/
theorem castRay_distance_pos (m : MathFns α) (g : Game α) (fuel x : ℕ) (hd : 0 < g.depth) :
    (∀ s, castRay m g fuel x = .ok s →
      min g.depth stepSize ≤ s.distanceToWall ∧ 0 < s.distanceToWall) ∧
    (stepSize ≤ g.depth → ∀ s, castRay m g fuel x = .ok s → stepSize ≤ s.distanceToWall) ∧
    (g.mapWidth = 16 → g.mapHeight = 16 → g.gameMap.length = 256 →
      g.depth ≤ (fuel : α) * stepSize → ∃ s, castRay m g fuel x = .ok s) := by
  have hstep : (0 : α) < stepSize := by unfold stepSize; norm_num
  have hmin : ∀ s, castRay m g fuel x = .ok s → min g.depth stepSize ≤ s.distanceToWall := by
    intro s1 h
    unfold castRay at h
    have hK : ∀ K : ℕ, 0 < K → stepSize ≤ (K : α) * stepSize := by
      intro K hK0
      have : (1 : α) ≤ (K : α) := by exact_mod_cast hK0
      nlinarith
    rcases marchLoop_cases m g _ _ _ fuel 0 ⟨0, false, false⟩ s1 (by simp) rfl h with
      ⟨_, hge⟩ | ⟨K, hK0, _, _, ⟨_, e⟩ | ⟨_, _, e⟩ | ⟨_, _, _, e⟩⟩
    · exact absurd hge (not_le.mpr hd)
    · rw [e]; exact min_le_left _ _
    · rw [e]; exact (min_le_right _ _).trans (hK K hK0)
    · rw [e]; exact (min_le_right _ _).trans (hK K hK0)
  refine ⟨fun s h => ⟨hmin s h, lt_of_lt_of_le (lt_min hd hstep) (hmin s h)⟩,
    fun hge s h => ?_, fun hw hh hlen hfuel => ?_⟩
  · have := hmin s h
    rwa [min_eq_right hge] at this
  · obtain ⟨s, hs, _⟩ := castRay_total m g fuel x hw hh hlen hd hfuel
    exact ⟨s, hs⟩

/-- Witness of `castRay_distance_pos`: the constructor's game, whose depth is
16. -/
theorem castRay_distance_pos_witness :
    ∃ s, castRay ratFns (init : Game ℚ) 1600 0 = .ok s :=
  (castRay_distance_pos ratFns (init : Game ℚ) 1600 0 (by norm_num [init])).2.2 rfl rfl
    builtinMap_length (by norm_num [init, stepSize])

/-- Counterexample to **C13** as stated: with the depth 0.005 (positive) and
the player at `x = -5`, outside the map, the first sample of the centre column
is out of range, the march ends with `distanceToWall = depth = 0.005`, and
this divisor is below the ray step 0.01. -/
theorem castRay_below_step :
    (0 : ℝ) < ({ (init : Game ℝ) with playerX := -5, depth := 1 / 200 } : Game ℝ).depth ∧
    castRay ⟨Real.sin, Real.cos, Real.sqrt, Real.arccos⟩
      { (init : Game ℝ) with playerX := -5, depth := 1 / 200 } 1600 60 =
      .ok ⟨1 / 200, true, false⟩ ∧
    (1 / 200 : ℝ) < stepSize := by
  refine ⟨by norm_num, ?_, by norm_num [stepSize]⟩
  have hang : rayAngleOf ({ (init : Game ℝ) with
      playerX := -5, depth := 1 / 200 } : Game ℝ) 60 = 0 := by
    simp only [rayAngleOf, init]
    push_cast
    ring
  unfold castRay
  simp only []
  rw [hang, Real.sin_zero, Real.cos_zero,
    marchLoop_succ _ _ _ _ _ 1599 ⟨0, false, false⟩ ⟨rfl, by norm_num⟩,
    marchStep_out _ _ _ _ _ _ (Or.inl (by
      show toInt ((-5 : ℝ) + 0 * (0 + stepSize)) < 0
      rw [toInt_of_neg _ (by norm_num), zero_mul, add_zero]
      have : ⌈(-5 : ℝ)⌉ = -5 := by exact_mod_cast Int.ceil_intCast (-5 : ℤ)
      rw [this]
      norm_num))]
  exact marchLoop_stop _ _ _ _ _ _ _ (by simp)

/-- The indices read during a march on a map of width and height 16 lie in
`[0, 256)`. -/
theorem marchReads_in_range (m : MathFns α) (g : Game α) (rayAngle eyeX eyeY : α)
    (hw : g.mapWidth = 16) (hh : g.mapHeight = 16) :
    ∀ (fuel : ℕ) (s : RayState α), ∀ i ∈ marchReads m g rayAngle eyeX eyeY fuel s,
      0 ≤ i ∧ i < 256 := by
  intro fuel
  induction fuel with
  | zero => intro s i hi; simp [marchReads] at hi
  | succ f ih =>
    intro s i hi
    unfold marchReads at hi
    split_ifs at hi with hcond
    · simp only [] at hi
      have hread : ∀ i ∈ (if toInt (g.playerX + eyeX * (s.distanceToWall + stepSize)) < 0 ∨
            toInt (g.playerX + eyeX * (s.distanceToWall + stepSize)) ≥ g.mapWidth ∨
            toInt (g.playerY + eyeY * (s.distanceToWall + stepSize)) < 0 ∨
            toInt (g.playerY + eyeY * (s.distanceToWall + stepSize)) ≥ g.mapHeight then []
          else [toInt (g.playerX + eyeX * (s.distanceToWall + stepSize)) * g.mapWidth +
            toInt (g.playerY + eyeY * (s.distanceToWall + stepSize))] : List ℤ),
          0 ≤ i ∧ i < 256 := by
        intro i hi
        split_ifs at hi with hout
        · simp at hi
        · rw [List.mem_singleton] at hi
          rw [hw, hh] at hout
          rw [hi, hw]
          omega
      cases hstep : marchStep m g rayAngle eyeX eyeY s with
      | error e =>
        rw [hstep] at hi
        exact hread i hi
      | ok s1 =>
        rw [hstep] at hi
        rcases List.mem_append.mp hi with h | h
        · exact hread i h
        · exact ih s1 i h
    · simp at hi

/-- **C19** (the map reads of the caster are in range).  The constructor's map
has exactly `mapWidth * mapHeight = 256` characters; and on a map of width and
height 16, for every player pose and every column, each index
`testX * mapWidth + testY` at which the map is read during the march lies in
`[0, 256)`: the read happens only after the range test has passed.  So on a
map stored in 256 characters each of these reads returns a character of the
map, and the march ends without a fault. -/
theorem castRay_reads_in_range (m : MathFns α) (g : Game α) (fuel x : ℕ)
    (hw : g.mapWidth = 16) (hh : g.mapHeight = 16) :
    builtinMap.length = 256 ∧ (init : Game α).gameMap = builtinMap ∧
    (init : Game α).mapWidth * (init : Game α).mapHeight = 256 ∧
    (∀ i ∈ marchReads m g (rayAngleOf g x) (m.sinf (rayAngleOf g x))
        (m.cosf (rayAngleOf g x)) fuel ⟨0, false, false⟩,
      0 ≤ i ∧ i < 256 ∧
      (g.gameMap.length = 256 → ∃ c, c ∈ g.gameMap ∧ cstrAt g.gameMap i = .ok c)) ∧
    (g.gameMap.length = 256 → 0 < g.depth → g.depth ≤ (fuel : α) * stepSize →
      ∃ s, castRay m g fuel x = .ok s) := by
  refine ⟨builtinMap_length, rfl, rfl, fun i hi => ?_, fun hlen hd hfuel => ?_⟩
  · obtain ⟨h0, h1⟩ := marchReads_in_range m g _ _ _ hw hh fuel _ i hi
    exact ⟨h0, h1, fun hlen => cstrAt_of_lt g.gameMap i h0 (by rw [hlen]; exact_mod_cast h1)⟩
  · obtain ⟨s, hs, _⟩ := castRay_total m g fuel x hw hh hlen hd hfuel
    exact ⟨s, hs⟩

/-- Witness of `castRay_reads_in_range`: the constructor's game. -/
theorem castRay_reads_in_range_witness :
    ∃ s, castRay ratFns (init : Game ℚ) 1600 0 = .ok s :=
  (castRay_reads_in_range ratFns (init : Game ℚ) 1600 0 rfl rfl).2.2.2.2 builtinMap_length
    (by norm_num [init]) (by norm_num [init, stepSize])
omit [LinearOrderedField α] [FloorRing α] in
/-- A read that has no defined result reports its own index. -/
theorem cstrAt_fault (s : List Char) (i : ℤ) (e : Fault) (h : cstrAt s i = .error e) :
    e = .mapReadOutOfRange i := by
  unfold cstrAt at h
  split_ifs at h <;> cases h <;> rfl

/-- A march that stops on a map read without defined result stops on one of
the reads listed by `marchReads`. -/
theorem marchLoop_fault_mem_reads (m : MathFns α) (g : Game α) (rayAngle eyeX eyeY : α) :
    ∀ (fuel : ℕ) (s : RayState α) (i : ℤ),
      marchLoop m g rayAngle eyeX eyeY fuel s = .error (.mapReadOutOfRange i) →
      i ∈ marchReads m g rayAngle eyeX eyeY fuel s := by
  intro fuel
  induction fuel with
  | zero =>
    intro s i h
    by_cases hcond : s.hitWall = false ∧ s.distanceToWall < g.depth
    · rw [marchLoop, if_pos hcond] at h
      cases h
    · rw [marchLoop_stop m g _ _ _ 0 s hcond] at h
      cases h
  | succ f ih =>
    intro s i h
    by_cases hcond : s.hitWall = false ∧ s.distanceToWall < g.depth
    · rw [marchLoop_succ m g _ _ _ f s hcond] at h
      unfold marchReads
      rw [if_pos hcond]
      simp only []
      cases hstep : marchStep m g rayAngle eyeX eyeY s with
      | ok s1 =>
        rw [hstep] at h
        exact List.mem_append.mpr (Or.inr (ih s1 i h))
      | error e =>
        rw [hstep] at h
        simp only [] at h
        cases h
        by_cases hout : toInt (g.playerX + eyeX * (s.distanceToWall + stepSize)) < 0 ∨
            toInt (g.playerX + eyeX * (s.distanceToWall + stepSize)) ≥ g.mapWidth ∨
            toInt (g.playerY + eyeY * (s.distanceToWall + stepSize)) < 0 ∨
            toInt (g.playerY + eyeY * (s.distanceToWall + stepSize)) ≥ g.mapHeight
        · rw [marchStep_out m g rayAngle eyeX eyeY s hout] at hstep
          cases hstep
        · rw [if_neg hout, List.mem_singleton]
          cases hc : cstrAt g.gameMap
              (toInt (g.playerX + eyeX * (s.distanceToWall + stepSize)) * g.mapWidth +
                toInt (g.playerY + eyeY * (s.distanceToWall + stepSize))) with
          | error e1 =>
            rw [marchStep_fault m g rayAngle eyeX eyeY s e1 hout hc] at hstep
            have := cstrAt_fault _ _ _ hc
            rw [this] at hstep
            cases hstep
            rfl
          | ok c =>
            by_cases hwall : c = '#'
            · rw [hwall] at hc
              rw [marchStep_wall m g rayAngle eyeX eyeY s hout hc] at hstep
              cases hstep
            · rw [marchStep_empty m g rayAngle eyeX eyeY s c hout hc hwall] at hstep
              cases hstep
    · rw [marchLoop_stop m g _ _ _ (f + 1) s hcond] at h
      cases h

omit [LinearOrderedField α] [FloorRing α] in
/-- Every position of a buffer of 120x40 cells is the position of a cell of
the screen. -/
theorem cellIndex_cover (g : Game α) (hsw : g.screenWidth = 120) (i : ℕ) (hi : i < 4800) :
    ∃ x y : ℕ, x < 120 ∧ y < 40 ∧ i = cellIndex g x y := by
  refine ⟨i % 120, i / 120, Nat.mod_lt _ (by norm_num), by omega, ?_⟩
  unfold cellIndex
  rw [hsw]
  omega

/-- The rows of one column drawn over two buffers of the same length: the
results have the lengths of the buffers and agree at every position at which
the buffers agree and at every cell of the column. -/
theorem drawColumn_agree (g : Game α) (hw : 0 < g.screenWidth) (x : ℕ)
    (hx : (x : ℤ) < g.screenWidth) (d : α) (boundary : Bool) (b1 b2 : List Char)
    (hlen : b1.length = b2.length) :
    (drawColumn (withBuffer g b1) x d boundary).length = b1.length ∧
    (drawColumn (withBuffer g b2) x d boundary).length = b2.length ∧
    ∀ i : ℕ, (b1[i]? = b2[i]? ∨ ∃ y : ℕ, (y : ℤ) < g.screenHeight ∧ i = cellIndex g x y) →
      (drawColumn (withBuffer g b1) x d boundary)[i]? =
        (drawColumn (withBuffer g b2) x d boundary)[i]? := by
  obtain ⟨_, l1, c1, o1⟩ := drawRows_spec (withBuffer g b1) hw x hx (ceilingOf g d)
    (floorOf g d) (wallShade g d boundary) b1 g.screenHeight.toNat
  obtain ⟨_, l2, c2, o2⟩ := drawRows_spec (withBuffer g b2) hw x hx (ceilingOf g d)
    (floorOf g d) (wallShade g d boundary) b2 g.screenHeight.toNat
  have L1 : (drawColumn (withBuffer g b1) x d boundary).length = b1.length := l1
  have L2 : (drawColumn (withBuffer g b2) x d boundary).length = b2.length := l2
  refine ⟨L1, L2, fun i hi => ?_⟩
  by_cases hcell : ∃ y : ℕ, y < g.screenHeight.toNat ∧ i = cellIndex g x y
  · obtain ⟨y, hy, rfl⟩ := hcell
    by_cases hlt : cellIndex g x y < b1.length
    · exact (c1 y hy hlt).trans (c2 y hy (hlen ▸ hlt)).symm
    · have e1 : (drawColumn (withBuffer g b1) x d boundary)[cellIndex g x y]? = none :=
        List.getElem?_eq_none (by rw [L1]; omega)
      have e2 : (drawColumn (withBuffer g b2) x d boundary)[cellIndex g x y]? = none :=
        List.getElem?_eq_none (by rw [L2, ← hlen]; omega)
      rw [e1, e2]
  · have hne : ∀ y : ℕ, y < g.screenHeight.toNat → i ≠ cellIndex g x y :=
      fun y hy h => hcell ⟨y, hy, h⟩
    have hb : b1[i]? = b2[i]? := by
      rcases hi with h | ⟨y, hy, h⟩
      · exact h
      · exact absurd h (hne y (by omega))
    exact (o1 i hne).trans (hb.trans (o2 i hne).symm)

/-- The loop over a list of columns of the screen, run from two buffers of the
same length: both runs stop on the same fault, or both return the game with
only the buffer changed, and the two buffers have the lengths they had and
agree wherever they agreed before and at every cell of the columns done. -/
theorem castColumns_agree (m : MathFns α) (fuel : ℕ) (g : Game α) (hw : 0 < g.screenWidth) :
    ∀ (xs : List ℕ), (∀ x ∈ xs, (x : ℤ) < g.screenWidth) →
    ∀ (b1 b2 : List Char), b1.length = b2.length →
      (∃ e, castColumns m fuel xs (withBuffer g b1) = .error e ∧
        castColumns m fuel xs (withBuffer g b2) = .error e) ∨
      (∃ c1 c2 : List Char,
        castColumns m fuel xs (withBuffer g b1) = .ok (withBuffer g c1) ∧
        castColumns m fuel xs (withBuffer g b2) = .ok (withBuffer g c2) ∧
        c1.length = b1.length ∧ c2.length = b2.length ∧
        ∀ i : ℕ, (b1[i]? = b2[i]? ∨
            ∃ x ∈ xs, ∃ y : ℕ, (y : ℤ) < g.screenHeight ∧ i = cellIndex g x y) →
          c1[i]? = c2[i]?) := by
  intro xs
  induction xs with
  | nil =>
    intro _ b1 b2 _
    refine Or.inr ⟨b1, b2, rfl, rfl, rfl, rfl, fun i hi => ?_⟩
    rcases hi with h | ⟨x, hx, _⟩
    · exact h
    · simp at hx
  | cons x xs ih =>
    intro hxs b1 b2 hlen
    have hx : (x : ℤ) < g.screenWidth := hxs x (List.mem_cons_self _ _)
    simp only [castColumns, castColumn]
    rw [castRay_buffer m g b1 fuel x, castRay_buffer m g b2 fuel x]
    cases castRay m g fuel x with
    | error e => exact Or.inl ⟨e, rfl, rfl⟩
    | ok s =>
      simp only []
      by_cases hz : s.distanceToWall = 0
      · rw [if_pos hz, if_pos hz]
        exact Or.inl ⟨_, rfl, rfl⟩
      · rw [if_neg hz, if_neg hz]
        obtain ⟨l1, l2, hag⟩ := drawColumn_agree g hw x hx s.distanceToWall s.boundary b1 b2 hlen
        rcases ih (fun x1 h1 => hxs x1 (List.mem_cons_of_mem _ h1))
            (drawColumn (withBuffer g b1) x s.distanceToWall s.boundary)
            (drawColumn (withBuffer g b2) x s.distanceToWall s.boundary)
            (by rw [l1, l2, hlen]) with
          ⟨e, h1, h2⟩ | ⟨c1, c2, h1, h2, hc1, hc2, hcells⟩
        · exact Or.inl ⟨e, h1, h2⟩
        · refine Or.inr ⟨c1, c2, h1, h2, hc1.trans l1, hc2.trans l2, fun i hi => ?_⟩
          rcases hi with h | ⟨x1, hx1, y, hy, h⟩
          · exact hcells i (Or.inl (hag i (Or.inl h)))
          · rcases List.mem_cons.mp hx1 with rfl | hmem
            · exact hcells i (Or.inl (hag i (Or.inr ⟨y, hy, h⟩)))
            · exact hcells i (Or.inr ⟨x1, hmem, y, hy, h⟩)

/-- `CastRays` run from two buffers of 4800 cells on a 120x40 screen gives the
same result. -/
theorem CastRays_buffer (m : MathFns α) (fuel : ℕ) (g : Game α)
    (hsw : g.screenWidth = 120) (hsh : g.screenHeight = 40) (b1 b2 : List Char)
    (h1 : b1.length = 4800) (h2 : b2.length = 4800) :
    CastRays m fuel (withBuffer g b1) = CastRays m fuel (withBuffer g b2) ∧
    ∀ g1, CastRays m fuel (withBuffer g b1) = .ok g1 →
      g1 = withBuffer g g1.screenBuffer ∧ g1.screenBuffer.length = 4800 := by
  have hcols : ∀ x ∈ List.range g.screenWidth.toNat, (x : ℤ) < g.screenWidth := by
    intro x hx
    have := List.mem_range.mp hx
    omega
  have hrun : ∀ b : List Char, CastRays m fuel (withBuffer g b) =
      castColumns m fuel (List.range g.screenWidth.toNat) (withBuffer g b) := fun b => rfl
  rcases castColumns_agree m fuel g (by rw [hsw]; norm_num) (List.range g.screenWidth.toNat)
      hcols b1 b2 (h1.trans h2.symm) with ⟨e, e1, e2⟩ | ⟨c1, c2, e1, e2, l1, l2, hcells⟩
  · rw [hrun, hrun, e1, e2]
    exact ⟨rfl, fun g1 h => by cases h⟩
  · have hc : c1 = c2 := by
      apply List.ext_getElem?
      intro i
      by_cases hi : i < 4800
      · obtain ⟨x, y, hx, hy, rfl⟩ := cellIndex_cover g hsw i hi
        refine hcells _ (Or.inr ⟨x, List.mem_range.mpr (by rw [hsw]; exact hx), y, ?_, rfl⟩)
        rw [hsh]
        exact_mod_cast hy
      · rw [List.getElem?_eq_none (by omega), List.getElem?_eq_none (by omega)]
    rw [hrun, hrun, e1, e2, hc]
    refine ⟨rfl, fun g1 h => ?_⟩
    cases h
    exact ⟨rfl, l2.trans h2⟩

/-- **C11** (determinism and idempotence of the caster).  On a 120x40 screen,
for every map and player pose and any two prior contents `b1`, `b2` of the
4800-cell buffer: the march of every column gives the same result
(distance, hitWall, boundary) from both; `CastRays` gives the same result from
both, the same fault or the same final game with the same buffer; a run that
returns changes nothing but the buffer, and running `CastRays` again on its
result returns that result unchanged; and on a 16x16 map stored in 256
characters with a positive depth `CastRays` does return. -/
theorem CastRays_deterministic (m : MathFns α) (fuel : ℕ) (g : Game α) (b1 b2 : List Char)
    (hsw : g.screenWidth = 120) (hsh : g.screenHeight = 40)
    (h1 : b1.length = 4800) (h2 : b2.length = 4800) :
    (∀ x : ℕ, castRay m (withBuffer g b1) fuel x = castRay m (withBuffer g b2) fuel x) ∧
    CastRays m fuel (withBuffer g b1) = CastRays m fuel (withBuffer g b2) ∧
    (∀ g1, CastRays m fuel (withBuffer g b1) = .ok g1 →
      g1 = withBuffer g g1.screenBuffer ∧ CastRays m fuel g1 = .ok g1) ∧
    (g.mapWidth = 16 → g.mapHeight = 16 → g.gameMap.length = 256 → 0 < g.depth →
      g.depth ≤ (fuel : α) * stepSize → ∃ g1, CastRays m fuel (withBuffer g b1) = .ok g1) := by
  obtain ⟨hsame, hok⟩ := CastRays_buffer m fuel g hsw hsh b1 b2 h1 h2
  refine ⟨fun x => ?_, hsame, fun g1 h => ?_, fun hw hh hlen hd hfuel => ?_⟩
  · rw [castRay_buffer m g b1 fuel x, castRay_buffer m g b2 fuel x]
  · obtain ⟨hg1, hl1⟩ := CastRays_buffer m fuel g hsw hsh b1 b1 h1 h1 |>.2 g1 h
    refine ⟨hg1, ?_⟩
    have := (CastRays_buffer m fuel g hsw hsh g1.screenBuffer b1 hl1 h1).1
    rw [← hg1] at this
    rw [this, h]
  · obtain ⟨buf, hbuf, _⟩ := CastRays_frame m fuel (withBuffer g b1) hw hh hlen hd hfuel
      (by
        show b1.length = (g.screenWidth * g.screenHeight).toNat
        rw [h1, hsw, hsh]
        rfl)
    exact ⟨_, hbuf⟩

/-- Witness of `CastRays_deterministic`: the constructor's game, from a buffer
of blanks and from a buffer of `#`. -/
theorem CastRays_deterministic_witness :
    CastRays ratFns 1600 (withBuffer (init : Game ℚ) (List.replicate 4800 ' ')) =
      CastRays ratFns 1600 (withBuffer (init : Game ℚ) (List.replicate 4800 '#')) ∧
    ∃ g1, CastRays ratFns 1600 (withBuffer (init : Game ℚ) (List.replicate 4800 ' ')) = .ok g1 :=
  ⟨(CastRays_deterministic ratFns 1600 (init : Game ℚ) (List.replicate 4800 ' ')
      (List.replicate 4800 '#') rfl rfl (List.length_replicate _ _)
      (List.length_replicate _ _)).2.1,
    (CastRays_deterministic ratFns 1600 (init : Game ℚ) (List.replicate 4800 ' ')
      (List.replicate 4800 '#') rfl rfl (List.length_replicate _ _)
      (List.length_replicate _ _)).2.2.2 rfl rfl builtinMap_length (by norm_num [init])
      (by norm_num [init, stepSize])⟩

/-- Every glyph that the loop over the rows writes is in the palette. -/
theorem rowGlyph_mem_palette (g : Game α) (c f : ℤ) (d : α) (boundary : Bool) (y : ℕ) :
    rowGlyph g c f (wallShade g d boundary) y ∈ palette := by
  unfold rowGlyph wallShade floorShade palette
  simp only []
  split_ifs <;> decide

/-- After `CastRays` on a 120x40 screen (16x16 map stored in 256 characters,
positive depth) every cell of the buffer holds a glyph of the palette. -/
theorem CastRays_palette (m : MathFns α) (fuel : ℕ) (g : Game α)
    (hmw : g.mapWidth = 16) (hmh : g.mapHeight = 16) (hlen : g.gameMap.length = 256)
    (hd : 0 < g.depth) (hfuel : g.depth ≤ (fuel : α) * stepSize)
    (hsw : g.screenWidth = 120) (hsh : g.screenHeight = 40)
    (hbuf : g.screenBuffer.length = 4800) :
    ∃ buf : List Char, CastRays m fuel g = .ok (withBuffer g buf) ∧ buf.length = 4800 ∧
      ∀ i : ℕ, i < 4800 → ∃ c, c ∈ palette ∧ buf[i]? = some c := by
  obtain ⟨buf, h1, h2, h3⟩ := CastRays_frame m fuel g hmw hmh hlen hd hfuel (by
    rw [hbuf, hsw, hsh]; rfl)
  refine ⟨buf, h1, h2.trans hbuf, fun i hi => ?_⟩
  obtain ⟨x, y, hx, hy, rfl⟩ := cellIndex_cover g hsw i hi
  obtain ⟨s, _, _, hcell⟩ := h3 x y (by rw [hsw]; exact_mod_cast hx)
    (by rw [hsh]; exact_mod_cast hy)
  exact ⟨_, rowGlyph_mem_palette g _ _ _ _ _, hcell⟩

/-- **C12** (palette of the output, as the code gives it).  On a 120x40 screen
with a buffer of 4800 cells (16x16 map stored in 256 characters, positive
depth), for every player pose: `CastRays` returns and afterwards every cell of
the buffer holds one of the nine palette glyphs; `Render` then returns, and in
the grid that it hands to the display the cells 0 .. 4798 hold palette glyphs
and the last cell, 4799, holds NUL. -/
theorem CastRays_Render_palette (m : MathFns α) (fuel : ℕ) (g : Game α)
    (hmw : g.mapWidth = 16) (hmh : g.mapHeight = 16) (hlen : g.gameMap.length = 256)
    (hd : 0 < g.depth) (hfuel : g.depth ≤ (fuel : α) * stepSize)
    (hsw : g.screenWidth = 120) (hsh : g.screenHeight = 40)
    (hbuf : g.screenBuffer.length = 4800) :
    ∃ g1, CastRays m fuel g = .ok g1 ∧ (∀ c ∈ g1.screenBuffer, c ∈ palette) ∧
      g1.screenBuffer.length = 4800 ∧
      ∃ g2, Render g1 = .ok g2 ∧ g2.screenBuffer.length = 4800 ∧
        (∀ i : ℕ, i < 4799 → ∃ c, c ∈ palette ∧ g2.screenBuffer[i]? = some c) ∧
        g2.screenBuffer[4799]? = some '\x00' := by
  obtain ⟨buf, h1, h2, h3⟩ := CastRays_palette m fuel g hmw hmh hlen hd hfuel hsw hsh hbuf
  refine ⟨withBuffer g buf, h1, fun c hc => ?_, h2,
    withBuffer g (buf.set 4799 '\x00'), ?_, ?_, fun i hi => ?_, ?_⟩
  · obtain ⟨i, hi⟩ := List.mem_iff_getElem?.mp hc
    have hlt : i < 4800 := by
      by_contra hge
      have : buf[i]? = none := List.getElem?_eq_none (by change buf.length ≤ i; omega)
      change buf[i]? = some c at hi
      rw [this] at hi
      cases hi
    obtain ⟨c1, hc1, hget⟩ := h3 i hlt
    change buf[i]? = some c at hi
    rw [hget] at hi
    cases hi
    exact hc1
  · unfold Render
    simp only []
    have e : (withBuffer g buf).screenWidth * (withBuffer g buf).screenHeight - 1 = 4799 := by
      show g.screenWidth * g.screenHeight - 1 = 4799
      rw [hsw, hsh]; rfl
    rw [e, if_neg (by
      show ¬ ((4799 : ℤ) < 0 ∨ ((buf.length : ℕ) : ℤ) ≤ 4799)
      rw [h2]; norm_num)]
    rfl
  · show (buf.set 4799 '\x00').length = 4800
    rw [List.length_set, h2]
  · show ∃ c, c ∈ palette ∧ (buf.set 4799 '\x00')[i]? = some c
    rw [List.getElem?_set_ne (by omega)]
    exact h3 i (by omega)
  · show (buf.set 4799 '\x00')[4799]? = some '\x00'
    rw [List.getElem?_set_self (by omega)]

/-- Witness of `CastRays_Render_palette`: the constructor's game. -/
theorem CastRays_Render_palette_witness :
    ∃ g1, CastRays ratFns 1600 (init : Game ℚ) = .ok g1 ∧
      (∀ c ∈ g1.screenBuffer, c ∈ palette) ∧ g1.screenBuffer.length = 4800 ∧
      ∃ g2, Render g1 = .ok g2 ∧ g2.screenBuffer.length = 4800 ∧
        (∀ i : ℕ, i < 4799 → ∃ c, c ∈ palette ∧ g2.screenBuffer[i]? = some c) ∧
        g2.screenBuffer[4799]? = some '\x00' :=
  CastRays_Render_palette ratFns 1600 (init : Game ℚ) rfl rfl builtinMap_length
    (by norm_num [init]) (by norm_num [init, stepSize]) rfl rfl (List.length_replicate _ _)

/-- Counterexample to **C12** as stated: for the constructor's game, after
`CastRays` the grid that `Render` hands to the display holds NUL in its last
cell, and NUL is not one of the nine palette glyphs. -/
theorem Render_last_cell_nul :
    ∃ g1 g2, CastRays ⟨Real.sin, Real.cos, Real.sqrt, Real.arccos⟩ 1600 (init : Game ℝ) =
        .ok g1 ∧ Render g1 = .ok g2 ∧
      g2.screenBuffer[4799]? = some '\x00' ∧ '\x00' ∉ palette := by
  obtain ⟨buf, h1, h2, _⟩ := CastRays_palette
    (⟨Real.sin, Real.cos, Real.sqrt, Real.arccos⟩ : MathFns ℝ) 1600 (init : Game ℝ) rfl rfl
    builtinMap_length (by norm_num [init]) (by norm_num [init, stepSize]) rfl rfl
    (List.length_replicate _ _)
  refine ⟨withBuffer init buf, withBuffer init (buf.set 4799 '\x00'), h1, ?_, ?_, by decide⟩
  · unfold Render
    simp only []
    rw [if_neg (by
      show ¬ ((120 : ℤ) * 40 - 1 < 0 ∨ ((buf.length : ℕ) : ℤ) ≤ 120 * 40 - 1)
      rw [h2]; norm_num)]
    rfl
  · show (buf.set 4799 '\x00')[4799]? = some '\x00'
    rw [List.getElem?_set_self (by omega)]

set_option maxRecDepth 100000 in
/-- Three reads of the constructor's map by the collision test: index 222 is
the empty cell `(13, 14)`, index 256 is the terminating NUL of `c_str()`, and
index 259 lies behind it. -/
theorem builtinMap_reads_outside :
    cstrAt builtinMap (14 * 16 + -2) = .ok '.' ∧
    cstrAt builtinMap (14 * 16 + 32) = .ok '\x00' ∧
    cstrAt builtinMap (14 * 16 + 35) = .error (.mapReadOutOfRange 259) := by decide

/-- The truncated tentative positions of the initial pose `(14.7, 5.09)`,
heading 0, for a backward step of 1.5 s and forward steps of 5.4 s and 6 s. -/
theorem toInt_leaves_grid :
    toInt ((147 / 10 : ℝ) - Real.sin 0 * 5 * (3 / 2)) = 14 ∧
    toInt ((509 / 100 : ℝ) - Real.cos 0 * 5 * (3 / 2)) = -2 ∧
    toInt ((147 / 10 : ℝ) + Real.sin 0 * 5 * (27 / 5)) = 14 ∧
    toInt ((509 / 100 : ℝ) + Real.cos 0 * 5 * (27 / 5)) = 32 ∧
    toInt ((147 / 10 : ℝ) + Real.sin 0 * 5 * 6) = 14 ∧
    toInt ((509 / 100 : ℝ) + Real.cos 0 * 5 * 6) = 35 := by
  rw [Real.sin_zero, Real.cos_zero]
  refine ⟨toInt_eq_of_mem _ 14 (by norm_num) (by norm_num) (by norm_num), ?_,
    toInt_eq_of_mem _ 14 (by norm_num) (by norm_num) (by norm_num),
    toInt_eq_of_mem _ 32 (by norm_num) (by norm_num) (by norm_num),
    toInt_eq_of_mem _ 14 (by norm_num) (by norm_num) (by norm_num),
    toInt_eq_of_mem _ 35 (by norm_num) (by norm_num) (by norm_num)⟩
  rw [toInt_of_neg _ (by norm_num), Int.ceil_eq_iff]
  constructor <;> norm_num

/-- A backward step whose tentative cell is not read as a wall is kept. -/
theorem HandleMovement_back_accept (m : MathFns α) (keys : Intents) (t : α) (g : Game α)
    (c : Char) (hf : keys.moveForward = false) (hb : keys.moveBackward = true)
    (hcell : cstrAt g.gameMap
      (toInt (g.playerX - m.sinf g.playerA * g.speed * t) * g.mapWidth +
        toInt (g.playerY - m.cosf g.playerA * g.speed * t)) = .ok c) (hc : c ≠ '#') :
    HandleMovement m keys t g = .ok { g with
      playerX := g.playerX - m.sinf g.playerA * g.speed * t
      playerY := g.playerY - m.cosf g.playerA * g.speed * t } := by
  unfold HandleMovement
  rw [hf, hb]
  simp only [if_true, Bool.false_eq_true, if_false]
  unfold moveBackward collisionCell
  simp only []
  rw [hcell]
  simp [hc]

/-- A forward step whose collision test reads outside the map and its
terminator has no defined result. -/
theorem HandleMovement_fault (m : MathFns α) (keys : Intents) (t : α) (g : Game α)
    (e : Fault) (hf : keys.moveForward = true)
    (hcell : cstrAt g.gameMap
      (toInt (g.playerX + m.sinf g.playerA * g.speed * t) * g.mapWidth +
        toInt (g.playerY + m.cosf g.playerA * g.speed * t)) = .error e) :
    HandleMovement m keys t g = .error e := by
  unfold HandleMovement
  rw [hf]
  simp only [if_true]
  unfold moveForward collisionCell
  simp only []
  rw [hcell]

/-- **C15** (the code does not keep the player inside the grid).  From the
constructor's pose `(14.7, 5.09)`, heading 0, on the constructor's map, one
frame applied as `HandleRotation` then `HandleMovement`:
* `S` held for 1.5 s: the collision test reads index 222, an empty cell, the
  step is kept, and the truncated position is `(14, -2)`, outside
  `[0,16) x [0,16)`;
* `W` held for 5.4 s: the collision test reads index 256, the NUL behind the
  256 characters of the map, the step is kept, and the truncated position is
  `(14, 32)`;
* `W` held for 6 s: the collision test reads index 259, outside the map and
  its terminator, a read without defined result. -/
theorem HandleMovement_leaves_grid :
    (∃ g1, HandleMovement ⟨Real.sin, Real.cos, Real.sqrt, Real.arccos⟩
        ⟨false, false, false, true⟩ (3 / 2)
        (HandleRotation ⟨false, false, false, true⟩ (3 / 2) (init : Game ℝ)) = .ok g1 ∧
      toInt g1.playerX = 14 ∧ toInt g1.playerY = -2 ∧
      toInt g1.playerX * g1.mapWidth + toInt g1.playerY = 222) ∧
    (∃ g1, HandleMovement ⟨Real.sin, Real.cos, Real.sqrt, Real.arccos⟩
        ⟨false, false, true, false⟩ (27 / 5)
        (HandleRotation ⟨false, false, true, false⟩ (27 / 5) (init : Game ℝ)) = .ok g1 ∧
      toInt g1.playerX = 14 ∧ toInt g1.playerY = 32 ∧
      toInt g1.playerX * g1.mapWidth + toInt g1.playerY = 256 ∧
      (g1.gameMap.length : ℤ) ≤ toInt g1.playerX * g1.mapWidth + toInt g1.playerY) ∧
    HandleMovement ⟨Real.sin, Real.cos, Real.sqrt, Real.arccos⟩
        ⟨false, false, true, false⟩ 6
        (HandleRotation ⟨false, false, true, false⟩ 6 (init : Game ℝ)) =
      .error (.mapReadOutOfRange 259) := by
  obtain ⟨c1, c2, c3⟩ := builtinMap_reads_outside
  obtain ⟨h1, h2, h3, h4, h5, h6⟩ := toInt_leaves_grid
  refine ⟨⟨{ (init : Game ℝ) with
      playerX := 147 / 10 - Real.sin 0 * 5 * (3 / 2)
      playerY := 509 / 100 - Real.cos 0 * 5 * (3 / 2) }, ?_, h1, h2, ?_⟩,
    ⟨{ (init : Game ℝ) with
      playerX := 147 / 10 + Real.sin 0 * 5 * (27 / 5)
      playerY := 509 / 100 + Real.cos 0 * 5 * (27 / 5) }, ?_, h3, h4, ?_, ?_⟩, ?_⟩
  · exact HandleMovement_back_accept ⟨Real.sin, Real.cos, Real.sqrt, Real.arccos⟩
      ⟨false, false, false, true⟩ (3 / 2) (init : Game ℝ) '.' rfl rfl (by
        show cstrAt builtinMap (toInt ((147 / 10 : ℝ) - Real.sin 0 * 5 * (3 / 2)) * 16 +
          toInt ((509 / 100 : ℝ) - Real.cos 0 * 5 * (3 / 2))) = .ok '.'
        rw [h1, h2]; exact c1) (by decide)
  · show toInt ((147 / 10 : ℝ) - Real.sin 0 * 5 * (3 / 2)) * 16 +
      toInt ((509 / 100 : ℝ) - Real.cos 0 * 5 * (3 / 2)) = 222
    rw [h1, h2]; rfl
  · exact HandleMovement_accept ⟨Real.sin, Real.cos, Real.sqrt, Real.arccos⟩
      ⟨false, false, true, false⟩ (27 / 5) (init : Game ℝ) '\x00' rfl rfl (by
        show cstrAt builtinMap (toInt ((147 / 10 : ℝ) + Real.sin 0 * 5 * (27 / 5)) * 16 +
          toInt ((509 / 100 : ℝ) + Real.cos 0 * 5 * (27 / 5))) = .ok '\x00'
        rw [h3, h4]; exact c2) (by decide)
  · show toInt ((147 / 10 : ℝ) + Real.sin 0 * 5 * (27 / 5)) * 16 +
      toInt ((509 / 100 : ℝ) + Real.cos 0 * 5 * (27 / 5)) = 256
    rw [h3, h4]; rfl
  · show ((builtinMap.length : ℕ) : ℤ) ≤
      toInt ((147 / 10 : ℝ) + Real.sin 0 * 5 * (27 / 5)) * 16 +
        toInt ((509 / 100 : ℝ) + Real.cos 0 * 5 * (27 / 5))
    rw [h3, h4, builtinMap_length]; norm_num
  · exact HandleMovement_fault ⟨Real.sin, Real.cos, Real.sqrt, Real.arccos⟩
      ⟨false, false, true, false⟩ 6 (init : Game ℝ) _ rfl (by
        show cstrAt builtinMap (toInt ((147 / 10 : ℝ) + Real.sin 0 * 5 * 6) * 16 +
          toInt ((509 / 100 : ℝ) + Real.cos 0 * 5 * 6)) = _
        rw [h5, h6]; exact c3)

omit [LinearOrderedField α] [FloorRing α] in
/-- The halvings counted by `shift24` bring `N` into `[2 ^ 23, 2 ^ 24)`, or
there are none. -/
theorem shift24_spec : ∀ (fuel N : ℕ), N < 2 ^ (24 + fuel) →
    N / 2 ^ shift24 fuel N < 16777216 ∧
      (shift24 fuel N = 0 ∨ 8388608 ≤ N / 2 ^ shift24 fuel N) := by
  intro fuel
  induction fuel with
  | zero =>
    intro N h
    simp only [shift24, pow_zero, Nat.div_one]
    exact ⟨by simpa using h, Or.inl trivial⟩
  | succ f ih =>
    intro N h
    unfold shift24
    split_ifs with hN
    · simp only [pow_zero, Nat.div_one]
      exact ⟨hN, Or.inl trivial⟩
    · have h2 : N / 2 < 2 ^ (24 + f) := by
        rw [Nat.div_lt_iff_lt_mul (by norm_num)]
        calc N < 2 ^ (24 + (f + 1)) := h
          _ = 2 ^ (24 + f) * 2 := by ring
      obtain ⟨i1, i2⟩ := ih (N / 2) h2
      have e : N / 2 ^ (shift24 f (N / 2) + 1) = N / 2 / 2 ^ shift24 f (N / 2) := by
        rw [pow_succ, mul_comm, Nat.div_div_eq_div_mul]
      rw [e]
      refine ⟨i1, Or.inr ?_⟩
      rcases i2 with i2 | i2
      · rw [i2, pow_zero, Nat.div_one]
        omega
      · exact i2

/-- Scaling by a power of two commutes with the rounding of a magnitude, as
long as neither the value nor the scaled value is subnormal. -/
theorem roundMag_mul_zpow (p : ℕ) (emin : ℤ) (x : α) (z : ℤ) (hx : 0 < x)
    (h1 : emin ≤ Int.log 2 x) (h2 : emin ≤ Int.log 2 x + z) :
    roundMag p emin (x * (2 : α) ^ z) = roundMag p emin x * (2 : α) ^ z := by
  have hz : (0 : α) < (2 : α) ^ z := zpow_pos two_pos _
  have hlo : (2 : α) ^ (Int.log 2 x) ≤ x := (le_log_two_iff x hx _).mp le_rfl
  have hhi : x < (2 : α) ^ (Int.log 2 x + 1) := (log_two_lt_iff x hx _).mp (by omega)
  have hlog : Int.log 2 (x * (2 : α) ^ z) = Int.log 2 x + z := by
    apply le_antisymm
    · have : Int.log 2 (x * (2 : α) ^ z) < Int.log 2 x + z + 1 := by
        rw [log_two_lt_iff _ (mul_pos hx hz)]
        rw [show Int.log 2 x + z + 1 = (Int.log 2 x + 1) + z by ring, zpow_add₀ two_ne_zero]
        exact mul_lt_mul_of_pos_right hhi hz
      omega
    · rw [le_log_two_iff _ (mul_pos hx hz), zpow_add₀ two_ne_zero]
      exact mul_le_mul_of_nonneg_right hlo hz.le
  unfold roundMag
  simp only []
  rw [hlog, max_eq_left h1, max_eq_left h2]
  have hu : (2 : α) ^ (Int.log 2 x + z - ((p : ℤ) - 1)) =
      (2 : α) ^ (Int.log 2 x - ((p : ℤ) - 1)) * (2 : α) ^ z := by
    rw [← zpow_add₀ two_ne_zero]
    congr 1
    ring
  rw [hu, mul_div_mul_right _ _ hz.ne', mul_assoc]

/-- The rounding of `N / 2 ^ s` to the nearest integer, for natural numbers. -/
theorem roundEven_natDiv (N s : ℕ) :
    roundEven ((N : α) / (2 : α) ^ s) =
      if 2 * (N % 2 ^ s) < 2 ^ s then ((N / 2 ^ s : ℕ) : ℤ)
      else if 2 ^ s < 2 * (N % 2 ^ s) then ((N / 2 ^ s : ℕ) : ℤ) + 1
      else if (N / 2 ^ s) % 2 = 0 then ((N / 2 ^ s : ℕ) : ℤ)
      else ((N / 2 ^ s : ℕ) : ℤ) + 1 := by
  have hpos : (0 : α) < (2 : α) ^ s := pow_pos two_pos s
  have hposN : 0 < 2 ^ s := pow_pos two_pos s
  have h2 : (N : α) = ((N / 2 ^ s : ℕ) : α) * (2 : α) ^ s + ((N % 2 ^ s : ℕ) : α) := by
    have := Nat.div_add_mod N (2 ^ s)
    have h3 : ((2 ^ s * (N / 2 ^ s) + N % 2 ^ s : ℕ) : α) = (N : α) := by rw [this]
    rw [Nat.cast_add, Nat.cast_mul, Nat.cast_pow, Nat.cast_ofNat] at h3
    rw [← h3]
    ring
  have hdiv : (N : α) / (2 : α) ^ s =
      (((N / 2 ^ s : ℕ) : ℤ) : α) + ((N % 2 ^ s : ℕ) : α) / (2 : α) ^ s := by
    rw [Int.cast_natCast, div_eq_iff hpos.ne', add_mul, div_mul_cancel₀ _ hpos.ne']
    exact h2
  have hr : N % 2 ^ s < 2 ^ s := Nat.mod_lt _ hposN
  have hrα : ((N % 2 ^ s : ℕ) : α) / (2 : α) ^ s < 1 := by
    rw [div_lt_one hpos]
    have : ((N % 2 ^ s : ℕ) : α) < ((2 ^ s : ℕ) : α) := Nat.cast_lt.mpr hr
    rwa [Nat.cast_pow, Nat.cast_ofNat] at this
  have hr0 : (0 : α) ≤ ((N % 2 ^ s : ℕ) : α) / (2 : α) ^ s :=
    div_nonneg (Nat.cast_nonneg _) hpos.le
  have cast2 : ((2 * (N % 2 ^ s) : ℕ) : α) = 2 * ((N % 2 ^ s : ℕ) : α) := by
    rw [Nat.cast_mul, Nat.cast_ofNat]
  have castp : ((2 ^ s : ℕ) : α) = (2 : α) ^ s := by rw [Nat.cast_pow, Nat.cast_ofNat]
  split_ifs with c1 c2 c3
  · apply roundEven_of_lt
    · rw [hdiv]; linarith
    · rw [hdiv]
      have : ((N % 2 ^ s : ℕ) : α) / (2 : α) ^ s < 1 / 2 := by
        rw [div_lt_div_iff₀ hpos two_pos]
        have : ((2 * (N % 2 ^ s) : ℕ) : α) < ((2 ^ s : ℕ) : α) := Nat.cast_lt.mpr c1
        rw [cast2, castp] at this
        linarith
      linarith
  · apply roundEven_of_gt
    · rw [hdiv]
      have : (1 : α) / 2 < ((N % 2 ^ s : ℕ) : α) / (2 : α) ^ s := by
        rw [div_lt_div_iff₀ two_pos hpos]
        have : ((2 ^ s : ℕ) : α) < ((2 * (N % 2 ^ s) : ℕ) : α) := Nat.cast_lt.mpr c2
        rw [cast2, castp] at this
        linarith
      linarith
    · rw [hdiv]; linarith
  · have htie : 2 * (N % 2 ^ s) = 2 ^ s := by omega
    rw [roundEven_of_tie ((N : α) / (2 : α) ^ s) ((N / 2 ^ s : ℕ) : ℤ) (by
      rw [hdiv]
      have : ((N % 2 ^ s : ℕ) : α) / (2 : α) ^ s = 1 / 2 := by
        rw [div_eq_div_iff hpos.ne' two_ne_zero]
        have : ((2 * (N % 2 ^ s) : ℕ) : α) = ((2 ^ s : ℕ) : α) := by rw [htie]
        rw [cast2, castp] at this
        linarith
      rw [this]), if_pos (by omega)]
  · have htie : 2 * (N % 2 ^ s) = 2 ^ s := by omega
    rw [roundEven_of_tie ((N : α) / (2 : α) ^ s) ((N / 2 ^ s : ℕ) : ℤ) (by
      rw [hdiv]
      have : ((N % 2 ^ s : ℕ) : α) / (2 : α) ^ s = 1 / 2 := by
        rw [div_eq_div_iff hpos.ne' two_ne_zero]
        have : ((2 * (N % 2 ^ s) : ℕ) : α) = ((2 ^ s : ℕ) : α) := by rw [htie]
        rw [cast2, castp] at this
        linarith
      rw [this]), if_neg (by omega)]
/-- On the natural numbers the binary32 rounding is `rne24`. -/
theorem f32_natCast_rne (N : ℕ) : f32 (N : α) = (rne24 N : α) := by
  rcases Nat.eq_zero_or_pos N with h0 | hpos
  · subst h0
    have : rne24 0 = 0 := by decide
    rw [this]
    simpa using @f32_zero α _ _
  · have hlt : N < 2 ^ (24 + N) :=
      lt_of_lt_of_le (Nat.lt_two_pow N) (Nat.pow_le_pow_right (by norm_num) (by omega))
    obtain ⟨i1, i2⟩ := shift24_spec N N hlt
    have hdm := Nat.div_add_mod N (2 ^ shift24 N N)
    have hr : N % 2 ^ shift24 N N < 2 ^ shift24 N N := Nat.mod_lt _ (pow_pos two_pos _)
    rcases i2 with i2 | i2
    · have hN : N < 16777216 := by
        rw [i2] at i1
        simpa using i1
      have e : rne24 N = N := by
        unfold rne24
        simp only [i2, pow_zero, Nat.mod_one, Nat.div_one, mul_zero, Nat.lt_one_iff,
          if_true, mul_one]
      rw [e]
      exact f32_natCast N hN
    · set s := shift24 N N with hs
      have hx : (0 : α) < (N : α) := by exact_mod_cast hpos
      have hlo : 8388608 * 2 ^ s ≤ N := by
        calc 8388608 * 2 ^ s ≤ N / 2 ^ s * 2 ^ s := Nat.mul_le_mul_right _ i2
          _ ≤ N := Nat.div_mul_le_self N (2 ^ s)
      have hhi : N < 16777216 * 2 ^ s := by
        have h1 : N / 2 ^ s + 1 ≤ 16777216 := i1
        calc N = 2 ^ s * (N / 2 ^ s) + N % 2 ^ s := hdm.symm
          _ < 2 ^ s * (N / 2 ^ s) + 2 ^ s := by omega
          _ = (N / 2 ^ s + 1) * 2 ^ s := by ring
          _ ≤ 16777216 * 2 ^ s := Nat.mul_le_mul_right _ h1
      have h1 : (2 : α) ^ ((23 : ℤ) + (s : ℤ)) ≤ (N : α) := by
        rw [zpow_add₀ two_ne_zero, zpow_natCast]
        have : ((8388608 * 2 ^ s : ℕ) : α) ≤ (N : α) := Nat.cast_le.mpr hlo
        rw [Nat.cast_mul, Nat.cast_pow, Nat.cast_ofNat, Nat.cast_ofNat] at this
        calc (2 : α) ^ (23 : ℤ) * (2 : α) ^ s = 8388608 * (2 : α) ^ s := by norm_num
          _ ≤ (N : α) := this
      have h2 : (N : α) < (2 : α) ^ ((23 : ℤ) + (s : ℤ) + 1) := by
        rw [show (23 : ℤ) + (s : ℤ) + 1 = 24 + (s : ℤ) by ring, zpow_add₀ two_ne_zero,
          zpow_natCast]
        have : (N : α) < ((16777216 * 2 ^ s : ℕ) : α) := Nat.cast_lt.mpr hhi
        rw [Nat.cast_mul, Nat.cast_pow, Nat.cast_ofNat, Nat.cast_ofNat] at this
        calc (N : α) < 16777216 * (2 : α) ^ s := this
          _ = (2 : α) ^ (24 : ℤ) * (2 : α) ^ s := by norm_num
      unfold f32 roundBin
      rw [if_pos hx.le, roundMag_eq 24 (-126) (N : α) (23 + (s : ℤ)) hx (by omega) h2
        (Or.inl h1)]
      have e3 : (23 : ℤ) + (s : ℤ) - (((24 : ℕ) : ℤ) - 1) = (s : ℤ) := by
        push_cast
        ring
      rw [e3, zpow_natCast, roundEven_natDiv N s]
      unfold rne24
      simp only []
      rw [← hs]
      split_ifs <;>
        simp only [Int.cast_natCast, Int.cast_add, Int.cast_one, Nat.cast_mul, Nat.cast_add,
          Nat.cast_one, Nat.cast_pow, Nat.cast_ofNat]

/-- The binary32 rounding of a natural number of units of `2 ^ (-30)`. -/
theorem f32_units (N : ℕ) (hN : 0 < N) :
    f32 ((N : α) / 1073741824) = (rne24 N : α) / 1073741824 := by
  have hx : (0 : α) < (N : α) := by exact_mod_cast hN
  have hlog : (0 : ℤ) ≤ Int.log 2 (N : α) := by
    rw [le_log_two_iff _ hx, zpow_zero]
    exact_mod_cast hN
  have e : (N : α) / 1073741824 = (N : α) * (2 : α) ^ (-30 : ℤ) := by
    rw [zpow_neg, div_eq_mul_inv]
    norm_num
  have h := roundMag_mul_zpow 24 (-126) (N : α) (-30) hx (by omega) (by omega)
  have h1 := @f32_natCast_rne α _ _ N
  unfold f32 roundBin at h1 ⊢
  rw [if_pos hx.le] at h1
  rw [if_pos (div_nonneg hx.le (by norm_num)), e, h, h1, zpow_neg, div_eq_mul_inv]
  norm_num
/-- The accumulated distance in binary32 is `accUnits` units of `2 ^ (-30)`. -/
theorem accDist_f32 (k : ℕ) : accDist f32 k = ((accUnits k : ℕ) : α) / 1073741824 := by
  induction k with
  | zero => simp [accDist, accUnits]
  | succ k ih =>
    have e1 : accDist f32 (k + 1) = f32 (accDist f32 k + f32 (stepSize : α)) := by
      unfold accDist
      rw [Function.iterate_succ_apply']
    have e2 : accUnits (k + 1) = rne24 (accUnits k + 10737418) := by
      unfold accUnits
      rw [Function.iterate_succ_apply']
    rw [e1, e2, ih, f32_stepSize, ← add_div]
    have e3 : ((accUnits k : ℕ) : α) + 10737418 = ((accUnits k + 10737418 : ℕ) : α) := by
      push_cast
      rfl
    rw [e3]
    exact f32_units _ (by omega)

omit [LinearOrderedField α] [FloorRing α] in
/-- Fifty more additions. -/
theorem accUnits_add_fifty (k : ℕ) :
    accUnits (k + 50) = (fun N => rne24 (N + 10737418))^[50] (accUnits k) := by
  unfold accUnits
  rw [add_comm, Function.iterate_add_apply]

set_option maxRecDepth 100000 in
omit [LinearOrderedField α] [FloorRing α] in
/-- The accumulated distance after 1599 and after 1600 additions, in units of
`2 ^ (-30)`: the first is below `16 * 2 ^ 30 = 17179869184`, the second is
not. -/
theorem accUnits_table : accUnits 1599 = 17169422336 ∧ accUnits 1600 = 17180160000 := by
  have h0 : accUnits 0 = 0 := rfl
  have h50 : accUnits 50 = 536870688 := by
    rw [accUnits_add_fifty 0, h0]
    decide
  have h100 : accUnits 100 = 1073741120 := by
    rw [accUnits_add_fifty 50, h50]
    decide
  have h150 : accUnits 150 = 1610611584 := by
    rw [accUnits_add_fifty 100, h100]
    decide
  have h200 : accUnits 200 = 2147481984 := by
    rw [accUnits_add_fifty 150, h150]
    decide
  have h250 : accUnits 250 = 2684352512 := by
    rw [accUnits_add_fifty 200, h200]
    decide
  have h300 : accUnits 300 = 3221222912 := by
    rw [accUnits_add_fifty 250, h250]
    decide
  have h350 : accUnits 350 = 3758093312 := by
    rw [accUnits_add_fifty 300, h300]
    decide
  have h400 : accUnits 400 = 4294963712 := by
    rw [accUnits_add_fifty 350, h350]
    decide
  have h450 : accUnits 450 = 4831846912 := by
    rw [accUnits_add_fifty 400, h400]
    decide
  have h500 : accUnits 500 = 5368730112 := by
    rw [accUnits_add_fifty 450, h450]
    decide
  have h550 : accUnits 550 = 5905613312 := by
    rw [accUnits_add_fifty 500, h500]
    decide
  have h600 : accUnits 600 = 6442496512 := by
    rw [accUnits_add_fifty 550, h550]
    decide
  have h650 : accUnits 650 = 6979379712 := by
    rw [accUnits_add_fifty 600, h600]
    decide
  have h700 : accUnits 700 = 7516262912 := by
    rw [accUnits_add_fifty 650, h650]
    decide
  have h750 : accUnits 750 = 8053146112 := by
    rw [accUnits_add_fifty 700, h700]
    decide
  have h800 : accUnits 800 = 8590028800 := by
    rw [accUnits_add_fifty 750, h750]
    decide
  have h850 : accUnits 850 = 9126912000 := by
    rw [accUnits_add_fifty 800, h800]
    decide
  have h900 : accUnits 900 = 9663795200 := by
    rw [accUnits_add_fifty 850, h850]
    decide
  have h950 : accUnits 950 = 10200678400 := by
    rw [accUnits_add_fifty 900, h900]
    decide
  have h1000 : accUnits 1000 = 10737561600 := by
    rw [accUnits_add_fifty 950, h950]
    decide
  have h1050 : accUnits 1050 = 11274444800 := by
    rw [accUnits_add_fifty 1000, h1000]
    decide
  have h1100 : accUnits 1100 = 11811328000 := by
    rw [accUnits_add_fifty 1050, h1050]
    decide
  have h1150 : accUnits 1150 = 12348211200 := by
    rw [accUnits_add_fifty 1100, h1100]
    decide
  have h1200 : accUnits 1200 = 12885094400 := by
    rw [accUnits_add_fifty 1150, h1150]
    decide
  have h1250 : accUnits 1250 = 13421977600 := by
    rw [accUnits_add_fifty 1200, h1200]
    decide
  have h1300 : accUnits 1300 = 13958860800 := by
    rw [accUnits_add_fifty 1250, h1250]
    decide
  have h1350 : accUnits 1350 = 14495744000 := by
    rw [accUnits_add_fifty 1300, h1300]
    decide
  have h1400 : accUnits 1400 = 15032627200 := by
    rw [accUnits_add_fifty 1350, h1350]
    decide
  have h1450 : accUnits 1450 = 15569510400 := by
    rw [accUnits_add_fifty 1400, h1400]
    decide
  have h1500 : accUnits 1500 = 16106393600 := by
    rw [accUnits_add_fifty 1450, h1450]
    decide
  have h1550 : accUnits 1550 = 16643276800 := by
    rw [accUnits_add_fifty 1500, h1500]
    decide
  have h1600 : accUnits 1600 = 17180160000 := by
    rw [accUnits_add_fifty 1550, h1550]
    decide
  have e9 : accUnits 1599 = (fun N => rne24 (N + 10737418))^[49] (accUnits 1550) := by
    unfold accUnits
    rw [← Function.iterate_add_apply]
  refine ⟨?_, h1600⟩
  rw [e9, h1550]
  decide
theorem marchLoopF_stop (rnd : α → α) (m : MathFns α) (g : Game α) (rayAngle eyeX eyeY : α)
    (fuel : ℕ) (s : RayState α) (h : ¬ (s.hitWall = false ∧ s.distanceToWall < g.depth)) :
    marchLoopF rnd m g rayAngle eyeX eyeY fuel s = .ok s := by
  cases fuel <;> simp [marchLoopF, h]

theorem marchLoopF_succ (rnd : α → α) (m : MathFns α) (g : Game α) (rayAngle eyeX eyeY : α)
    (fuel : ℕ) (s : RayState α) (h : s.hitWall = false ∧ s.distanceToWall < g.depth) :
    marchLoopF rnd m g rayAngle eyeX eyeY (fuel + 1) s =
      match marchStepF rnd m g rayAngle eyeX eyeY s with
      | .error e => .error e
      | .ok s1 => marchLoopF rnd m g rayAngle eyeX eyeY fuel s1 := by
  rw [marchLoopF, if_pos h]

omit [FloorRing α] in
/-- One more addition of `stepSize`. -/
theorem accDist_succ (rnd : α → α) (k : ℕ) :
    accDist rnd (k + 1) = rnd (accDist rnd k + rnd stepSize) := by
  unfold accDist
  rw [Function.iterate_succ_apply']

omit [FloorRing α] in
/-- On a cell that is not a wall, `HandleWallIntersectionF` changes
nothing. -/
theorem HandleWallIntersectionF_not_wall (rnd : α → α) (m : MathFns α) (g : Game α)
    (testX testY : ℤ) (d : α) (hitWall boundary : Bool) (rayAngle : α) (c : Char)
    (hc : cstrAt g.gameMap (testX * g.mapWidth + testY) = .ok c) (hne : c ≠ '#') :
    HandleWallIntersectionF rnd m g testX testY d hitWall boundary rayAngle =
      .ok (hitWall, boundary) := by
  simp [HandleWallIntersectionF, hc, hne]

omit [FloorRing α] in
/-- On a wall cell, `HandleWallIntersectionF` sets `hitWall`, and sets
`boundary` when the test on the sorted vector succeeds. -/
theorem HandleWallIntersectionF_wall (rnd : α → α) (m : MathFns α) (g : Game α)
    (testX testY : ℤ) (d : α) (hitWall boundary : Bool) (rayAngle : α)
    (hc : cstrAt g.gameMap (testX * g.mapWidth + testY) = .ok '#') :
    HandleWallIntersectionF rnd m g testX testY d hitWall boundary rayAngle =
      .ok (true, boundary ||
        nearCornerF rnd m (sortPairs (cornerPairsF rnd m g testX testY rayAngle))) := by
  unfold HandleWallIntersectionF
  rw [hc]
  simp only [if_true]
  split_ifs with h
  · rw [h, Bool.or_true]
  · simp only [Bool.not_eq_true] at h
    rw [h, Bool.or_false]

/-- The result of one pass of the march with rounded operations: the sample
leaves the map and the distance becomes `depth`, or the distance is the
rounded sum. -/
theorem marchStepF_cases (rnd : α → α) (m : MathFns α) (g : Game α) (rayAngle eyeX eyeY : α)
    (s s1 : RayState α) (h : marchStepF rnd m g rayAngle eyeX eyeY s = .ok s1) :
    (s1.distanceToWall = g.depth ∧ s1.hitWall = true) ∨
      s1.distanceToWall = rnd (s.distanceToWall + rnd stepSize) := by
  unfold marchStepF at h
  simp only [] at h
  split_ifs at h with hout
  · cases h
    exact Or.inl ⟨rfl, rfl⟩
  · split at h
    · cases h
    · cases h
      exact Or.inr rfl

/-- The distance with which a march with rounded operations ends, started
after `k` passes: the loop did not run and the state is the one it started
with, or the distance is `depth`, or it is a rounded sum whose predecessor is
below `depth`. -/
theorem marchLoopF_dist (rnd : α → α) (m : MathFns α) (g : Game α) (rayAngle eyeX eyeY : α) :
    ∀ (fuel k : ℕ) (s s1 : RayState α), s.distanceToWall = accDist rnd k →
      marchLoopF rnd m g rayAngle eyeX eyeY fuel s = .ok s1 →
      (s1 = s ∧ ¬ (s.hitWall = false ∧ s.distanceToWall < g.depth)) ∨
        s1.distanceToWall = g.depth ∨
        ∃ K : ℕ, k ≤ K ∧ accDist rnd K < g.depth ∧ s1.distanceToWall = accDist rnd (K + 1) := by
  intro fuel
  induction fuel with
  | zero =>
    intro k s s1 _ h
    by_cases hc : s.hitWall = false ∧ s.distanceToWall < g.depth
    · unfold marchLoopF at h
      rw [if_pos hc] at h
      cases h
    · rw [marchLoopF_stop rnd m g _ _ _ 0 s hc] at h
      cases h
      exact Or.inl ⟨rfl, hc⟩
  | succ f ih =>
    intro k s s1 hs h
    by_cases hc : s.hitWall = false ∧ s.distanceToWall < g.depth
    · rw [marchLoopF_succ rnd m g _ _ _ f s hc] at h
      cases hstep : marchStepF rnd m g rayAngle eyeX eyeY s with
      | error e => rw [hstep] at h; cases h
      | ok s2 =>
        rw [hstep] at h
        simp only [] at h
        rcases marchStepF_cases rnd m g _ _ _ s s2 hstep with ⟨hd, hh⟩ | hd
        · rw [marchLoopF_stop rnd m g _ _ _ f s2 (by simp [hh])] at h
          cases h
          exact Or.inr (Or.inl hd)
        · have hs2 : s2.distanceToWall = accDist rnd (k + 1) := by
            rw [hd, hs, accDist_succ]
          rcases ih (k + 1) s2 s1 hs2 h with ⟨h1, _⟩ | h1 | ⟨K, hK, hlt, hval⟩
          · right; right
            refine ⟨k, le_rfl, ?_, ?_⟩
            · rw [← hs]; exact hc.2
            · rw [h1, hs2]
          · exact Or.inr (Or.inl h1)
          · exact Or.inr (Or.inr ⟨K, by omega, hlt, hval⟩)
    · rw [marchLoopF_stop rnd m g _ _ _ (f + 1) s hc] at h
      cases h
      exact Or.inl ⟨rfl, hc⟩

/-- The truncation of a value of `(-1, b)`, `b > 0`, lies in `[0, b)`. -/
theorem toInt_mem_range (x : α) (b : ℤ) (hb : 0 < b) (h1 : -1 < x) (h2 : x < (b : α)) :
    0 ≤ toInt x ∧ toInt x < b := by
  unfold toInt
  split_ifs with h0
  · exact ⟨Int.floor_nonneg.mpr h0, Int.floor_lt.mpr h2⟩
  · push_neg at h0
    have : ⌈x⌉ = 0 := by
      rw [Int.ceil_eq_iff]
      constructor
      · simpa using h1
      · simpa using h0.le
    rw [this]
    exact ⟨le_rfl, hb⟩

/-- An accumulated binary32 distance is a binary32 value. -/
theorem accDist_f32_fix (k : ℕ) : f32 (accDist f32 k : α) = accDist f32 k := by
  cases k with
  | zero => simpa [accDist] using @f32_zero α _ _
  | succ k => rw [accDist_succ, f32_idem]

/-- The accumulated binary32 distance does not decrease. -/
theorem accDist_f32_mono {k j : ℕ} (h : k ≤ j) : (accDist f32 k : α) ≤ accDist f32 j := by
  induction h with
  | refl => exact le_rfl
  | step _ ih =>
    refine ih.trans ?_
    rw [accDist_succ]
    have h1 : (0 : α) ≤ f32 (stepSize : α) := by rw [f32_stepSize]; norm_num
    calc accDist f32 _ = f32 (accDist f32 _) := (accDist_f32_fix _).symm
      _ ≤ f32 (accDist f32 _ + f32 (stepSize : α)) := f32_mono (by linarith)

/-- The accumulated binary32 distance after 1599 and after 1600 additions of
`0.01f`: the first is below 16, the second is `16 + 71 / 2 ^ 18`. -/
theorem accDist_f32_table :
    (accDist f32 1599 : α) = 268272224 / 16777216 ∧ (accDist f32 1600 : α) = 4194375 / 262144 := by
  obtain ⟨h1, h2⟩ := accUnits_table
  rw [accDist_f32, accDist_f32, h1, h2]
  constructor <;> norm_num

/-- The accumulated binary32 distance is below 16 exactly before the 1600th
addition. -/
theorem accDist_f32_lt_iff (K : ℕ) : (accDist f32 K : α) < 16 ↔ K < 1600 := by
  obtain ⟨h1, h2⟩ := @accDist_f32_table α _ _
  constructor
  · intro h
    by_contra hge
    push_neg at hge
    have := @accDist_f32_mono α _ _ 1600 K hge
    rw [h2] at this
    have h3 : (16 : α) < 4194375 / 262144 := by norm_num
    linarith
  · intro h
    have := @accDist_f32_mono α _ _ K 1599 (by omega)
    rw [h1] at this
    have h3 : (268272224 : α) / 16777216 < 16 := by norm_num
    linarith

/-- The march with rounded operations returns on a 16x16 map stored in 256
characters, when the accumulated distance reaches `depth` after `N`
additions and the fuel allows the passes left. -/
theorem marchLoopF_total (rnd : α → α) (m : MathFns α) (g : Game α) (rayAngle eyeX eyeY : α)
    (hw : g.mapWidth = 16) (hh : g.mapHeight = 16) (hlen : g.gameMap.length = 256)
    (N : ℕ) (hN : g.depth ≤ accDist rnd N) :
    ∀ (n fuel k : ℕ) (s : RayState α), k + n = N → n ≤ fuel →
      (s.hitWall = true ∨ s.distanceToWall = accDist rnd k) →
      ∃ s1, marchLoopF rnd m g rayAngle eyeX eyeY fuel s = .ok s1 := by
  intro n
  induction n with
  | zero =>
    intro fuel k s hk _ hs
    refine ⟨s, marchLoopF_stop rnd m g _ _ _ fuel s ?_⟩
    rintro ⟨h1, h2⟩
    rcases hs with hs | hs
    · rw [hs] at h1; cases h1
    · have hk1 : k = N := by omega
      rw [hs, hk1] at h2
      exact absurd hN (not_le.mpr h2)
  | succ n ih =>
    intro fuel k s hk hfuel hs
    obtain ⟨f, rfl⟩ : ∃ f, fuel = f + 1 := ⟨fuel - 1, by omega⟩
    by_cases hc : s.hitWall = false ∧ s.distanceToWall < g.depth
    · have hsd : s.distanceToWall = accDist rnd k := by
        rcases hs with hs | hs
        · rw [hs] at hc; cases hc.1
        · exact hs
      rw [marchLoopF_succ rnd m g _ _ _ f s hc]
      unfold marchStepF
      simp only []
      split_ifs with hout
      · simp only []
        exact ⟨_, marchLoopF_stop rnd m g _ _ _ f _ (by simp)⟩
      · rw [hw, hh] at hout
        push_neg at hout
        obtain ⟨hx0, hx1, hy0, hy1⟩ := hout
        obtain ⟨c, _, hcell⟩ := cstrAt_of_lt g.gameMap
          (toInt (rnd (g.playerX + rnd (eyeX * rnd (s.distanceToWall + rnd stepSize)))) *
              g.mapWidth +
            toInt (rnd (g.playerY + rnd (eyeY * rnd (s.distanceToWall + rnd stepSize)))))
          (by rw [hw]; omega) (by rw [hw, hlen]; push_cast; omega)
        by_cases hwall : c = '#'
        · subst hwall
          rw [HandleWallIntersectionF_wall rnd m g _ _ _ _ _ _ hcell]
          simp only []
          exact ih f (k + 1) _ (by omega) (by omega) (Or.inl rfl)
        · rw [HandleWallIntersectionF_not_wall rnd m g _ _ _ _ _ _ c hcell hwall]
          simp only []
          exact ih f (k + 1) _ (by omega) (by omega)
            (Or.inr (by simp only []; rw [hsd, accDist_succ]))
    · exact ⟨s, marchLoopF_stop rnd m g _ _ _ (f + 1) s hc⟩

/-- The march with rounded operations over a map without walls, from the
state reached after `k` passes, when the accumulated distance reaches `depth`
with the `N`-th addition: it ends on a sample outside the map, with the
distance `depth`, or after pass `N` with the accumulated distance. -/
theorem marchLoopF_open (rnd : α → α) (m : MathFns α) (g : Game α) (rayAngle eyeX eyeY : α)
    (hw : g.mapWidth = 16) (hh : g.mapHeight = 16) (hlen : g.gameMap.length = 256)
    (hmap : '#' ∉ g.gameMap) (N : ℕ) (hN : g.depth ≤ accDist rnd N)
    (hlt : ∀ j : ℕ, j < N → accDist rnd j < g.depth) :
    ∀ (n fuel k : ℕ) (s : RayState α), k + n = N → n ≤ fuel →
      s.distanceToWall = accDist rnd k → s.hitWall = false → s.boundary = false →
      ∃ s1, marchLoopF rnd m g rayAngle eyeX eyeY fuel s = .ok s1 ∧ s1.boundary = false ∧
        ((s1.hitWall = true ∧ s1.distanceToWall = g.depth ∧
            ∃ K : ℕ, k < K ∧ K ≤ N ∧
              ¬ inRange g (sampleXF rnd g eyeX K) (sampleYF rnd g eyeY K)) ∨
          (s1.hitWall = false ∧ s1.distanceToWall = accDist rnd N)) := by
  intro n
  induction n with
  | zero =>
    intro fuel k s hk _ hs hhit hb
    have hk1 : k = N := by omega
    refine ⟨s, marchLoopF_stop rnd m g _ _ _ fuel s ?_, hb, Or.inr ⟨hhit, by rw [hs, hk1]⟩⟩
    rintro ⟨_, h2⟩
    rw [hs, hk1] at h2
    exact absurd hN (not_le.mpr h2)
  | succ n ih =>
    intro fuel k s hk hfuel hs hhit hb
    obtain ⟨f, rfl⟩ : ∃ f, fuel = f + 1 := ⟨fuel - 1, by omega⟩
    have hc : s.hitWall = false ∧ s.distanceToWall < g.depth :=
      ⟨hhit, by rw [hs]; exact hlt k (by omega)⟩
    rw [marchLoopF_succ rnd m g _ _ _ f s hc]
    unfold marchStepF
    simp only []
    have hd1 : rnd (s.distanceToWall + rnd stepSize) = accDist rnd (k + 1) := by
      rw [hs, accDist_succ]
    rw [hd1]
    split_ifs with hout
    · simp only []
      refine ⟨⟨g.depth, true, s.boundary⟩, marchLoopF_stop rnd m g _ _ _ f _ (by simp), hb,
        Or.inl ⟨rfl, rfl, k + 1, by omega, by omega, ?_⟩⟩
      unfold inRange sampleXF sampleYF
      exact not_not.mpr hout
    · have hout1 := hout
      rw [hw, hh] at hout1
      push_neg at hout1
      obtain ⟨hx0, hx1, hy0, hy1⟩ := hout1
      obtain ⟨c, hcmem, hcell⟩ := cstrAt_of_lt g.gameMap
        (toInt (rnd (g.playerX + rnd (eyeX * accDist rnd (k + 1)))) * g.mapWidth +
          toInt (rnd (g.playerY + rnd (eyeY * accDist rnd (k + 1)))))
        (by rw [hw]; omega) (by rw [hw, hlen]; push_cast; omega)
      have hne : c ≠ '#' := fun h => hmap (h ▸ hcmem)
      rw [HandleWallIntersectionF_not_wall rnd m g _ _ _ _ _ _ c hcell hne]
      simp only []
      obtain ⟨s1, h1, h2, h3⟩ := ih f (k + 1) ⟨accDist rnd (k + 1), s.hitWall, s.boundary⟩
        (by omega) (by omega) rfl hhit hb
      refine ⟨s1, h1, h2, ?_⟩
      rcases h3 with ⟨a, b, K, hK1, hK2, hK3⟩ | h3
      · exact Or.inl ⟨a, b, K, by omega, hK2, hK3⟩
      · exact Or.inr h3
/-- **C1** (open field, as the compiled program computes it).  On a 16x16 map
without a wall cell and with maximum depth 16, for every player position and
heading, every field of view and every screen column `x`, the march of
`CastRays` in single precision ends (any fuel of at least 1600 passes is
enough, and no read leaves the map) with `boundary = false` and with a
`distanceToWall` that is not below the depth: it is the depth 16 when a sample
left the grid (`hitWall` is then set), and it is `16 + 71 / 2 ^ 18 =
16.00027…`, the 1600th single-precision sum of `0.01f`, when the ray stayed
inside the grid for the whole march (`hitWall` is then not set); in both cases
the wall glyph of the column is the blank. -/
theorem castRayF_open_field (m : MathFns α) (g : Game α) (fuel x : ℕ)
    (hw : g.mapWidth = 16) (hh : g.mapHeight = 16) (hd : g.depth = 16)
    (hlen : g.gameMap.length = 256) (hmap : '#' ∉ g.gameMap) (hfuel : 1600 ≤ fuel) :
    ∃ s, castRayF f32 m g fuel x = .ok s ∧ s.boundary = false ∧
      ((s.hitWall = true ∧ s.distanceToWall = 16 ∧
          ∃ K : ℕ, 1 ≤ K ∧ K ≤ 1600 ∧
            ¬ inRange g (sampleXF f32 g (f32 (m.sinf (rayAngleOfF f32 g x))) K)
              (sampleYF f32 g (f32 (m.cosf (rayAngleOfF f32 g x))) K)) ∨
        (s.hitWall = false ∧ s.distanceToWall = 4194375 / 262144)) ∧
      16 ≤ s.distanceToWall ∧ wallShade g s.distanceToWall s.boundary = ' ' := by
  obtain ⟨t1, t2⟩ := @accDist_f32_table α _ _
  unfold castRayF
  simp only []
  obtain ⟨s, h1, h2, h3⟩ := marchLoopF_open f32 m g (rayAngleOfF f32 g x)
    (f32 (m.sinf (rayAngleOfF f32 g x))) (f32 (m.cosf (rayAngleOfF f32 g x))) hw hh hlen hmap
    1600 (by rw [hd, t2]; norm_num) (fun j hj => by rw [hd]; exact (accDist_f32_lt_iff j).mpr hj)
    1600 fuel 0 ⟨0, false, false⟩ (by omega) hfuel (by simp [accDist]) rfl rfl
  have hge : (16 : α) ≤ s.distanceToWall := by
    rcases h3 with ⟨_, e, _⟩ | ⟨_, e⟩
    · rw [e, hd]
    · rw [e, t2]; norm_num
  refine ⟨s, h1, h2, ?_, hge, ?_⟩
  · rcases h3 with ⟨a, e, K, hK1, hK2, hK3⟩ | ⟨a, e⟩
    · exact Or.inl ⟨a, by rw [e, hd], K, by omega, hK2, hK3⟩
    · exact Or.inr ⟨a, by rw [e, t2]⟩
  · rw [h2]
    unfold wallShade
    rw [hd]
    simp only [Bool.false_eq_true, if_false]
    rw [if_neg (by linarith), if_neg (by linarith), if_neg (by linarith), if_neg (by linarith)]

/-- Witness of `castRayF_open_field`: the constructor's game with every map
cell replaced by `.`, over the rationals. -/
theorem castRayF_open_field_witness :
    ('#' ∉ List.replicate 256 '.') ∧
    ∃ s, castRayF f32 ratFns { (init : Game ℚ) with gameMap := List.replicate 256 '.' } 1600 7 =
        .ok s ∧ s.boundary = false ∧ 16 ≤ s.distanceToWall :=
  ⟨fun h => absurd (List.eq_of_mem_replicate h) (by decide), by
    obtain ⟨s, h1, h2, _, h4, _⟩ := castRayF_open_field ratFns
      { (init : Game ℚ) with gameMap := List.replicate 256 '.' } 1600 7 rfl rfl rfl
      (List.length_replicate 256 '.')
      (fun h => absurd (List.eq_of_mem_replicate h) (by decide)) (le_refl _)
    exact ⟨s, h1, h2, h4⟩⟩

/-- The values `1/4`, `1/2`, `3/2`, `9/4` and `13/4` are binary32 numbers. -/
theorem f32_quarters :
    f32 ((1 / 4 : α)) = 1 / 4 ∧ f32 ((1 / 2 : α)) = 1 / 2 ∧ f32 ((3 / 2 : α)) = 3 / 2 ∧
      f32 ((9 / 4 : α)) = 9 / 4 ∧ f32 ((13 / 4 : α)) = 13 / 4 := by
  refine ⟨?_, ?_, ?_, ?_, ?_⟩
  · rw [f32_eval (1 / 4) (-2) (1 / 33554432) 8388608 (by norm_num [zpow_neg]) (by norm_num) (by
      norm_num) (by norm_num) (roundEven_of_lt _ 8388608 (by norm_num) (by norm_num))]
    norm_num
  · rw [f32_eval (1 / 2) (-1) (1 / 16777216) 8388608 (by norm_num [zpow_neg]) (by norm_num) (by
      norm_num) (by norm_num) (roundEven_of_lt _ 8388608 (by norm_num) (by norm_num))]
    norm_num
  · rw [f32_eval (3 / 2) 0 (1 / 8388608) 12582912 (by norm_num [zpow_neg]) (by norm_num) (by
      norm_num) (by norm_num) (roundEven_of_lt _ 12582912 (by norm_num) (by norm_num))]
    norm_num
  · rw [f32_eval (9 / 4) 1 (1 / 4194304) 9437184 (by norm_num [zpow_neg]) (by norm_num) (by
      norm_num) (by norm_num) (roundEven_of_lt _ 9437184 (by norm_num) (by norm_num))]
    norm_num
  · rw [f32_eval (13 / 4) 1 (1 / 4194304) 13631488 (by norm_num [zpow_neg]) (by norm_num) (by
      norm_num) (by norm_num) (roundEven_of_lt _ 13631488 (by norm_num) (by norm_num))]
    norm_num

/-- The values `3/16`, `9/16`, `11/16` and `13/16` are
binary32 numbers. -/
theorem f32_sixteenths :
    f32 ((3 / 16 : α)) = 3 / 16 ∧ f32 ((9 / 16 : α)) = 9 / 16 ∧
      f32 ((11 / 16 : α)) = 11 / 16 ∧ f32 ((13 / 16 : α)) = 13 / 16 := by
  refine ⟨?_, ?_, ?_, ?_⟩
  · rw [f32_eval (3 / 16) (-3) (1 / 67108864) 12582912 (by norm_num [zpow_neg]) (by norm_num)
      (by norm_num) (by norm_num) (roundEven_of_lt _ 12582912 (by norm_num) (by norm_num))]
    norm_num
  · rw [f32_eval (9 / 16) (-1) (1 / 16777216) 9437184 (by norm_num [zpow_neg]) (by norm_num)
      (by norm_num) (by norm_num) (roundEven_of_lt _ 9437184 (by norm_num) (by norm_num))]
    norm_num
  · rw [f32_eval (11 / 16) (-1) (1 / 16777216) 11534336 (by norm_num [zpow_neg]) (by norm_num)
      (by norm_num) (by norm_num) (roundEven_of_lt _ 11534336 (by norm_num) (by norm_num))]
    norm_num
  · rw [f32_eval (13 / 16) (-1) (1 / 16777216) 13631488 (by norm_num [zpow_neg]) (by norm_num)
      (by norm_num) (by norm_num) (roundEven_of_lt _ 13631488 (by norm_num) (by norm_num))]
    norm_num

/-- The march in single precision on an open 16x16 map, from a pose in the
cell `(0, 0)` of the grid, of a ray whose direction has both components in
`[0, 13/16]`: each of the 1600 samples lies in `[0, 15]` in both coordinates,
so no sample leaves the grid, the march runs for all 1600 passes and ends
with the 1600th accumulated distance. -/
theorem castRayF_diag_open (m : MathFns ℝ) (g : Game ℝ) (x : ℕ) (hw : g.mapWidth = 16)
    (hh : g.mapHeight = 16) (hd : g.depth = 16) (hlen : g.gameMap.length = 256)
    (hmap : '#' ∉ g.gameMap)
    (hx0 : 0 ≤ g.playerX) (hx1 : g.playerX ≤ 1) (hy0 : 0 ≤ g.playerY) (hy1 : g.playerY ≤ 1)
    (hs0 : 0 ≤ m.sinf (rayAngleOfF f32 g x)) (hs1 : m.sinf (rayAngleOfF f32 g x) ≤ 13 / 16)
    (hc0 : 0 ≤ m.cosf (rayAngleOfF f32 g x)) (hc1 : m.cosf (rayAngleOfF f32 g x) ≤ 13 / 16)
    (fuel : ℕ) (hfuel : 1600 ≤ fuel) :
    castRayF f32 m g fuel x = .ok ⟨4194375 / 262144, false, false⟩ := by
  have n14 : f32 (14 : ℝ) = 14 := by simpa using @f32_natCast ℝ _ _ 14 (by norm_num)
  have n15 : f32 (15 : ℝ) = 15 := by simpa using @f32_natCast ℝ _ _ 15 (by norm_num)
  obtain ⟨_, _, _, q13⟩ := @f32_sixteenths ℝ _ _
  obtain ⟨t1, t2⟩ := @accDist_f32_table ℝ _ _
  have key : ∀ (p e a : ℝ), 0 ≤ p → p ≤ 1 → 0 ≤ e → e ≤ 13 / 16 → 0 ≤ a →
      a ≤ 4194375 / 262144 →
      0 ≤ toInt (f32 (p + f32 (f32 e * a))) ∧ toInt (f32 (p + f32 (f32 e * a))) < 16 := by
    intro p e a hp0 hp1 he0 he1 ha0 ha1
    have e0 : (0 : ℝ) ≤ f32 e := by
      have := @f32_mono ℝ _ _ _ _ he0
      rwa [f32_zero] at this
    have e1 : f32 e ≤ 13 / 16 := by
      have := @f32_mono ℝ _ _ _ _ he1
      rwa [q13] at this
    have m0 : (0 : ℝ) ≤ f32 e * a := mul_nonneg e0 ha0
    have m1 : f32 e * a ≤ 14 := by
      have : f32 e * a ≤ 13 / 16 * (4194375 / 262144) := mul_le_mul e1 ha1 ha0 (by norm_num)
      linarith
    have r0 : (0 : ℝ) ≤ f32 (f32 e * a) := by
      have := @f32_mono ℝ _ _ _ _ m0
      rwa [f32_zero] at this
    have r1 : f32 (f32 e * a) ≤ 14 := by
      have := @f32_mono ℝ _ _ _ _ m1
      rwa [n14] at this
    have s0 : (0 : ℝ) ≤ f32 (p + f32 (f32 e * a)) := by
      have := @f32_mono ℝ _ _ 0 (p + f32 (f32 e * a)) (by linarith)
      rwa [f32_zero] at this
    have s1 : f32 (p + f32 (f32 e * a)) ≤ 15 := by
      have := @f32_mono ℝ _ _ (p + f32 (f32 e * a)) 15 (by linarith)
      rwa [n15] at this
    have := toInt_mem_range (f32 (p + f32 (f32 e * a))) 16 (by norm_num) (by linarith)
      (by push_cast; linarith)
    exact this
  unfold castRayF
  simp only []
  obtain ⟨s, h1, h2, h3⟩ := marchLoopF_open f32 m g (rayAngleOfF f32 g x)
    (f32 (m.sinf (rayAngleOfF f32 g x))) (f32 (m.cosf (rayAngleOfF f32 g x))) hw hh hlen hmap
    1600 (by rw [hd, t2]; norm_num) (fun j hj => by rw [hd]; exact (accDist_f32_lt_iff j).mpr hj)
    1600 fuel 0 ⟨0, false, false⟩ (by omega) hfuel (by simp [accDist]) rfl rfl
  rw [h1]
  rcases h3 with ⟨_, _, K, hK1, hK2, hK3⟩ | ⟨a, e⟩
  · exfalso
    apply hK3
    unfold inRange sampleXF sampleYF
    rw [hw, hh]
    have hacc0 : (0 : ℝ) ≤ accDist f32 K := by
      have := @accDist_f32_mono ℝ _ _ 0 K (by omega)
      simpa [accDist] using this
    have hacc1 : (accDist f32 K : ℝ) ≤ 4194375 / 262144 := by
      rw [← t2]
      exact accDist_f32_mono hK2
    have rx := key g.playerX _ _ hx0 hx1 hs0 hs1 hacc0 hacc1
    have ry := key g.playerY _ _ hy0 hy1 hc0 hc1 hacc0 hacc1
    omega
  · obtain ⟨d, hit, b⟩ := s
    simp only [] at h2 a e
    rw [h2, a, e, t2]

/-- The ray angle of the centre column of a 120-column screen, in single
precision, for the heading `3/4` and the constructor's field of view: it lies
in `[11/16, 13/16]`, and its sine and cosine lie in `[0, 13/16]`. -/
theorem rayAngleOfF_centre (g : Game ℝ) (hA : g.playerA = 3 / 4)
    (hfov : g.fov = (314159 / 100000) / 3) (hsw : g.screenWidth = 120) :
    (0 ≤ Real.sin (rayAngleOfF f32 g 60) ∧ Real.sin (rayAngleOfF f32 g 60) ≤ 13 / 16) ∧
      (0 ≤ Real.cos (rayAngleOfF f32 g 60) ∧ Real.cos (rayAngleOfF f32 g 60) ≤ 13 / 16) := by
  obtain ⟨q3, q9, q11, q13⟩ := @f32_sixteenths ℝ _ _
  obtain ⟨q1, q2, _, _, _⟩ := @f32_quarters ℝ _ _
  have n60 : f32 (60 : ℝ) = 60 := by simpa using @f32_natCast ℝ _ _ 60 (by norm_num)
  have n120 : f32 (120 : ℝ) = 120 := by simpa using @f32_natCast ℝ _ _ 120 (by norm_num)
  have a0 : (1 / 2 : ℝ) ≤ f32 (g.fov / 2) := by
    have := @f32_mono ℝ _ _ (1 / 2) (g.fov / 2) (by rw [hfov]; norm_num)
    rwa [q2] at this
  have a1 : f32 (g.fov / 2) ≤ 9 / 16 := by
    have := @f32_mono ℝ _ _ (g.fov / 2) (9 / 16) (by rw [hfov]; norm_num)
    rwa [q9] at this
  have b0 : (3 / 16 : ℝ) ≤ f32 (g.playerA - f32 (g.fov / 2)) := by
    have := @f32_mono ℝ _ _ (3 / 16) (g.playerA - f32 (g.fov / 2)) (by rw [hA]; linarith)
    rwa [q3] at this
  have b1 : f32 (g.playerA - f32 (g.fov / 2)) ≤ 1 / 4 := by
    have := @f32_mono ℝ _ _ (g.playerA - f32 (g.fov / 2)) (1 / 4) (by rw [hA]; linarith)
    rwa [q1] at this
  have c0 : (1 / 2 : ℝ) ≤ f32 (1 / 2 * g.fov) := by
    have := @f32_mono ℝ _ _ (1 / 2) (1 / 2 * g.fov) (by rw [hfov]; norm_num)
    rwa [q2] at this
  have c1 : f32 (1 / 2 * g.fov) ≤ 9 / 16 := by
    have := @f32_mono ℝ _ _ (1 / 2 * g.fov) (9 / 16) (by rw [hfov]; norm_num)
    rwa [q9] at this
  have hang : rayAngleOfF f32 g 60 =
      f32 (f32 (g.playerA - f32 (g.fov / 2)) + f32 (1 / 2 * g.fov)) := by
    unfold rayAngleOfF
    rw [hsw]
    push_cast
    rw [n60, n120, show (60 : ℝ) / 120 = 1 / 2 by norm_num, q2]
  have t0 : (11 / 16 : ℝ) ≤ rayAngleOfF f32 g 60 := by
    rw [hang]
    have := @f32_mono ℝ _ _ (11 / 16)
      (f32 (g.playerA - f32 (g.fov / 2)) + f32 (1 / 2 * g.fov)) (by linarith)
    rwa [q11] at this
  have t1 : rayAngleOfF f32 g 60 ≤ 13 / 16 := by
    rw [hang]
    have := @f32_mono ℝ _ _
      (f32 (g.playerA - f32 (g.fov / 2)) + f32 (1 / 2 * g.fov)) (13 / 16) (by linarith)
    rwa [q13] at this
  generalize rayAngleOfF f32 g 60 = θ at t0 t1
  have hpi := Real.pi_gt_three
  have hθ0 : 0 ≤ θ := by linarith
  refine ⟨⟨Real.sin_nonneg_of_nonneg_of_le_pi hθ0 (by linarith),
    (Real.sin_le hθ0).trans t1⟩,
    Real.cos_nonneg_of_neg_pi_div_two_le_of_le (by linarith) (by linarith), ?_⟩
  have hb := Real.cos_bound (by rw [abs_of_nonneg hθ0]; linarith : |θ| ≤ 1)
  rw [abs_of_nonneg hθ0] at hb
  have h2 := (abs_le.mp hb).2
  have hsq : (11 / 16 : ℝ) ^ 2 ≤ θ ^ 2 := pow_le_pow_left₀ (by norm_num) t0 2
  have h4 : θ ^ 4 ≤ (13 / 16 : ℝ) ^ 4 := pow_le_pow_left₀ hθ0 t1 4
  nlinarith

/-- Counterexample to **C1** as stated: on the 16x16 map without a wall
cell, with the constructor's depth 16 and field of view, the player at
`(0.5, 0.5)` with heading `0.75`: the ray of the centre column has an angle in
`[11/16, 13/16]`, both components of its direction lie in `[0, 13/16]`, each
of its 1600 samples lies in the grid, and the march in single precision ends
without a hit at the distance `16 + 71 / 2 ^ 18 = 16.00027…`, which is not
the depth 16. -/
theorem castRayF_open_inside :
    ('#' ∉ List.replicate 256 '.') ∧
    castRayF f32 ⟨Real.sin, Real.cos, Real.sqrt, Real.arccos⟩
      { (init : Game ℝ) with
        playerX := 1 / 2, playerY := 1 / 2, playerA := 3 / 4,
        gameMap := List.replicate 256 '.' }
      1600 60 = .ok ⟨4194375 / 262144, false, false⟩ ∧
    (4194375 / 262144 : ℝ) ≠ 16 := by
  refine ⟨fun h => absurd (List.eq_of_mem_replicate h) (by decide), ?_, by norm_num⟩
  obtain ⟨⟨s0, s1⟩, c0, c1⟩ := rayAngleOfF_centre
    { (init : Game ℝ) with
      playerX := 1 / 2, playerY := 1 / 2, playerA := 3 / 4,
      gameMap := List.replicate 256 '.' } rfl rfl rfl
  exact castRayF_diag_open _ _ 60 rfl rfl rfl (List.length_replicate 256 '.')
    (fun h => absurd (List.eq_of_mem_replicate h) (by decide))
    (by show (0 : ℝ) ≤ 1 / 2; norm_num) (by show (1 / 2 : ℝ) ≤ 1; norm_num)
    (by show (0 : ℝ) ≤ 1 / 2; norm_num) (by show (1 / 2 : ℝ) ≤ 1; norm_num)
    s0 s1 c0 c1 1600 le_rfl

/-- **C14** (distance cap, as the compiled program computes it).  With the
depth 16, for every map, every player pose and every column, the
`distanceToWall` with which the march of `CastRays` in single precision ends
is the depth 16 (a sample left the map) or one of the first 1600
single-precision sums of `0.01f`; the sums up to the 1599th are below 16 and
the 1600th is `16 + 71 / 2 ^ 18 = 16.00027…`.  So the distance is at most
`16 + 71 / 2 ^ 18`, and it exceeds the depth only when the march ran through
all 1600 passes, where it has that value.  On a 16x16 map stored in 256
characters the march returns for any fuel of at least 1600 passes. -/
theorem castRayF_distance_cap (m : MathFns α) (g : Game α) (fuel x : ℕ) (hd : g.depth = 16) :
    (∀ s, castRayF f32 m g fuel x = .ok s →
      s.distanceToWall ≤ 4194375 / 262144 ∧
      (s.distanceToWall ≤ 16 ∨ s.distanceToWall = 4194375 / 262144) ∧
      (s.distanceToWall = 16 ∨
        ∃ K : ℕ, K < 1600 ∧ s.distanceToWall = accDist f32 (K + 1))) ∧
    (accDist f32 1599 : α) < 16 ∧ (accDist f32 1600 : α) = 4194375 / 262144 ∧
    (g.mapWidth = 16 → g.mapHeight = 16 → g.gameMap.length = 256 → 1600 ≤ fuel →
      ∃ s, castRayF f32 m g fuel x = .ok s) := by
  obtain ⟨t1, t2⟩ := @accDist_f32_table α _ _
  refine ⟨fun s hs => ?_, by rw [t1]; norm_num, t2, fun hw hh hlen hfuel => ?_⟩
  · unfold castRayF at hs
    simp only [] at hs
    rcases marchLoopF_dist f32 m g _ _ _ fuel 0 ⟨0, false, false⟩ s (by simp [accDist]) hs
      with ⟨_, hc⟩ | h | ⟨K, _, hlt, hval⟩
    · exfalso
      apply hc
      simp only [true_and]
      rw [hd]
      norm_num
    · rw [hd] at h
      refine ⟨by rw [h]; norm_num, Or.inl (by rw [h]), Or.inl h⟩
    · rw [hd] at hlt
      have hK : K < 1600 := (accDist_f32_lt_iff K).mp hlt
      have hle : s.distanceToWall ≤ 4194375 / 262144 := by
        rw [hval, ← t2]
        exact accDist_f32_mono (by omega)
      refine ⟨hle, ?_, Or.inr ⟨K, hK, hval⟩⟩
      rcases Nat.lt_or_ge (K + 1) 1600 with h1 | h1
      · left
        rw [hval]
        exact ((accDist_f32_lt_iff (K + 1)).mpr h1).le
      · right
        have : K + 1 = 1600 := by omega
        rw [hval, this, t2]
  · unfold castRayF
    simp only []
    exact marchLoopF_total f32 m g _ _ _ hw hh hlen 1600 (by rw [hd, t2]; norm_num) 1600 fuel 0
      ⟨0, false, false⟩ (by omega) hfuel (Or.inr (by simp [accDist]))

/-- Witness of `castRayF_distance_cap`: the constructor's game, whose depth is
16, over the rationals. -/
theorem castRayF_distance_cap_witness :
    (init : Game ℚ).depth = 16 ∧
    ∃ s, castRayF f32 ratFns (init : Game ℚ) 1600 60 = .ok s ∧
      s.distanceToWall ≤ 4194375 / 262144 :=
  ⟨rfl, by
    obtain ⟨h1, _, _, h4⟩ := castRayF_distance_cap ratFns (init : Game ℚ) 1600 60 rfl
    obtain ⟨s, hs⟩ := h4 rfl rfl builtinMap_length le_rfl
    exact ⟨s, hs, (h1 s hs).1⟩⟩

/-- Counterexample to **C14** as stated: with the constructor's depth 16 and
field of view, on the 16x16 map without a wall cell, the player at
`(1, 0.25)` with heading `0.75`: the ray of the centre column stays inside the
grid for all 1600 passes and the march in single precision ends with
`distanceToWall = 16 + 71 / 2 ^ 18`, above the maximum render depth. -/
theorem castRayF_above_depth :
    ({ (init : Game ℝ) with
        playerX := 1, playerY := 1 / 4, playerA := 3 / 4,
        gameMap := List.replicate 256 '.' } : Game ℝ).depth = 16 ∧
    (∃ s, castRayF f32 ⟨Real.sin, Real.cos, Real.sqrt, Real.arccos⟩
      { (init : Game ℝ) with
        playerX := 1, playerY := 1 / 4, playerA := 3 / 4,
        gameMap := List.replicate 256 '.' }
      1600 60 = .ok s ∧ s.distanceToWall = 4194375 / 262144 ∧ 16 < s.distanceToWall) := by
  refine ⟨rfl, ⟨4194375 / 262144, false, false⟩, ?_, rfl, by norm_num⟩
  obtain ⟨⟨s0, s1⟩, c0, c1⟩ := rayAngleOfF_centre
    { (init : Game ℝ) with
      playerX := 1, playerY := 1 / 4, playerA := 3 / 4,
      gameMap := List.replicate 256 '.' } rfl rfl rfl
  exact castRayF_diag_open _ _ 60 rfl rfl rfl (List.length_replicate 256 '.')
    (fun h => absurd (List.eq_of_mem_replicate h) (by decide))
    (by show (0 : ℝ) ≤ 1; norm_num) (by show (1 : ℝ) ≤ 1; norm_num)
    (by show (0 : ℝ) ≤ 1 / 4; norm_num) (by show (1 / 4 : ℝ) ≤ 1; norm_num)
    s0 s1 c0 c1 1600 le_rfl

omit [FloorRing α] in
/-- If one pair of a four-element vector has a first component strictly above
those of the three others, and none of these three passes the comparison
`acos(dot) < bound`, the test on the sorted vector fails: the sort puts that
pair last, and the test does not look at it. -/
theorem nearCornerF_of_farthest (rnd : α → α) (m : MathFns α) (p : List (α × α))
    (q r1 r2 r3 : α × α) (hperm : p.Perm [q, r1, r2, r3]) (h1 : r1.1 < q.1)
    (h2 : r2.1 < q.1) (h3 : r3.1 < q.1) (f1 : seenAtCorner rnd m r1 = false)
    (f2 : seenAtCorner rnd m r2 = false) (f3 : seenAtCorner rnd m r3 = false) :
    nearCornerF rnd m (sortPairs p) = false := by
  have hperm1 := (sortPairs_perm p).trans hperm
  have hsorted := sortPairs_sorted p
  have hlen : (sortPairs p).length = 4 := by rw [hperm1.length_eq]; rfl
  have hcount := hperm1.countP_eq (fun s => decide (q.1 ≤ s.1))
  simp only [List.countP_cons, List.countP_nil, le_refl, decide_True, if_true,
    decide_eq_true_eq, not_le.mpr h1, not_le.mpr h2, not_le.mpr h3, if_false, zero_add,
    add_zero] at hcount
  generalize sortPairs p = l at hperm1 hsorted hlen hcount
  match l, hlen with
  | [s0, s1, s2, s3], _ =>
    have mem : ∀ s ∈ [s0, s1, s2, s3], s = q ∨ seenAtCorner rnd m s = false := by
      intro s hs
      have := hperm1.subset hs
      simp only [List.mem_cons, List.mem_singleton, List.not_mem_nil, or_false] at this
      rcases this with rfl | rfl | rfl | rfl
      · exact Or.inl rfl
      · exact Or.inr f1
      · exact Or.inr f2
      · exact Or.inr f3
    simp only [List.pairwise_cons, List.mem_cons, List.mem_singleton, forall_eq_or_imp,
      forall_eq, List.not_mem_nil, false_implies, implies_true, List.Pairwise.nil,
      and_true] at hsorted
    obtain ⟨⟨h01, h02, h03⟩, ⟨h12, h13⟩, h23⟩ := hsorted
    simp only [List.countP_cons, List.countP_nil, decide_eq_true_eq, zero_add] at hcount
    have key : ∀ s, s ∈ [s0, s1, s2] → s.1 ≤ s3.1 → seenAtCorner rnd m s = false := by
      intro s hs hle
      rcases mem s (by
        simp only [List.mem_cons, List.mem_singleton, List.not_mem_nil, or_false] at hs ⊢
        tauto) with hq | hf
      · exfalso
        have e3 : q.1 ≤ s3.1 := by rw [← hq]; exact hle
        simp only [List.mem_cons, List.mem_singleton, List.not_mem_nil, or_false] at hs
        rcases hs with rfl | rfl | rfl <;> subst hq <;>
          simp only [e3, le_refl, if_true] at hcount <;> split_ifs at hcount <;> omega
      · exact hf
    have k0 := key s0 (by simp) h03
    have k1 := key s1 (by simp) h13
    have k2 := key s2 (by simp) h23
    unfold nearCornerF
    simp [k0, k1, k2]

omit [FloorRing α] in
/-- The comparison `acos(dot) < bound` fails for a pair whose `dot` exceeds 1,
and for a pair whose `acos` is not below the bound. -/
theorem seenAtCorner_false (rnd : α → α) (m : MathFns α) (p : α × α)
    (h : 1 < p.2 ∨ rnd bound ≤ m.acos p.2) : seenAtCorner rnd m p = false := by
  unfold seenAtCorner
  rw [decide_eq_false_iff_not]
  rintro ⟨_, _, h1, h2⟩
  rcases h with h | h
  · exact absurd h1 (not_le.mpr h)
  · exact absurd h2 (not_lt.mpr h)

omit [FloorRing α] in
/-- The test on the sorted vector of the four corners with rounded operations
fails when one corner is strictly farther, by computed distance, than the
three others and none of these three passes the comparison. -/
theorem nearCornerF_of_far_corner (rnd : α → α) (m : MathFns α) (g : Game α)
    (testX testY : ℤ) (rayAngle : α) (i0 j0 : ℤ) (hi0 : i0 = 0 ∨ i0 = 1)
    (hj0 : j0 = 0 ∨ j0 = 1)
    (h : ∀ i j : ℤ, (i = 0 ∨ i = 1) → (j = 0 ∨ j = 1) → (i ≠ i0 ∨ j ≠ j0) →
      (cornerPairF rnd m g testX testY rayAngle i j).1 <
          (cornerPairF rnd m g testX testY rayAngle i0 j0).1 ∧
        seenAtCorner rnd m (cornerPairF rnd m g testX testY rayAngle i j) = false) :
    nearCornerF rnd m (sortPairs (cornerPairsF rnd m g testX testY rayAngle)) = false := by
  have z0 : (0 : ℤ) = 0 ∨ (0 : ℤ) = 1 := Or.inl rfl
  have z1 : (1 : ℤ) = 0 ∨ (1 : ℤ) = 1 := Or.inr rfl
  unfold cornerPairsF
  rcases hi0 with rfl | rfl <;> rcases hj0 with rfl | rfl
  · obtain ⟨a1, a2⟩ := h 0 1 z0 z1 (Or.inr (by norm_num))
    obtain ⟨b1, b2⟩ := h 1 0 z1 z0 (Or.inl (by norm_num))
    obtain ⟨c1, c2⟩ := h 1 1 z1 z1 (Or.inl (by norm_num))
    exact nearCornerF_of_farthest rnd m _ _ _ _ _ (List.Perm.refl _) a1 b1 c1 a2 b2 c2
  · obtain ⟨a1, a2⟩ := h 0 0 z0 z0 (Or.inr (by norm_num))
    obtain ⟨b1, b2⟩ := h 1 0 z1 z0 (Or.inl (by norm_num))
    obtain ⟨c1, c2⟩ := h 1 1 z1 z1 (Or.inl (by norm_num))
    exact nearCornerF_of_farthest rnd m _ _ _ _ _
      (@List.perm_middle _ (cornerPairF rnd m g testX testY rayAngle 0 1)
        [cornerPairF rnd m g testX testY rayAngle 0 0]
        [cornerPairF rnd m g testX testY rayAngle 1 0,
          cornerPairF rnd m g testX testY rayAngle 1 1])
      a1 b1 c1 a2 b2 c2
  · obtain ⟨a1, a2⟩ := h 0 0 z0 z0 (Or.inl (by norm_num))
    obtain ⟨b1, b2⟩ := h 0 1 z0 z1 (Or.inl (by norm_num))
    obtain ⟨c1, c2⟩ := h 1 1 z1 z1 (Or.inr (by norm_num))
    exact nearCornerF_of_farthest rnd m _ _ _ _ _
      (@List.perm_middle _ (cornerPairF rnd m g testX testY rayAngle 1 0)
        [cornerPairF rnd m g testX testY rayAngle 0 0,
          cornerPairF rnd m g testX testY rayAngle 0 1]
        [cornerPairF rnd m g testX testY rayAngle 1 1])
      a1 b1 c1 a2 b2 c2
  · obtain ⟨a1, a2⟩ := h 0 0 z0 z0 (Or.inl (by norm_num))
    obtain ⟨b1, b2⟩ := h 0 1 z0 z1 (Or.inl (by norm_num))
    obtain ⟨c1, c2⟩ := h 1 0 z1 z0 (Or.inr (by norm_num))
    exact nearCornerF_of_farthest rnd m _ _ _ _ _
      (@List.perm_middle _ (cornerPairF rnd m g testX testY rayAngle 1 1)
        [cornerPairF rnd m g testX testY rayAngle 0 0,
          cornerPairF rnd m g testX testY rayAngle 0 1,
          cornerPairF rnd m g testX testY rayAngle 1 0] [])
      a1 b1 c1 a2 b2 c2

/-- The sine and cosine of the angle `arcsin (96/265)`. -/
theorem sin_cos_arcsin_pythagorean :
    Real.sin (Real.arcsin (96 / 265)) = 96 / 265 ∧
      Real.cos (Real.arcsin (96 / 265)) = 247 / 265 := by
  refine ⟨Real.sin_arcsin (by norm_num) (by norm_num), ?_⟩
  rw [Real.cos_arcsin, show (1 : ℝ) - (96 / 265) ^ 2 = (247 / 265) * (247 / 265) by norm_num]
  exact Real.sqrt_mul_self (by norm_num)

/-- An upper bound of the `dot` that `HandleWallIntersection` computes in
binary32 from the rounded products `a` and `b` and a distance `d` of at least
`dlo`: every rounding is monotone and fixes the bounds `A`, `B` and `C`. -/
theorem dot_le_of_bounds (a b d dlo A B C : ℝ) (ha : 0 ≤ a) (hb : 0 ≤ b) (h0 : 0 < dlo)
    (hd : dlo ≤ d) (hA : a / dlo ≤ A) (fA : f32 A = A) (hB : b / dlo ≤ B) (fB : f32 B = B)
    (hC : A + B ≤ C) (fC : f32 C = C) : f32 (f32 (a / d) + f32 (b / d)) ≤ C := by
  have h1 : f32 (a / d) ≤ A := by
    rw [← fA]
    exact f32_mono ((div_le_div_of_nonneg_left ha h0 hd).trans hA)
  have h2 : f32 (b / d) ≤ B := by
    rw [← fB]
    exact f32_mono ((div_le_div_of_nonneg_left hb h0 hd).trans hB)
  rw [← fC]
  exact f32_mono (by linarith)

/-- The angle of a `dot` of at most `4095/4096` is not below the rounded
bound `0.01f`. -/
theorem f32_bound_le_arccos (x : ℝ) (h : x ≤ 4095 / 4096) : f32 (bound : ℝ) ≤ Real.arccos x := by
  have hb : f32 (bound : ℝ) ≤ 1 / 100 := by
    have h1 := @f32_stepSize ℝ _ _
    unfold stepSize at h1
    unfold bound
    rw [h1]
    norm_num
  have h1 : (bound : ℝ) ≤ Real.arccos x := bound_le_arccos x (by linarith)
  unfold bound at h1
  linarith

/-- The pairs `(d, dot)` that `HandleWallIntersection` computes in binary32 for
the four corners of the wall cell `(4, 7)` of the built-in map, for the player
at `(2.5, 3.140625)` and the ray of direction `(96/265, 247/265)`, which
points exactly at the corner `(4, 7)`, the nearest, at distance `4.140625`:
for that corner `d = 4.140625` and `dot = 1 + 2^-23`, above 1; the corners
`(4, 8)` and `(5, 7)` have `d ≤ 5.25` and `dot ≤ 4095/4096`; the corner
`(5, 8)` has `d ≥ 5.25 + 1/8`. -/
theorem cornerPairF_pythagorean :
    cornerPairF f32 ⟨Real.sin, Real.cos, Real.sqrt, Real.arccos⟩
        { (init : Game ℝ) with playerX := 5 / 2, playerY := 201 / 64 } 4 7 (Real.arcsin (96 / 265)) 0 0 = ((265 / 64), (8388609 / 8388608)) ∧
      ((cornerPairF f32 ⟨Real.sin, Real.cos, Real.sqrt, Real.arccos⟩
        { (init : Game ℝ) with playerX := 5 / 2, playerY := 201 / 64 } 4 7 (Real.arcsin (96 / 265)) 0 1).1 ≤ (21 / 4) ∧
       (cornerPairF f32 ⟨Real.sin, Real.cos, Real.sqrt, Real.arccos⟩
        { (init : Game ℝ) with playerX := 5 / 2, playerY := 201 / 64 } 4 7 (Real.arcsin (96 / 265)) 0 1).2 ≤ 4095 / 4096) ∧
      ((cornerPairF f32 ⟨Real.sin, Real.cos, Real.sqrt, Real.arccos⟩
        { (init : Game ℝ) with playerX := 5 / 2, playerY := 201 / 64 } 4 7 (Real.arcsin (96 / 265)) 1 0).1 ≤ (19 / 4) ∧
       (cornerPairF f32 ⟨Real.sin, Real.cos, Real.sqrt, Real.arccos⟩
        { (init : Game ℝ) with playerX := 5 / 2, playerY := 201 / 64 } 4 7 (Real.arcsin (96 / 265)) 1 0).2 ≤ 4095 / 4096) ∧
      (43 / 8) ≤ (cornerPairF f32 ⟨Real.sin, Real.cos, Real.sqrt, Real.arccos⟩
        { (init : Game ℝ) with playerX := 5 / 2, playerY := 201 / 64 } 4 7 (Real.arcsin (96 / 265)) 1 1).1 := by
  obtain ⟨hsin, hcos⟩ := sin_cos_arcsin_pythagorean
  have e1 : f32 (4 : ℝ) = 4 := by simpa using @f32_natCast ℝ _ _ 4 (by norm_num)
  have e2 : f32 (7 : ℝ) = 7 := by simpa using @f32_natCast ℝ _ _ 7 (by norm_num)
  have e3 : f32 (0 : ℝ) = 0 := f32_zero
  have e4 : f32 ((3 / 2) : ℝ) = (3 / 2) := by
    rw [f32_eval (3 / 2) (0) (1 / 8388608) 12582912 (by norm_num [zpow_neg]) (by norm_num) (by norm_num) (by norm_num) (roundEven_of_lt _ 12582912 (by norm_num) (by norm_num))]
    norm_num
  have e5 : f32 ((247 / 64) : ℝ) = (247 / 64) := by
    rw [f32_eval (247 / 64) (1) (1 / 4194304) 16187392 (by norm_num [zpow_neg]) (by norm_num) (by norm_num) (by norm_num) (roundEven_of_lt _ 16187392 (by norm_num) (by norm_num))]
    norm_num
  have e6 : f32 ((9 / 4) : ℝ) = (9 / 4) := by
    rw [f32_eval (9 / 4) (1) (1 / 4194304) 9437184 (by norm_num [zpow_neg]) (by norm_num) (by norm_num) (by norm_num) (roundEven_of_lt _ 9437184 (by norm_num) (by norm_num))]
    norm_num
  have e7 : f32 ((61009 / 4096) : ℝ) = (61009 / 4096) := by
    rw [f32_eval (61009 / 4096) (3) (1 / 1048576) 15618304 (by norm_num [zpow_neg]) (by norm_num) (by norm_num) (by norm_num) (roundEven_of_lt _ 15618304 (by norm_num) (by norm_num))]
    norm_num
  have e8 : f32 ((70225 / 4096) : ℝ) = (70225 / 4096) := by
    rw [f32_eval (70225 / 4096) (4) (1 / 524288) 8988800 (by norm_num [zpow_neg]) (by norm_num) (by norm_num) (by norm_num) (roundEven_of_lt _ 8988800 (by norm_num) (by norm_num))]
    norm_num
  have e9 : f32 ((96 / 265) : ℝ) = (759723 / 2097152) := by
    rw [f32_eval (96 / 265) (-2) (1 / 33554432) 12155568 (by norm_num [zpow_neg]) (by norm_num) (by norm_num) (by norm_num) (roundEven_of_gt _ 12155567 (by norm_num) (by norm_num))]
    norm_num
  have e10 : f32 ((247 / 265) : ℝ) = (122169 / 131072) := by
    rw [f32_eval (247 / 265) (-1) (1 / 16777216) 15637632 (by norm_num [zpow_neg]) (by norm_num) (by norm_num) (by norm_num) (roundEven_of_gt _ 15637631 (by norm_num) (by norm_num))]
    norm_num
  have e11 : f32 ((2279169 / 4194304) : ℝ) = (2279169 / 4194304) := by
    rw [f32_eval (2279169 / 4194304) (-1) (1 / 16777216) 9116676 (by norm_num [zpow_neg]) (by norm_num) (by norm_num) (by norm_num) (roundEven_of_lt _ 9116676 (by norm_num) (by norm_num))]
    norm_num
  have e12 : f32 ((30175743 / 8388608) : ℝ) = (58937 / 16384) := by
    rw [f32_eval (30175743 / 8388608) (1) (1 / 4194304) 15087872 (by norm_num [zpow_neg]) (by norm_num) (by norm_num) (by norm_num) ((roundEven_of_tie _ 15087871 (by norm_num)).trans (by norm_num))]
    norm_num
  have e13 : f32 (1 : ℝ) = 1 := by simpa using @f32_natCast ℝ _ _ 1 (by norm_num)
  have e14 : f32 (8 : ℝ) = 8 := by simpa using @f32_natCast ℝ _ _ 8 (by norm_num)
  have e15 : f32 ((311 / 64) : ℝ) = (311 / 64) := by
    rw [f32_eval (311 / 64) (2) (1 / 2097152) 10190848 (by norm_num [zpow_neg]) (by norm_num) (by norm_num) (by norm_num) (roundEven_of_lt _ 10190848 (by norm_num) (by norm_num))]
    norm_num
  have e16 : f32 ((96721 / 4096) : ℝ) = (96721 / 4096) := by
    rw [f32_eval (96721 / 4096) (4) (1 / 524288) 12380288 (by norm_num [zpow_neg]) (by norm_num) (by norm_num) (by norm_num) (roundEven_of_lt _ 12380288 (by norm_num) (by norm_num))]
    norm_num
  have e17 : f32 ((105937 / 4096) : ℝ) = (105937 / 4096) := by
    rw [f32_eval (105937 / 4096) (4) (1 / 524288) 13559936 (by norm_num [zpow_neg]) (by norm_num) (by norm_num) (by norm_num) (roundEven_of_lt _ 13559936 (by norm_num) (by norm_num))]
    norm_num
  have e18 : f32 ((37994559 / 8388608) : ℝ) = (593665 / 131072) := by
    rw [f32_eval (37994559 / 8388608) (2) (1 / 2097152) 9498640 (by norm_num [zpow_neg]) (by norm_num) (by norm_num) (by norm_num) (roundEven_of_gt _ 9498639 (by norm_num) (by norm_num))]
    norm_num
  have e19 : f32 (5 : ℝ) = 5 := by simpa using @f32_natCast ℝ _ _ 5 (by norm_num)
  have e20 : f32 ((5 / 2) : ℝ) = (5 / 2) := by
    rw [f32_eval (5 / 2) (1) (1 / 4194304) 10485760 (by norm_num [zpow_neg]) (by norm_num) (by norm_num) (by norm_num) (roundEven_of_lt _ 10485760 (by norm_num) (by norm_num))]
    norm_num
  have e21 : f32 ((25 / 4) : ℝ) = (25 / 4) := by
    rw [f32_eval (25 / 4) (2) (1 / 2097152) 13107200 (by norm_num [zpow_neg]) (by norm_num) (by norm_num) (by norm_num) (roundEven_of_lt _ 13107200 (by norm_num) (by norm_num))]
    norm_num
  have e22 : f32 ((86609 / 4096) : ℝ) = (86609 / 4096) := by
    rw [f32_eval (86609 / 4096) (4) (1 / 524288) 11085952 (by norm_num [zpow_neg]) (by norm_num) (by norm_num) (by norm_num) (roundEven_of_lt _ 11085952 (by norm_num) (by norm_num))]
    norm_num
  have e23 : f32 ((3798615 / 4194304) : ℝ) = (3798615 / 4194304) := by
    rw [f32_eval (3798615 / 4194304) (-1) (1 / 16777216) 15194460 (by norm_num [zpow_neg]) (by norm_num) (by norm_num) (by norm_num) (roundEven_of_lt _ 15194460 (by norm_num) (by norm_num))]
    norm_num
  have e24 : f32 ((122321 / 4096) : ℝ) = (122321 / 4096) := by
    rw [f32_eval (122321 / 4096) (4) (1 / 524288) 15657088 (by norm_num [zpow_neg]) (by norm_num) (by norm_num) (by norm_num) (roundEven_of_lt _ 15657088 (by norm_num) (by norm_num))]
    norm_num
  have e25 : f32 ((265 / 64) : ℝ) = (265 / 64) := by
    rw [f32_eval (265 / 64) (2) (1 / 2097152) 8683520 (by norm_num [zpow_neg]) (by norm_num) (by norm_num) (by norm_num) (roundEven_of_lt _ 8683520 (by norm_num) (by norm_num))]
    norm_num
  have e26 : f32 ((2279169 / 17367040) : ℝ) = (8807053 / 67108864) := by
    rw [f32_eval (2279169 / 17367040) (-3) (1 / 67108864) 8807053 (by norm_num [zpow_neg]) (by norm_num) (by norm_num) (by norm_num) (roundEven_of_lt _ 8807053 (by norm_num) (by norm_num))]
    norm_num
  have e27 : f32 ((58937 / 67840) : ℝ) = (7287727 / 8388608) := by
    rw [f32_eval (58937 / 67840) (-1) (1 / 16777216) 14575454 (by norm_num [zpow_neg]) (by norm_num) (by norm_num) (by norm_num) (roundEven_of_gt _ 14575453 (by norm_num) (by norm_num))]
    norm_num
  have e28 : f32 ((67108869 / 67108864) : ℝ) = (8388609 / 8388608) := by
    rw [f32_eval (67108869 / 67108864) (0) (1 / 8388608) 8388609 (by norm_num [zpow_neg]) (by norm_num) (by norm_num) (by norm_num) (roundEven_of_gt _ 8388608 (by norm_num) (by norm_num))]
    norm_num
  have e29 : f32 ((20829 / 4096) : ℝ) = (20829 / 4096) := by
    rw [f32_eval (20829 / 4096) (2) (1 / 2097152) 10664448 (by norm_num [zpow_neg]) (by norm_num) (by norm_num) (by norm_num) (roundEven_of_lt _ 10664448 (by norm_num) (by norm_num))]
    norm_num
  have e30 : f32 ((21 / 4) : ℝ) = (21 / 4) := by
    rw [f32_eval (21 / 4) (2) (1 / 2097152) 11010048 (by norm_num [zpow_neg]) (by norm_num) (by norm_num) (by norm_num) (roundEven_of_lt _ 11010048 (by norm_num) (by norm_num))]
    norm_num
  have e31 : f32 ((219 / 2048) : ℝ) = (219 / 2048) := by
    rw [f32_eval (219 / 2048) (-4) (1 / 134217728) 14352384 (by norm_num [zpow_neg]) (by norm_num) (by norm_num) (by norm_num) (roundEven_of_lt _ 14352384 (by norm_num) (by norm_num))]
    norm_num
  have e32 : f32 ((3649 / 4096) : ℝ) = (3649 / 4096) := by
    rw [f32_eval (3649 / 4096) (-1) (1 / 16777216) 14946304 (by norm_num [zpow_neg]) (by norm_num) (by norm_num) (by norm_num) (roundEven_of_lt _ 14946304 (by norm_num) (by norm_num))]
    norm_num
  have e33 : f32 ((4087 / 4096) : ℝ) = (4087 / 4096) := by
    rw [f32_eval (4087 / 4096) (-1) (1 / 16777216) 16740352 (by norm_num [zpow_neg]) (by norm_num) (by norm_num) (by norm_num) (roundEven_of_lt _ 16740352 (by norm_num) (by norm_num))]
    norm_num
  have e34 : f32 ((18833 / 4096) : ℝ) = (18833 / 4096) := by
    rw [f32_eval (18833 / 4096) (2) (1 / 2097152) 9642496 (by norm_num [zpow_neg]) (by norm_num) (by norm_num) (by norm_num) (roundEven_of_lt _ 9642496 (by norm_num) (by norm_num))]
    norm_num
  have e35 : f32 ((19 / 4) : ℝ) = (19 / 4) := by
    rw [f32_eval (19 / 4) (2) (1 / 2097152) 9961472 (by norm_num [zpow_neg]) (by norm_num) (by norm_num) (by norm_num) (roundEven_of_lt _ 9961472 (by norm_num) (by norm_num))]
    norm_num
  have e36 : f32 ((807 / 4096) : ℝ) = (807 / 4096) := by
    rw [f32_eval (807 / 4096) (-3) (1 / 67108864) 13221888 (by norm_num [zpow_neg]) (by norm_num) (by norm_num) (by norm_num) (roundEven_of_lt _ 13221888 (by norm_num) (by norm_num))]
    norm_num
  have e37 : f32 ((3205 / 4096) : ℝ) = (3205 / 4096) := by
    rw [f32_eval (3205 / 4096) (-1) (1 / 16777216) 13127680 (by norm_num [zpow_neg]) (by norm_num) (by norm_num) (by norm_num) (roundEven_of_lt _ 13127680 (by norm_num) (by norm_num))]
    norm_num
  have e38 : f32 ((1003 / 1024) : ℝ) = (1003 / 1024) := by
    rw [f32_eval (1003 / 1024) (-1) (1 / 16777216) 16433152 (by norm_num [zpow_neg]) (by norm_num) (by norm_num) (by norm_num) (roundEven_of_lt _ 16433152 (by norm_num) (by norm_num))]
    norm_num
  have e39 : f32 ((43 / 8) : ℝ) = (43 / 8) := by
    rw [f32_eval (43 / 8) (2) (1 / 2097152) 11272192 (by norm_num [zpow_neg]) (by norm_num) (by norm_num) (by norm_num) (roundEven_of_lt _ 11272192 (by norm_num) (by norm_num))]
    norm_num
  have e40 : f32 ((4095 / 4096) : ℝ) = (4095 / 4096) := by
    rw [f32_eval (4095 / 4096) (-1) (1 / 16777216) 16773120 (by norm_num [zpow_neg]) (by norm_num) (by norm_num) (by norm_num) (roundEven_of_lt _ 16773120 (by norm_num) (by norm_num))]
    norm_num
  have hs : Real.sqrt ((70225 / 4096)) = (265 / 64) := by
    rw [show ((70225 / 4096) : ℝ) = (265 / 64) * (265 / 64) by norm_num]
    exact Real.sqrt_mul_self (by norm_num)
  refine ⟨?_, ⟨?_, ?_⟩, ⟨?_, ?_⟩, ?_⟩
  · unfold cornerPairF
    simp only [hsin,
      hcos,
      Int.cast_ofNat,
      Int.cast_zero,
      Int.cast_one,
      add_zero,
      e1,
      e2,
      e3,
      show (4 - (5 / 2) : ℝ) = (3 / 2) by norm_num,
      show (7 - (201 / 64) : ℝ) = (247 / 64) by norm_num,
      e4,
      e5,
      show ((3 / 2) * (3 / 2) : ℝ) = (9 / 4) by norm_num,
      show ((247 / 64) * (247 / 64) : ℝ) = (61009 / 4096) by norm_num,
      e6,
      e7,
      show ((9 / 4) + (61009 / 4096) : ℝ) = (70225 / 4096) by norm_num,
      e8,
      e9,
      e10,
      show ((759723 / 2097152) * (3 / 2) : ℝ) = (2279169 / 4194304) by norm_num,
      show ((122169 / 131072) * (247 / 64) : ℝ) = (30175743 / 8388608) by norm_num,
      e11,
      e12,
      hs,
      e25,
      show ((2279169 / 4194304) / (265 / 64) : ℝ) = (2279169 / 17367040) by norm_num,
      show ((58937 / 16384) / (265 / 64) : ℝ) = (58937 / 67840) by norm_num,
      e26,
      e27,
      show ((8807053 / 67108864) + (7287727 / 8388608) : ℝ) = (67108869 / 67108864) by norm_num,
      e28]
  · unfold cornerPairF
    simp only [hsin,
      hcos,
      Int.cast_ofNat,
      Int.cast_zero,
      Int.cast_one,
      add_zero,
      e1,
      e2,
      e3,
      e13,
      show (7 + 1 : ℝ) = 8 by norm_num,
      e14,
      show (4 - (5 / 2) : ℝ) = (3 / 2) by norm_num,
      show (8 - (201 / 64) : ℝ) = (311 / 64) by norm_num,
      e4,
      e15,
      show ((3 / 2) * (3 / 2) : ℝ) = (9 / 4) by norm_num,
      show ((311 / 64) * (311 / 64) : ℝ) = (96721 / 4096) by norm_num,
      e6,
      e16,
      show ((9 / 4) + (96721 / 4096) : ℝ) = (105937 / 4096) by norm_num,
      e17,
      e9,
      e10,
      show ((759723 / 2097152) * (3 / 2) : ℝ) = (2279169 / 4194304) by norm_num,
      show ((122169 / 131072) * (311 / 64) : ℝ) = (37994559 / 8388608) by norm_num,
      e11,
      e18]
    rw [← e30]
    exact f32_mono (Real.sqrt_le_iff.mpr ⟨by norm_num, by norm_num⟩)
  · unfold cornerPairF
    simp only [hsin,
      hcos,
      Int.cast_ofNat,
      Int.cast_zero,
      Int.cast_one,
      add_zero,
      e1,
      e2,
      e3,
      e13,
      show (7 + 1 : ℝ) = 8 by norm_num,
      e14,
      show (4 - (5 / 2) : ℝ) = (3 / 2) by norm_num,
      show (8 - (201 / 64) : ℝ) = (311 / 64) by norm_num,
      e4,
      e15,
      show ((3 / 2) * (3 / 2) : ℝ) = (9 / 4) by norm_num,
      show ((311 / 64) * (311 / 64) : ℝ) = (96721 / 4096) by norm_num,
      e6,
      e16,
      show ((9 / 4) + (96721 / 4096) : ℝ) = (105937 / 4096) by norm_num,
      e17,
      e9,
      e10,
      show ((759723 / 2097152) * (3 / 2) : ℝ) = (2279169 / 4194304) by norm_num,
      show ((122169 / 131072) * (311 / 64) : ℝ) = (37994559 / 8388608) by norm_num,
      e11,
      e18]
    have hd : ((20829 / 4096) : ℝ) ≤ f32 (Real.sqrt ((105937 / 4096))) := by
      rw [← e29]
      exact f32_mono (Real.le_sqrt_of_sq_le (by norm_num))
    exact (dot_le_of_bounds _ _ _ ((20829 / 4096)) ((219 / 2048)) ((3649 / 4096)) ((4087 / 4096)) (by norm_num) (by norm_num) (by norm_num) hd
      (by norm_num) e31 (by norm_num) e32 (by norm_num) e33).trans (by norm_num)
  · unfold cornerPairF
    simp only [hsin,
      hcos,
      Int.cast_ofNat,
      Int.cast_zero,
      Int.cast_one,
      add_zero,
      e1,
      e2,
      e13,
      e3,
      show (4 + 1 : ℝ) = 5 by norm_num,
      e19,
      show (5 - (5 / 2) : ℝ) = (5 / 2) by norm_num,
      show (7 - (201 / 64) : ℝ) = (247 / 64) by norm_num,
      e20,
      e5,
      show ((5 / 2) * (5 / 2) : ℝ) = (25 / 4) by norm_num,
      show ((247 / 64) * (247 / 64) : ℝ) = (61009 / 4096) by norm_num,
      e21,
      e7,
      show ((25 / 4) + (61009 / 4096) : ℝ) = (86609 / 4096) by norm_num,
      e22,
      e9,
      e10,
      show ((759723 / 2097152) * (5 / 2) : ℝ) = (3798615 / 4194304) by norm_num,
      show ((122169 / 131072) * (247 / 64) : ℝ) = (30175743 / 8388608) by norm_num,
      e23,
      e12]
    rw [← e35]
    exact f32_mono (Real.sqrt_le_iff.mpr ⟨by norm_num, by norm_num⟩)
  · unfold cornerPairF
    simp only [hsin,
      hcos,
      Int.cast_ofNat,
      Int.cast_zero,
      Int.cast_one,
      add_zero,
      e1,
      e2,
      e13,
      e3,
      show (4 + 1 : ℝ) = 5 by norm_num,
      e19,
      show (5 - (5 / 2) : ℝ) = (5 / 2) by norm_num,
      show (7 - (201 / 64) : ℝ) = (247 / 64) by norm_num,
      e20,
      e5,
      show ((5 / 2) * (5 / 2) : ℝ) = (25 / 4) by norm_num,
      show ((247 / 64) * (247 / 64) : ℝ) = (61009 / 4096) by norm_num,
      e21,
      e7,
      show ((25 / 4) + (61009 / 4096) : ℝ) = (86609 / 4096) by norm_num,
      e22,
      e9,
      e10,
      show ((759723 / 2097152) * (5 / 2) : ℝ) = (3798615 / 4194304) by norm_num,
      show ((122169 / 131072) * (247 / 64) : ℝ) = (30175743 / 8388608) by norm_num,
      e23,
      e12]
    have hd : ((18833 / 4096) : ℝ) ≤ f32 (Real.sqrt ((86609 / 4096))) := by
      rw [← e34]
      exact f32_mono (Real.le_sqrt_of_sq_le (by norm_num))
    exact (dot_le_of_bounds _ _ _ ((18833 / 4096)) ((807 / 4096)) ((3205 / 4096)) ((1003 / 1024)) (by norm_num) (by norm_num) (by norm_num) hd
      (by norm_num) e36 (by norm_num) e37 (by norm_num) e38).trans (by norm_num)
  · unfold cornerPairF
    simp only [hsin,
      hcos,
      Int.cast_ofNat,
      Int.cast_zero,
      Int.cast_one,
      add_zero,
      e1,
      e2,
      e13,
      show (4 + 1 : ℝ) = 5 by norm_num,
      show (7 + 1 : ℝ) = 8 by norm_num,
      e19,
      e14,
      show (5 - (5 / 2) : ℝ) = (5 / 2) by norm_num,
      show (8 - (201 / 64) : ℝ) = (311 / 64) by norm_num,
      e20,
      e15,
      show ((5 / 2) * (5 / 2) : ℝ) = (25 / 4) by norm_num,
      show ((311 / 64) * (311 / 64) : ℝ) = (96721 / 4096) by norm_num,
      e21,
      e16,
      show ((25 / 4) + (96721 / 4096) : ℝ) = (122321 / 4096) by norm_num,
      e24,
      e9,
      e10,
      show ((759723 / 2097152) * (5 / 2) : ℝ) = (3798615 / 4194304) by norm_num,
      show ((122169 / 131072) * (311 / 64) : ℝ) = (37994559 / 8388608) by norm_num,
      e23,
      e18]
    rw [← e39]
    exact f32_mono (Real.le_sqrt_of_sq_le (by norm_num))
/-- Rounding lifts the `dot` of a corner above 1.  In binary32, on the
built-in map, for the player at `(2.5, 3.140625)` and the ray of direction
`(96/265, 247/265)`, which points exactly at the corner `(4, 7)` of the wall
cell `(4, 7)`, the nearest of its corners, at distance `4.140625`: the `dot`
computed for that corner is `1 + 2^-23`, for which `acos` has no value, the
corners `(4, 8)` and `(5, 7)` are more than `0.01` rad away from the ray, the
corner `(5, 8)` is the farthest, and `HandleWallIntersection` leaves
`boundary = false`. -/
theorem HandleWallIntersectionF_dot_above_one :
    Real.sin (Real.arcsin (96 / 265)) = 96 / 265 ∧
    Real.cos (Real.arcsin (96 / 265)) = 247 / 265 ∧
    (5 / 2 : ℝ) + 265 / 64 * (96 / 265) = ((4 : ℤ) : ℝ) ∧
    (201 / 64 : ℝ) + 265 / 64 * (247 / 265) = ((7 : ℤ) : ℝ) ∧
    (cornerPairF f32 ⟨Real.sin, Real.cos, Real.sqrt, Real.arccos⟩
      { (init : Game ℝ) with playerX := 5 / 2, playerY := 201 / 64 } 4 7
      (Real.arcsin (96 / 265)) 0 0).2 = 1 + 1 / 8388608 ∧
    HandleWallIntersectionF f32 ⟨Real.sin, Real.cos, Real.sqrt, Real.arccos⟩
      { (init : Game ℝ) with playerX := 5 / 2, playerY := 201 / 64 } 4 7 (265 / 64)
      false false (Real.arcsin (96 / 265)) = .ok (true, false) := by
  obtain ⟨h00, ⟨d01, t01⟩, ⟨d10, t10⟩, d11⟩ := cornerPairF_pythagorean
  refine ⟨sin_cos_arcsin_pythagorean.1, sin_cos_arcsin_pythagorean.2, by norm_num,
    by norm_num, by rw [h00]; norm_num, ?_⟩
  rw [HandleWallIntersectionF_wall f32 ⟨Real.sin, Real.cos, Real.sqrt, Real.arccos⟩
    { (init : Game ℝ) with playerX := 5 / 2, playerY := 201 / 64 } 4 7 (265 / 64) false false
    (Real.arcsin (96 / 265)) builtinMap_cell_4_7,
    nearCornerF_of_far_corner f32 ⟨Real.sin, Real.cos, Real.sqrt, Real.arccos⟩
      { (init : Game ℝ) with playerX := 5 / 2, playerY := 201 / 64 } 4 7
      (Real.arcsin (96 / 265)) 1 1 (Or.inr rfl) (Or.inr rfl) (fun i j hi hj hne => ?_)]
  · rfl
  · rcases hi with rfl | rfl <;> rcases hj with rfl | rfl
    · refine ⟨by rw [h00]; exact lt_of_lt_of_le (by norm_num) d11,
        seenAtCorner_false _ _ _ (Or.inl (by rw [h00]; norm_num))⟩
    · exact ⟨lt_of_le_of_lt d01 (lt_of_lt_of_le (by norm_num) d11),
        seenAtCorner_false _ _ _ (Or.inr (f32_bound_le_arccos _ t01))⟩
    · exact ⟨lt_of_le_of_lt d10 (lt_of_lt_of_le (by norm_num) d11),
        seenAtCorner_false _ _ _ (Or.inr (f32_bound_le_arccos _ t10))⟩
    · rcases hne with h | h <;> exact absurd rfl h

end Lemmas
end Raycaster
